import Mathlib

/-!
# Flooji: the just-intonation tuning engine of `FluidJustIntonationProcessor`

A shallow embedding of `Source/PluginProcessor.cpp`, of the oscillator voice of
`Source/Synthesizer.cpp` and of the note tuning of `Source/SoundFontPlayer.cpp`.

Conventions of the embedding.

* C++ `int` is `ℤ`.  `/` and `%` on `int` truncate toward zero, so they are
  `Int.tdiv` and `Int.tmod`.  The operands of the arithmetic on `int` (MIDI
  notes, measure indices) are far from the 32-bit limits and wrap-around is not
  modelled.
* C++ `double` is an ordered field `F` with a floor function, computed
  exactly (no rounding).  `std::pow` is the argument `pow`; the theorems
  instantiate `F` with `ℝ` and `pow` with the real power function.
* An access outside the 16-slot array `measureRoots` and a remainder by zero
  are undefined behaviour in C++; the functions that can reach one return
  `Option` and yield `none` there.
* The conversion of a `double` to `int` truncates; where the value does not fit
  the 32-bit `int`, which C++ leaves undefined, it yields `INT_MIN` as on x86-64
  (`truncToInt`).
* `std::log2` is the argument `log2`, instantiated with the real logarithm to
  base 2.  Where the sample player computes in `float`, each result is rounded
  to the nearest value with 24 significant bits (`toFloat`).
* `std::map<int, double>` is a partial function `ℤ → Option F`.  The JUCE and
  tinysoundfont libraries are outside the repository: the few JUCE functions used
  are written out from the library, and tinysoundfont is recorded as the list of
  calls made on it.  The pitch wheel of a channel is read off that list
  (`pitchWheelStep`), following the library's description of its calls.
-/

set_option linter.unusedVariables false

namespace Flooji

/-- The enum `IntonationMode` of `PluginProcessor.h`. -/
inductive IntonationMode where
  | Set
  | Shift
  deriving DecidableEq

/-- The constant `CONCERT_A_FREQ` (A4 reference frequency). -/
def CONCERT_A_FREQ {F : Type} [LinearOrderedField F] : F := 440

/-- The constant `MAX_SEQUENCE_LENGTH`. -/
def MAX_SEQUENCE_LENGTH : ℤ := 16

/-- The function `calculateJustRatios`: the static table `justRatios`, the same
for every root note. -/
def calculateJustRatios {F : Type} [LinearOrderedField F] (_rootNote : ℤ) : List F :=
  [1, 16 / 15, 9 / 8, 6 / 5, 5 / 4, 4 / 3, 45 / 32, 3 / 2, 8 / 5, 5 / 3, 9 / 5, 15 / 8]

/-- The function `calculateFrequencyInScale`.  The read `ratios[intervalWithinOctave]`
is always inside the table (see `intervalWithinOctave_lt`), so it is modelled by a
total list read. -/
def calculateFrequencyInScale {F : Type} [LinearOrderedField F] (pow : F → F → F)
    (noteToPlay scaleRoot : ℤ) (scaleRootFreq : F) : F :=
  let semitoneDistance := noteToPlay - scaleRoot
  let octaves := Int.tdiv semitoneDistance 12
  let intervalWithinOctave := Int.tmod semitoneDistance 12
  let octaves' := if intervalWithinOctave < 0 then octaves - 1 else octaves
  let intervalWithinOctave' :=
    if intervalWithinOctave < 0 then intervalWithinOctave + 12 else intervalWithinOctave
  let ratios : List F := calculateJustRatios scaleRoot
  let ratio := ratios.getD intervalWithinOctave'.toNat 0
  let ratio := ratio * pow 2 (octaves' : F)
  scaleRootFreq * ratio

/-- The state fields of `FluidJustIntonationProcessor` that the tuning engine uses. -/
structure Processor (F : Type) where
  sequenceLength : ℤ
  intonationMode : IntonationMode
  measureRoots : Fin 16 → ℤ
  currentMeasure : ℤ
  previousMeasure : ℤ
  ppqPosition : F
  bpm : F
  wasPlaying : Bool
  accumulatedDriftFrequency : F
  hasAccumulatedDrift : Bool
  currentFrequencyMap : ℤ → Option F

/-- The state after the constructor: the member initialisers of the header and
all measure roots set to middle C. -/
def Processor.initial {F : Type} [LinearOrderedField F] : Processor F where
  sequenceLength := 4
  intonationMode := IntonationMode.Set
  measureRoots := fun _ => 60
  currentMeasure := 0
  previousMeasure := -1
  ppqPosition := 0
  bpm := 120
  wasPlaying := false
  accumulatedDriftFrequency := 0
  hasAccumulatedDrift := false
  currentFrequencyMap := fun _ => none

/-- The raw array read `measureRoots[i]` with an `int` index: `none` outside the
16 slots. -/
def Processor.rootAt {F : Type} (s : Processor F) (i : ℤ) : Option ℤ :=
  if h : 0 ≤ i ∧ i < 16 then some (s.measureRoots ⟨i.toNat, by omega⟩) else none

/-- The expression `CONCERT_A_FREQ * std::pow(2.0, (root - 69) / 12.0)`, which the
source repeats at every 12-TET base case. -/
def twelveTet {F : Type} [LinearOrderedField F] (pow : F → F → F) (root : ℤ) : F :=
  CONCERT_A_FREQ * pow 2 (((root - 69 : ℤ) : F) / 12)

/-- The function `resetAccumulatedDrift`. -/
def resetAccumulatedDrift {F : Type} [LinearOrderedField F] (s : Processor F) : Processor F :=
  { s with accumulatedDriftFrequency := 0, hasAccumulatedDrift := false }

/-- The function `setSequenceLength`. -/
def setSequenceLength {F : Type} [LinearOrderedField F] (s : Processor F) (length : ℤ) :
    Processor F :=
  if length = 4 ∨ length = 8 ∨ length = 12 ∨ length = 16 then
    let s1 := if length ≠ s.sequenceLength then resetAccumulatedDrift s else s
    { s1 with sequenceLength := length }
  else s

/-- The function `setIntonationMode`. -/
def setIntonationMode {F : Type} [LinearOrderedField F] (s : Processor F)
    (mode : IntonationMode) : Processor F :=
  let s1 :=
    if mode = IntonationMode.Set ∧ s.intonationMode = IntonationMode.Shift then
      resetAccumulatedDrift s
    else s
  { s1 with intonationMode := mode }

/-- The function `setMeasureRoot`. -/
def setMeasureRoot {F : Type} (s : Processor F) (measureIndex rootNote : ℤ) : Processor F :=
  if 0 ≤ measureIndex ∧ measureIndex < MAX_SEQUENCE_LENGTH then
    { s with measureRoots := fun j => if (j : ℤ) = measureIndex then rootNote else s.measureRoots j }
  else s

/-- The function `getMeasureRoot`. -/
def getMeasureRoot {F : Type} (s : Processor F) (measureIndex : ℤ) : ℤ :=
  if h : 0 ≤ measureIndex ∧ measureIndex < MAX_SEQUENCE_LENGTH then
    s.measureRoots ⟨measureIndex.toNat, by unfold MAX_SEQUENCE_LENGTH at h; omega⟩
  else 60

/-- The function `getCurrentMeasureRootFrequencyForMeasure`. -/
def getCurrentMeasureRootFrequencyForMeasure {F : Type} [LinearOrderedField F]
    (pow : F → F → F) (s : Processor F) (measureIndex : ℤ) : Option F :=
  match hroot : s.rootAt measureIndex with
  | none => none
  | some rootForMeasure =>
    if s.intonationMode = IntonationMode.Set then
      if measureIndex = 0 then
        some (CONCERT_A_FREQ * pow 2 (((rootForMeasure - 69 : ℤ) : F) / 12))
      else
        let measure0Root := s.measureRoots 0
        let measure0RootFreq := CONCERT_A_FREQ * pow 2 (((measure0Root - 69 : ℤ) : F) / 12)
        some (calculateFrequencyInScale pow rootForMeasure measure0Root measure0RootFreq)
    else
      if h0 : measureIndex = 0 then
        if s.hasAccumulatedDrift then
          match s.rootAt (s.sequenceLength - 1) with
          | none => none
          | some lastMeasureRoot =>
            some (calculateFrequencyInScale pow rootForMeasure lastMeasureRoot
              s.accumulatedDriftFrequency)
        else
          some (CONCERT_A_FREQ * pow 2 (((rootForMeasure - 69 : ℤ) : F) / 12))
      else
        let previousMeasureIdx := measureIndex - 1
        match s.rootAt previousMeasureIdx with
        | none => none
        | some previousRoot =>
          match getCurrentMeasureRootFrequencyForMeasure pow s previousMeasureIdx with
          | none => none
          | some previousRootFreq =>
            some (calculateFrequencyInScale pow rootForMeasure previousRoot previousRootFreq)
termination_by measureIndex.toNat
decreasing_by
  have hb : 0 ≤ measureIndex := by
    unfold Processor.rootAt at hroot
    split at hroot
    · omega
    · simp at hroot
  omega

/-- The function `getCurrentMeasureRootFrequency`: the same derivation for the
current measure, written out a second time in the source. -/
def getCurrentMeasureRootFrequency {F : Type} [LinearOrderedField F]
    (pow : F → F → F) (s : Processor F) : Option F :=
  match s.rootAt s.currentMeasure with
  | none => none
  | some currentRoot =>
    if s.intonationMode = IntonationMode.Set then
      if s.currentMeasure = 0 then
        some (CONCERT_A_FREQ * pow 2 (((currentRoot - 69 : ℤ) : F) / 12))
      else
        let measure0Root := s.measureRoots 0
        let measure0RootFreq := CONCERT_A_FREQ * pow 2 (((measure0Root - 69 : ℤ) : F) / 12)
        some (calculateFrequencyInScale pow currentRoot measure0Root measure0RootFreq)
    else
      if s.currentMeasure = 0 then
        if s.hasAccumulatedDrift then
          match s.rootAt (s.sequenceLength - 1) with
          | none => none
          | some lastMeasureRoot =>
            some (calculateFrequencyInScale pow currentRoot lastMeasureRoot
              s.accumulatedDriftFrequency)
        else
          some (CONCERT_A_FREQ * pow 2 (((currentRoot - 69 : ℤ) : F) / 12))
      else
        let previousMeasureIdx := s.currentMeasure - 1
        match s.rootAt previousMeasureIdx with
        | none => none
        | some previousRoot =>
          match getCurrentMeasureRootFrequencyForMeasure pow s previousMeasureIdx with
          | none => none
          | some previousRootFreq =>
            some (calculateFrequencyInScale pow currentRoot previousRoot previousRootFreq)

/-- The function `midiNoteToFrequency`. -/
def midiNoteToFrequency {F : Type} [LinearOrderedField F]
    (pow : F → F → F) (s : Processor F) (midiNote : ℤ) : Option F :=
  match getCurrentMeasureRootFrequency pow s with
  | none => none
  | some rootFreq =>
    match s.rootAt s.currentMeasure with
    | none => none
    | some currentRoot => some (calculateFrequencyInScale pow midiNote currentRoot rootFreq)

/-- One turn of the loop of `updateFrequencyMap`:
`currentFrequencyMap[note] = midiNoteToFrequency(note)`. -/
def updateFrequencyMapStep {F : Type} [LinearOrderedField F]
    (pow : F → F → F) (s : Processor F) (note : ℕ) : Option (Processor F) :=
  match midiNoteToFrequency pow s (note : ℤ) with
  | none => none
  | some freq =>
    some { s with currentFrequencyMap := Function.update s.currentFrequencyMap (note : ℤ) (some freq) }

/-- The function `updateFrequencyMap`: clear the map, then fill it for the notes
`0 .. 127` in order.  (Handing the map to the synthesizer leaves the processor's
own fields as they are.) -/
def updateFrequencyMap {F : Type} [LinearOrderedField F]
    (pow : F → F → F) (s : Processor F) : Option (Processor F) :=
  (List.range 128).foldlM (updateFrequencyMapStep pow)
    { s with currentFrequencyMap := fun _ => none }

/-- The conversion `static_cast<int>(x)` of a `double` or `float`: truncation toward
zero.  When the truncated value does not fit the 32-bit `int` the conversion is undefined
in C++; the embedding follows the conversion instruction of x86-64, which yields
`INT_MIN` there. -/
def truncToInt {F : Type} [LinearOrderedField F] [FloorRing F] (x : F) : ℤ :=
  let truncated : ℤ := if 0 ≤ x then ⌊x⌋ else ⌈x⌉
  if -2147483648 ≤ truncated ∧ truncated ≤ 2147483647 then truncated else -2147483648

/-- What `AudioPlayHead::getPosition()` yields when it yields something: the
fields `updateCurrentMeasure` reads. -/
structure PositionInfo (F : Type) where
  isPlaying : Bool
  ppqPosition : Option F
  bpm : Option F

/-- The play head handed over by the host; `position` is the optional result of
`getPosition()`. -/
structure PlayHead (F : Type) where
  position : Option (PositionInfo F)

/-- The function `updateCurrentMeasure`; `playHead = none` is the null pointer. -/
def updateCurrentMeasure {F : Type} [LinearOrderedField F] [FloorRing F]
    (pow : F → F → F) (s : Processor F) (playHead : Option (PlayHead F)) :
    Option (Processor F) :=
  match playHead with
  | none => some s
  | some ph =>
    match ph.position with
    | none => some s
    | some position =>
      let isPlaying := position.isPlaying
      let s1 :=
        if s.wasPlaying = true ∧ isPlaying = false then
          { resetAccumulatedDrift s with previousMeasure := -1, currentMeasure := 0 }
        else s
      let s2 := { s1 with wasPlaying := isPlaying }
      match position.ppqPosition with
      | none => some s2
      | some ppq =>
        let s3 := { s2 with ppqPosition := ppq, bpm := position.bpm.getD 120 }
        let measuresPassed := truncToInt (s3.ppqPosition / 4)
        if s3.sequenceLength = 0 then none
        else
          let newMeasure := Int.tmod measuresPassed s3.sequenceLength
          if s3.intonationMode = IntonationMode.Shift ∧
              s3.previousMeasure = s3.sequenceLength - 1 ∧
              newMeasure = 0 ∧
              s3.previousMeasure ≠ -1 then
            match getCurrentMeasureRootFrequencyForMeasure pow s3 (s3.sequenceLength - 1) with
            | none => none
            | some lastFreq =>
              let s4 := { s3 with accumulatedDriftFrequency := lastFreq,
                                  hasAccumulatedDrift := true }
              some { s4 with previousMeasure := s4.currentMeasure, currentMeasure := newMeasure }
          else
            some { s3 with previousMeasure := s3.currentMeasure, currentMeasure := newMeasure }

/-- A run of per-block transport updates: `updateCurrentMeasure` once per audio block,
with that block's play-head reading. -/
def runTransport {F : Type} [LinearOrderedField F] [FloorRing F]
    (pow : F → F → F) (s : Processor F) (blocks : List (Option (PlayHead F))) :
    Option (Processor F) :=
  blocks.foldlM (updateCurrentMeasure pow) s

/-- The play-head reading of a host that is playing at beat `ppq` and reports no
tempo. -/
def playingAt {F : Type} (ppq : F) : Option (PlayHead F) :=
  some { position := some { isPlaying := true, ppqPosition := some ppq, bpm := none } }

/-- The play-head reading of a host that is stopped at beat `ppq` and reports no
tempo. -/
def stoppedAt {F : Type} (ppq : F) : Option (PlayHead F) :=
  some { position := some { isPlaying := false, ppqPosition := some ppq, bpm := none } }

/-- The just ratio, octave factor included, of a step of `d` semitones as the
specification words it: the table entry of the floored remainder of `d` by 12 times
two to the floored quotient. -/
def justStepRatio {F : Type} [LinearOrderedField F] (d : ℤ) : F :=
  ([1, 16 / 15, 9 / 8, 6 / 5, 5 / 4, 4 / 3, 45 / 32, 3 / 2, 8 / 5, 5 / 3, 9 / 5, 15 / 8] :
      List F).getD (Int.fmod d 12).toNat 0 * 2 ^ (Int.fdiv d 12)

/-- The engine after the constructor and the parameter changes that select Shift
mode and the measure roots 60, 62, 64, 67 (sequence length 4). -/
def driftExample {F : Type} [LinearOrderedField F] : Processor F :=
  setMeasureRoot (setMeasureRoot (setMeasureRoot
    (setIntonationMode Processor.initial IntonationMode.Shift) 1 62) 2 64) 3 67

/-- The engine of `driftExample` with a drift of 400 Hz carried over from a
previous loop. -/
def driftedExample {F : Type} [LinearOrderedField F] : Processor F :=
  { (driftExample : Processor F) with
    accumulatedDriftFrequency := 400, hasAccumulatedDrift := true }

/-- The engine after the constructor (Set mode, length 4, root 60 in measure 0) and
the parameter change that puts the root 67 in measure 1. -/
def fifthExample {F : Type} [LinearOrderedField F] : Processor F :=
  setMeasureRoot Processor.initial 1 67

/-- The engine after the constructor and one block played at beat 4: in measure 1,
with the play state remembered as playing. -/
def playingExample {F : Type} [LinearOrderedField F] : Processor F :=
  { (Processor.initial : Processor F) with
    wasPlaying := true, ppqPosition := 4, previousMeasure := 0, currentMeasure := 1 }

/-- The engine of `driftedExample` while the transport is playing in its last
measure. -/
def lastMeasureExample {F : Type} [LinearOrderedField F] : Processor F :=
  { (driftedExample : Processor F) with
    wasPlaying := true, currentMeasure := 3, previousMeasure := 3 }

/-- The states the engine can reach from the constructor through the public setters,
`resetAccumulatedDrift`, the per-block transport update and `updateFrequencyMap`, in any
order.  `okBeat` is the set of beats positions the host may report. -/
inductive Reachable {F : Type} [LinearOrderedField F] [FloorRing F] (pow : F → F → F)
    (okBeat : F → Prop) : Processor F → Prop where
  | start : Reachable pow okBeat Processor.initial
  | setLength (s : Processor F) (length : ℤ) :
      Reachable pow okBeat s → Reachable pow okBeat (setSequenceLength s length)
  | setMode (s : Processor F) (mode : IntonationMode) :
      Reachable pow okBeat s → Reachable pow okBeat (setIntonationMode s mode)
  | setRoot (s : Processor F) (measureIndex rootNote : ℤ) :
      Reachable pow okBeat s → Reachable pow okBeat (setMeasureRoot s measureIndex rootNote)
  | resetDrift (s : Processor F) :
      Reachable pow okBeat s → Reachable pow okBeat (resetAccumulatedDrift s)
  | transport (s s' : Processor F) (playHead : Option (PlayHead F)) :
      Reachable pow okBeat s →
      (∀ ph pos b, playHead = some ph → ph.position = some pos →
        pos.ppqPosition = some b → okBeat b) →
      updateCurrentMeasure pow s playHead = some s' → Reachable pow okBeat s'
  | frequencyMap (s s' : Processor F) :
      Reachable pow okBeat s → updateFrequencyMap pow s = some s' → Reachable pow okBeat s'

/-! ### The oscillator voice (`Synthesizer.cpp`) -/

/-- The fields of `FluidJustVoice`, and the note that its JUCE base class
`SynthesiserVoice` records as currently playing (`-1` when there is none). -/
structure FluidJustVoice (F : Type) where
  level : F
  frequency : F
  customFrequency : F
  phase : F
  tailOff : F
  attackRate : F
  releaseRate : F
  env : F
  isAttacking : Bool
  isReleasing : Bool
  currentlyPlayingNote : ℤ

/-- A voice right after its constructor: the member initialisers of the header. -/
def FluidJustVoice.fresh {F : Type} [LinearOrderedField F] : FluidJustVoice F where
  level := 0
  frequency := 440
  customFrequency := 0
  phase := 0
  tailOff := 0
  attackRate := 1 / 10
  releaseRate := 1 / 10
  env := 0
  isAttacking := false
  isReleasing := false
  currentlyPlayingNote := -1

/-- The JUCE library function `MidiMessage::getMidiNoteInHertz` with its default
reference: `440 * pow (2, (noteNumber - 69) / 12)`. -/
def getMidiNoteInHertz {F : Type} [LinearOrderedField F] (pow : F → F → F)
    (noteNumber : ℤ) : F :=
  440 * pow 2 (((noteNumber - 69 : ℤ) : F) / 12)

/-- The JUCE base-class query `isVoiceActive`: a note is recorded as playing. -/
def FluidJustVoice.isVoiceActive {F : Type} (v : FluidJustVoice F) : Bool :=
  decide (0 ≤ v.currentlyPlayingNote)

/-- The function `FluidJustVoice::startNote` (the sound and the pitch-wheel position are
not used by it). -/
def FluidJustVoice.startNote {F : Type} [LinearOrderedField F] (pow : F → F → F)
    (v : FluidJustVoice F) (midiNoteNumber : ℤ) (velocity : F) : FluidJustVoice F :=
  let frequency := getMidiNoteInHertz pow midiNoteNumber
  let frequency := if v.customFrequency > 0 then v.customFrequency else frequency
  { v with frequency := frequency, level := velocity * (15 / 100), phase := 0, env := 0,
           isAttacking := true, isReleasing := false, tailOff := 0 }

/-- The function `FluidJustVoice::stopNote`; `clearCurrentNote` of the base class forgets
the playing note. -/
def FluidJustVoice.stopNote {F : Type} [LinearOrderedField F]
    (v : FluidJustVoice F) (allowTailOff : Bool) : FluidJustVoice F :=
  if allowTailOff then { v with isReleasing := true, isAttacking := false }
  else { v with currentlyPlayingNote := -1, level := 0 }

/-- The function `FluidJustVoice::setCustomFrequency`. -/
def FluidJustVoice.setCustomFrequency {F : Type} (v : FluidJustVoice F) (freqHz : F) :
    FluidJustVoice F :=
  let v1 := { v with customFrequency := freqHz }
  if v1.isVoiceActive then { v1 with frequency := freqHz } else v1

/-- The function `FluidJustIntonationSynth::getNoteFrequency` on the synthesizer's
`noteToFrequencyMap`. -/
def getNoteFrequency {F : Type} [LinearOrderedField F] (pow : F → F → F)
    (noteToFrequencyMap : ℤ → Option F) (midiNoteNumber : ℤ) : F :=
  match noteToFrequencyMap midiNoteNumber with
  | some freq => freq
  | none => getMidiNoteInHertz pow midiNoteNumber

/-- The function `FluidJustIntonationSynth::updatePlayingVoices` on the list of voices. -/
def updatePlayingVoices {F : Type} [LinearOrderedField F] (pow : F → F → F)
    (noteToFrequencyMap : ℤ → Option F) (voices : List (FluidJustVoice F)) :
    List (FluidJustVoice F) :=
  voices.map (fun voice =>
    if voice.isVoiceActive then
      let midiNote := voice.currentlyPlayingNote
      if 0 ≤ midiNote then
        voice.setCustomFrequency (getNoteFrequency pow noteToFrequencyMap midiNote)
      else voice
    else voice)

/-- What JUCE's `Synthesiser::startVoice` does to a free voice: it records the note as
playing and calls the voice's `startNote`. -/
def startVoice {F : Type} [LinearOrderedField F] (pow : F → F → F)
    (v : FluidJustVoice F) (midiNoteNumber : ℤ) (velocity : F) : FluidJustVoice F :=
  FluidJustVoice.startNote pow { v with currentlyPlayingNote := midiNoteNumber }
    midiNoteNumber velocity

/-- A frequency map with the entries 260 Hz for note 60 and 436 Hz for note 69. -/
def sampleFrequencyMap {F : Type} [LinearOrderedField F] (n : ℤ) : Option F :=
  if n = 60 then some 260 else if n = 69 then some 436 else none

/-! ### The sample-playback backend (`SoundFontPlayer.cpp`) -/

/-- The calls the player makes on its tinysoundfont instance for notes and tuning.  The
library is outside the repository; the embedding records which calls are made, in
order. -/
inductive TsfCall (F : Type) where
  | channelSetPitchwheel (channel pitchWheel : ℤ)
  | channelSetPresetindex (channel preset : ℤ)
  | channelNoteOn (channel key : ℤ) (velocity : F)
  | channelNoteOff (channel key : ℤ)
  | reset

/-- The struct `SoundFontPlayer::ActiveNote`. -/
structure ActiveNote (F : Type) where
  midiChannel : ℤ
  midiNote : ℤ
  targetFrequency : F
  needsRetune : Bool

/-- The fields of `SoundFontPlayer` that note handling and tuning use.  `soundFont` is
`none` for the null pointer, and otherwise the calls made on the instance so far. -/
structure SoundFontPlayer (F : Type) where
  soundFont : Option (List (TsfCall F))
  currentPreset : ℤ
  noteFrequencyMap : ℤ → Option F
  activeNotes : List (ActiveNote F)

/-- The function `SoundFontPlayer::getMidiNoteFrequency`. -/
def getMidiNoteFrequency {F : Type} [LinearOrderedField F] (pow : F → F → F)
    (midiNote : ℤ) : F :=
  440 * pow 2 (((midiNote - 69 : ℤ) : F) / 12)

/-- The JUCE library function `jlimit (lowerLimit, upperLimit, valueToConstrain)`. -/
def jlimit {F : Type} [LinearOrderedField F] (lowerLimit upperLimit valueToConstrain : F) : F :=
  if valueToConstrain < lowerLimit then lowerLimit
  else if upperLimit < valueToConstrain then upperLimit
  else valueToConstrain

/-- Rounding to the nearest integer, a tie going to the even neighbour (the rounding of
IEEE 754 arithmetic). -/
def roundTiesEven {F : Type} [LinearOrderedField F] [FloorRing F] (x : F) : ℤ :=
  let lower := ⌊x⌋
  let rest := x - lower
  if rest < 1 / 2 then lower
  else if 1 / 2 < rest then lower + 1
  else if lower % 2 = 0 then lower else lower + 1

/-- The `float` nearest to `x`: the conversion `static_cast<float>` of a `double` and the
rounding of the result of an operation on `float`s.  A `float` has 24 significant bits,
so a value in the binade `[2 ^ e, 2 ^ (e + 1))` is rounded to a multiple of
`2 ^ (e - 23)`, a tie going to the even multiple.  The limits of the exponent of `float`
are not modelled. -/
def toFloat {F : Type} [LinearOrderedField F] [FloorRing F] (x : F) : F :=
  let ulp : F := 2 ^ (Int.log 2 |x| - 23)
  let magnitude : F := (roundTiesEven (|x| / ulp) : F) * ulp
  if x < 0 then -magnitude else magnitude

/-- The function `SoundFontPlayer::calculatePitchBendForFrequency`; `log2` is
`std::log2`.  The operations on `double` are computed exactly, the bend is narrowed to
`float`. -/
def calculatePitchBendForFrequency {F : Type} [LinearOrderedField F] [FloorRing F]
    (pow : F → F → F) (log2 : F → F) (midiNote : ℤ) (targetFrequency : F) : F :=
  let standardFreq := getMidiNoteFrequency pow midiNote
  let semitones := 12 * log2 (targetFrequency / standardFreq)
  let pitchBend := toFloat (semitones / 2)
  jlimit (-1) 1 pitchBend

/-- The pitch-wheel argument `static_cast<int>((pitchBend + 1.0f) * 8192.0f)` that
`noteOn` and `updateFrequencyMapping` hand to `tsf_channel_set_pitchwheel`: an addition
and a multiplication of `float`s, each rounded to `float`, then the conversion to `int`. -/
def pitchWheelValue {F : Type} [LinearOrderedField F] [FloorRing F] (pitchBend : F) : ℤ :=
  truncToInt (toFloat (toFloat (pitchBend + 1) * 8192))

/-- The body of the first loop of `updateFrequencyMapping`: mark a note whose target is
more than 0.01 Hz off its new map entry. -/
def markForRetune {F : Type} [LinearOrderedField F] (noteFrequencyMap : ℤ → Option F)
    (note : ActiveNote F) : ActiveNote F :=
  match noteFrequencyMap note.midiNote with
  | some freq =>
    if |note.targetFrequency - freq| > 1 / 100 then
      { note with targetFrequency := freq, needsRetune := true }
    else note
  | none => note

/-- The second loop of `updateFrequencyMapping`, run on a loaded player: for every note
marked, set the pitch wheel of its channel and clear the mark.  The result is the calls
made and the notes afterwards. -/
def applyRetune {F : Type} [LinearOrderedField F] [FloorRing F] (pow : F → F → F)
    (log2 : F → F) : List (ActiveNote F) → List (TsfCall F) × List (ActiveNote F)
  | [] => ([], [])
  | note :: rest =>
    if note.needsRetune then
      let pitchBend := calculatePitchBendForFrequency pow log2 note.midiNote note.targetFrequency
      let call := TsfCall.channelSetPitchwheel note.midiChannel (pitchWheelValue pitchBend)
      (call :: (applyRetune pow log2 rest).1,
        { note with needsRetune := false } :: (applyRetune pow log2 rest).2)
    else
      ((applyRetune pow log2 rest).1, note :: (applyRetune pow log2 rest).2)

/-- The function `SoundFontPlayer::updateFrequencyMapping`. -/
def SoundFontPlayer.updateFrequencyMapping {F : Type} [LinearOrderedField F] [FloorRing F]
    (pow : F → F → F) (log2 : F → F) (p : SoundFontPlayer F)
    (midiNoteToFreqMap : ℤ → Option F) : SoundFontPlayer F :=
  let marked := p.activeNotes.map (markForRetune midiNoteToFreqMap)
  match p.soundFont with
  | none => { p with noteFrequencyMap := midiNoteToFreqMap, activeNotes := marked }
  | some calls =>
    { p with noteFrequencyMap := midiNoteToFreqMap,
             soundFont := some (calls ++ (applyRetune pow log2 marked).1),
             activeNotes := (applyRetune pow log2 marked).2 }

/-- The function `SoundFontPlayer::noteOn`. -/
def SoundFontPlayer.noteOn {F : Type} [LinearOrderedField F] [FloorRing F]
    (pow : F → F → F) (log2 : F → F) (p : SoundFontPlayer F)
    (midiChannel midiNote : ℤ) (velocity : F) : SoundFontPlayer F :=
  match p.soundFont with
  | none => p
  | some calls =>
    let targetFreq :=
      match p.noteFrequencyMap midiNote with
      | some freq => freq
      | none => getMidiNoteFrequency pow midiNote
    let pitchBend := calculatePitchBendForFrequency pow log2 midiNote targetFreq
    { p with
      soundFont := some (calls ++
        [TsfCall.channelSetPitchwheel midiChannel (pitchWheelValue pitchBend),
         TsfCall.channelSetPresetindex midiChannel p.currentPreset,
         TsfCall.channelNoteOn midiChannel midiNote velocity]),
      activeNotes := p.activeNotes ++
        [{ midiChannel := midiChannel, midiNote := midiNote, targetFrequency := targetFreq,
           needsRetune := false }] }

/-- The function `SoundFontPlayer::noteOff`. -/
def SoundFontPlayer.noteOff {F : Type} (p : SoundFontPlayer F) (midiChannel midiNote : ℤ) :
    SoundFontPlayer F :=
  match p.soundFont with
  | none => p
  | some calls =>
    { p with
      soundFont := some (calls ++ [TsfCall.channelNoteOff midiChannel midiNote]),
      activeNotes := p.activeNotes.filter (fun note =>
        !(decide (note.midiChannel = midiChannel) && decide (note.midiNote = midiNote))) }

/-- The function `SoundFontPlayer::allNotesOff`. -/
def SoundFontPlayer.allNotesOff {F : Type} (p : SoundFontPlayer F) : SoundFontPlayer F :=
  match p.soundFont with
  | none => { p with activeNotes := [] }
  | some calls => { p with soundFont := some (calls ++ [TsfCall.reset]), activeNotes := [] }

/-- A loaded player with two sounding notes: note 60 on channel 0 at 261 Hz and note 69
on channel 0 at 436 Hz. -/
def samplePlayer {F : Type} [LinearOrderedField F] : SoundFontPlayer F where
  soundFont := some []
  currentPreset := 0
  noteFrequencyMap := fun _ => none
  activeNotes :=
    [{ midiChannel := 0, midiNote := 60, targetFrequency := 261, needsRetune := false },
     { midiChannel := 0, midiNote := 69, targetFrequency := 436, needsRetune := false }]

/-- A state with the two drift fields overwritten, to compare engines that differ in
their drift fields only. -/
def setDriftFields {F : Type} (s : Processor F) (driftFrequency : F) (hasDrift : Bool) :
    Processor F :=
  { s with accumulatedDriftFrequency := driftFrequency, hasAccumulatedDrift := hasDrift }

/-- The function `getCurrentMeasureRootFrequencyForMeasure` run with a bound on the depth
of nested calls, the outermost call counted: the outer `none` says that the bound was
exceeded, `some r` that the call returned `r` within the bound. -/
def rootFrequencyWithDepth {F : Type} [LinearOrderedField F] (pow : F → F → F)
    (s : Processor F) : ℕ → ℤ → Option (Option F)
  | 0, _ => none
  | depth + 1, measureIndex =>
    match s.rootAt measureIndex with
    | none => some none
    | some rootForMeasure =>
      if s.intonationMode = IntonationMode.Set then
        if measureIndex = 0 then
          some (some (CONCERT_A_FREQ * pow 2 (((rootForMeasure - 69 : ℤ) : F) / 12)))
        else
          let measure0Root := s.measureRoots 0
          let measure0RootFreq := CONCERT_A_FREQ * pow 2 (((measure0Root - 69 : ℤ) : F) / 12)
          some (some (calculateFrequencyInScale pow rootForMeasure measure0Root
            measure0RootFreq))
      else
        if measureIndex = 0 then
          if s.hasAccumulatedDrift then
            match s.rootAt (s.sequenceLength - 1) with
            | none => some none
            | some lastMeasureRoot =>
              some (some (calculateFrequencyInScale pow rootForMeasure lastMeasureRoot
                s.accumulatedDriftFrequency))
          else
            some (some (CONCERT_A_FREQ * pow 2 (((rootForMeasure - 69 : ℤ) : F) / 12)))
        else
          match s.rootAt (measureIndex - 1) with
          | none => some none
          | some previousRoot =>
            match rootFrequencyWithDepth pow s depth (measureIndex - 1) with
            | none => none
            | some none => some none
            | some (some previousRootFreq) =>
              some (some (calculateFrequencyInScale pow rootForMeasure previousRoot
                previousRootFreq))

/-- The block that `getFrequencyForNote` writes out five times, each time with a
`static const` table `justRatios` of its own (handed in here as `justRatios`): split
`semitoneDistance` into octaves and an interval, then
`justRatios[intervalWithinOctave] * std::pow(2.0, octaves)`. -/
def inlineRatio {F : Type} [LinearOrderedField F] (pow : F → F → F) (justRatios : List F)
    (semitoneDistance : ℤ) : F :=
  let octaves := Int.tdiv semitoneDistance 12
  let intervalWithinOctave := Int.tmod semitoneDistance 12
  let octaves' := if intervalWithinOctave < 0 then octaves - 1 else octaves
  let intervalWithinOctave' :=
    if intervalWithinOctave < 0 then intervalWithinOctave + 12 else intervalWithinOctave
  justRatios.getD intervalWithinOctave'.toNat 0 * pow 2 (octaves' : F)

/-- One turn, for the index `m`, of the loop `for (int m = 1; m <= currentMeasure; ++m)`
of `getFrequencyForNote`. -/
def getFrequencyForNoteStep {F : Type} [LinearOrderedField F] (pow : F → F → F)
    (s : Processor F) (iterFreq : F) (m : ℕ) : Option F :=
  match s.rootAt ((m : ℤ) - 1) with
  | none => none
  | some prevRoot =>
    match s.rootAt (m : ℤ) with
    | none => none
    | some thisRoot =>
      some (iterFreq * inlineRatio pow
        [1, 16 / 15, 9 / 8, 6 / 5, 5 / 4, 4 / 3, 45 / 32, 3 / 2, 8 / 5, 5 / 3, 9 / 5, 15 / 8]
        (thisRoot - prevRoot))

/-- The function `getFrequencyForNote`, the query of the user interface: the derivation
of the root frequency written out again, iteratively in Shift mode, and the ratio of the
note against the current root. -/
def getFrequencyForNote {F : Type} [LinearOrderedField F] (pow : F → F → F)
    (s : Processor F) (midiNote : ℤ) : Option F :=
  match s.rootAt s.currentMeasure with
  | none => none
  | some currentRoot =>
    let rootFreq : Option F :=
      if s.intonationMode = IntonationMode.Set then
        if s.currentMeasure = 0 then
          some (CONCERT_A_FREQ * pow 2 (((currentRoot - 69 : ℤ) : F) / 12))
        else
          let measure0Root := s.measureRoots 0
          let measure0RootFreq := CONCERT_A_FREQ * pow 2 (((measure0Root - 69 : ℤ) : F) / 12)
          some (measure0RootFreq * inlineRatio pow
            [1, 16 / 15, 9 / 8, 6 / 5, 5 / 4, 4 / 3, 45 / 32, 3 / 2, 8 / 5, 5 / 3, 9 / 5, 15 / 8]
            (currentRoot - measure0Root))
      else
        if s.currentMeasure = 0 ∧ s.hasAccumulatedDrift = true then
          match s.rootAt (s.sequenceLength - 1) with
          | none => none
          | some lastMeasureRoot =>
            some (s.accumulatedDriftFrequency * inlineRatio pow
              [1, 16 / 15, 9 / 8, 6 / 5, 5 / 4, 4 / 3, 45 / 32, 3 / 2, 8 / 5, 5 / 3, 9 / 5,
                15 / 8]
              (currentRoot - lastMeasureRoot))
        else if s.currentMeasure = 0 then
          some (CONCERT_A_FREQ * pow 2 (((currentRoot - 69 : ℤ) : F) / 12))
        else
          let iterFreq : Option F :=
            if s.hasAccumulatedDrift = true then
              match s.rootAt (s.sequenceLength - 1) with
              | none => none
              | some lastMeasureRoot =>
                let firstRoot := s.measureRoots 0
                some (s.accumulatedDriftFrequency * inlineRatio pow
                  [1, 16 / 15, 9 / 8, 6 / 5, 5 / 4, 4 / 3, 45 / 32, 3 / 2, 8 / 5, 5 / 3, 9 / 5,
                    15 / 8]
                  (firstRoot - lastMeasureRoot))
            else
              some (CONCERT_A_FREQ * pow 2 (((s.measureRoots 0 - 69 : ℤ) : F) / 12))
          match iterFreq with
          | none => none
          | some iterFreq =>
            (List.range' 1 s.currentMeasure.toNat).foldlM (getFrequencyForNoteStep pow s)
              iterFreq
    match rootFreq with
    | none => none
    | some rootFreq =>
      some (rootFreq * inlineRatio pow
        [1, 16 / 15, 9 / 8, 6 / 5, 5 / 4, 4 / 3, 45 / 32, 3 / 2, 8 / 5, 5 / 3, 9 / 5, 15 / 8]
        (midiNote - currentRoot))

/-- The effect of one call on the pitch wheel of `channel`, as tinysoundfont documents its
calls: `tsf_channel_set_pitchwheel` sets the value for its channel, `tsf_reset` resets all
channel parameters, the other calls leave the pitch wheel as it is.  The value `none`
stands for a channel on which no value was set since the start or the last reset. -/
def pitchWheelStep {F : Type} (channel : ℤ) (wheel : Option ℤ) : TsfCall F → Option ℤ
  | TsfCall.channelSetPitchwheel ch pitchWheel => if ch = channel then some pitchWheel else wheel
  | TsfCall.reset => none
  | TsfCall.channelSetPresetindex _ _ => wheel
  | TsfCall.channelNoteOn _ _ _ => wheel
  | TsfCall.channelNoteOff _ _ => wheel

/-- The pitch wheel of `channel` after the calls `calls`, made when it was `wheel`. -/
def pitchWheelFrom {F : Type} (wheel : Option ℤ) (calls : List (TsfCall F)) (channel : ℤ) :
    Option ℤ :=
  calls.foldl (pitchWheelStep channel) wheel

/-- The pitch wheel currently set on `channel`, after all the calls made so far. -/
def currentPitchWheel {F : Type} (calls : List (TsfCall F)) (channel : ℤ) : Option ℤ :=
  pitchWheelFrom none calls channel

/-- The pitch-wheel value computed from a note's own target frequency:
`static_cast<int>((calculatePitchBendForFrequency(note.midiNote, note.targetFrequency)
+ 1.0f) * 8192.0f)`. -/
def ownPitchWheel {F : Type} [LinearOrderedField F] [FloorRing F] (pow : F → F → F)
    (log2 : F → F) (note : ActiveNote F) : ℤ :=
  pitchWheelValue (calculatePitchBendForFrequency pow log2 note.midiNote note.targetFrequency)

/-- A call of `noteOn` or of `updateFrequencyMapping` with its arguments. -/
inductive PlayerOp (F : Type) where
  | noteOn (midiChannel midiNote : ℤ) (velocity : F)
  | updateFrequencyMapping (midiNoteToFreqMap : ℤ → Option F)

/-- The player after one call. -/
def PlayerOp.apply {F : Type} [LinearOrderedField F] [FloorRing F] (pow : F → F → F)
    (log2 : F → F) (p : SoundFontPlayer F) : PlayerOp F → SoundFontPlayer F
  | PlayerOp.noteOn midiChannel midiNote velocity =>
    p.noteOn pow log2 midiChannel midiNote velocity
  | PlayerOp.updateFrequencyMapping midiNoteToFreqMap =>
    p.updateFrequencyMapping pow log2 midiNoteToFreqMap

/-- The player after a sequence of calls, made in order. -/
def runOps {F : Type} [LinearOrderedField F] [FloorRing F] (pow : F → F → F)
    (log2 : F → F) (p : SoundFontPlayer F) (ops : List (PlayerOp F)) : SoundFontPlayer F :=
  ops.foldl (PlayerOp.apply pow log2) p

/-- A loaded player on which no call was made yet: no sounding notes, no custom tuning. -/
def loadedPlayer {F : Type} : SoundFontPlayer F where
  soundFont := some []
  currentPreset := 0
  noteFrequencyMap := fun _ => none
  activeNotes := []

/-- A frequency map with the single entry 110 Hz for note 57, an octave below the note's
12-TET frequency. -/
def octaveDownMap {F : Type} [LinearOrderedField F] : ℤ → Option F :=
  fun n => if n = 57 then some 110 else none

/-- The state of a loaded player between calls: no note is marked for retuning, and the
pitch wheel of every channel with an active note is the value computed from the target
frequency of one of the active notes of that channel. -/
def WheelInvariant {F : Type} [LinearOrderedField F] [FloorRing F] (pow : F → F → F)
    (log2 : F → F) (p : SoundFontPlayer F) : Prop :=
  ∃ calls, p.soundFont = some calls ∧ (∀ n ∈ p.activeNotes, n.needsRetune = false) ∧
    ∀ n ∈ p.activeNotes, ∃ n' ∈ p.activeNotes, n'.midiChannel = n.midiChannel ∧
      currentPitchWheel calls n.midiChannel = some (ownPitchWheel pow log2 n')

/-- A sequence of calls that sounds two notes on channel 0: the map of `octaveDownMap` is
handed over, then note 69 and note 57 are started. -/
def sharedChannelOps {F : Type} [LinearOrderedField F] : List (PlayerOp F) :=
  [PlayerOp.updateFrequencyMapping octaveDownMap, PlayerOp.noteOn 0 69 1,
    PlayerOp.noteOn 0 57 1]

/-- The same calls with note 57 started on channel 1. -/
def separateChannelOps {F : Type} [LinearOrderedField F] : List (PlayerOp F) :=
  [PlayerOp.updateFrequencyMapping octaveDownMap, PlayerOp.noteOn 0 69 1,
    PlayerOp.noteOn 1 57 1]

/-- The engine set to sequence length 12 after one block played at beat `2 ^ 33`, where
the count of measures passed, `2 ^ 31`, does not fit an `int`. -/
def largePositionExample {F : Type} [LinearOrderedField F] : Processor F :=
  { setSequenceLength (Processor.initial : Processor F) 12 with
    wasPlaying := true, ppqPosition := 8589934592, bpm := 120, previousMeasure := 0,
    currentMeasure := -8 }

/-! ## The ratio model (`calculateFrequencyInScale`) -/

/-- The truncating quotient by 12 in terms of the floored one. -/
theorem tdiv_twelve (d : ℤ) :
    Int.tdiv d 12 = if 0 ≤ d then d / 12 else -((-d) / 12) := by
  split
  · next h => exact Int.tdiv_eq_ediv h (by omega)
  · next h =>
    rw [← Int.tdiv_eq_ediv (by omega) (by omega), Int.neg_tdiv, neg_neg]

/-- The truncating remainder by 12 in terms of the floored quotient. -/
theorem tmod_twelve (d : ℤ) :
    Int.tmod d 12 = if 0 ≤ d then d - 12 * (d / 12) else d + 12 * ((-d) / 12) := by
  rw [Int.tmod_def, tdiv_twelve]
  split <;> ring

/-- After the source's fix-up of a negative remainder the octave count is the
floored quotient. -/
theorem octaves_fixup (d : ℤ) :
    (if Int.tmod d 12 < 0 then Int.tdiv d 12 - 1 else Int.tdiv d 12) = Int.fdiv d 12 := by
  rw [Int.fdiv_eq_ediv d (by omega), tmod_twelve, tdiv_twelve]
  split_ifs <;> omega

/-- After the source's fix-up of a negative remainder the interval is the floored
remainder. -/
theorem interval_fixup (d : ℤ) :
    (if Int.tmod d 12 < 0 then Int.tmod d 12 + 12 else Int.tmod d 12) = Int.fmod d 12 := by
  rw [Int.fmod_eq_emod d (by omega), tmod_twelve]
  split_ifs <;> omega

/-- The index used for the read `ratios[intervalWithinOctave]` is inside the
12-entry table. -/
theorem intervalWithinOctave_lt (d : ℤ) :
    0 ≤ (if Int.tmod d 12 < 0 then Int.tmod d 12 + 12 else Int.tmod d 12) ∧
    (if Int.tmod d 12 < 0 then Int.tmod d 12 + 12 else Int.tmod d 12) < 12 := by
  rw [interval_fixup, Int.fmod_eq_emod d (by omega)]
  omega

/-- The value of `calculateFrequencyInScale` over the reals, in terms of the floored
quotient and remainder of the semitone distance. -/
theorem calculateFrequencyInScale_eq (noteToPlay scaleRoot : ℤ) (f : ℝ) :
    calculateFrequencyInScale Real.rpow noteToPlay scaleRoot f =
      f * (([1, 16 / 15, 9 / 8, 6 / 5, 5 / 4, 4 / 3, 45 / 32, 3 / 2, 8 / 5, 5 / 3, 9 / 5,
          15 / 8] : List ℝ).getD (Int.fmod (noteToPlay - scaleRoot) 12).toNat 0 *
        (2 : ℝ) ^ (Int.fdiv (noteToPlay - scaleRoot) 12)) := by
  simp only [calculateFrequencyInScale, calculateJustRatios, octaves_fixup, interval_fixup,
    Real.rpow_eq_pow, Real.rpow_intCast]

/-- C1: for all integers `noteToPlay`, `scaleRoot` and every root frequency `f`, with
`d = noteToPlay - scaleRoot`, the floored remainder `i = d mod 12` and quotient
`k = floor (d / 12)` satisfy `0 ≤ i < 12` and `12 * k + i = d`, and
`calculateFrequencyInScale` returns `f * R[i] * 2 ^ k` for the fixed ratio table `R`. -/
theorem C1_calculateFrequencyInScale_floored (noteToPlay scaleRoot : ℤ) (f : ℝ) :
    0 ≤ Int.fmod (noteToPlay - scaleRoot) 12 ∧
    Int.fmod (noteToPlay - scaleRoot) 12 < 12 ∧
    12 * Int.fdiv (noteToPlay - scaleRoot) 12 + Int.fmod (noteToPlay - scaleRoot) 12
      = noteToPlay - scaleRoot ∧
    calculateFrequencyInScale Real.rpow noteToPlay scaleRoot f =
      f * ([1, 16 / 15, 9 / 8, 6 / 5, 5 / 4, 4 / 3, 45 / 32, 3 / 2, 8 / 5, 5 / 3, 9 / 5,
          15 / 8] : List ℝ).getD (Int.fmod (noteToPlay - scaleRoot) 12).toNat 0 *
        (2 : ℝ) ^ (Int.fdiv (noteToPlay - scaleRoot) 12) := by
  refine ⟨?_, ?_, ?_, ?_⟩
  · rw [Int.fmod_eq_emod _ (by omega)]; omega
  · rw [Int.fmod_eq_emod _ (by omega)]; omega
  · rw [Int.fmod_eq_emod _ (by omega), Int.fdiv_eq_ediv _ (by omega)]; omega
  · rw [calculateFrequencyInScale_eq, mul_assoc]

/-- Evaluation rule: once the semitone distance is split as `12 * k + i` with
`0 ≤ i < 12`, the result is the `i`-th ratio times `2 ^ k` times the root frequency. -/
theorem calculateFrequencyInScale_of_split (noteToPlay scaleRoot : ℤ) (f : ℝ) (k : ℤ) (i : ℕ)
    (hi : i < 12) (hd : noteToPlay - scaleRoot = 12 * k + i) :
    calculateFrequencyInScale Real.rpow noteToPlay scaleRoot f =
      f * (([1, 16 / 15, 9 / 8, 6 / 5, 5 / 4, 4 / 3, 45 / 32, 3 / 2, 8 / 5, 5 / 3, 9 / 5,
          15 / 8] : List ℝ).getD i 0 * (2 : ℝ) ^ k) := by
  have h1 : Int.fmod (noteToPlay - scaleRoot) 12 = i := by
    rw [Int.fmod_eq_emod _ (by omega)]; omega
  have h2 : Int.fdiv (noteToPlay - scaleRoot) 12 = k := by
    rw [Int.fdiv_eq_ediv _ (by omega)]; omega
  rw [calculateFrequencyInScale_eq, h1, h2, Int.toNat_ofNat]

/-! ## Root frequency of a measure -/

/-- Inside the 16 slots the raw array read yields the slot, which is also what the
getter `getMeasureRoot` returns. -/
theorem rootAt_of_range {F : Type} (s : Processor F) (i : ℤ) (h0 : 0 ≤ i) (h16 : i < 16) :
    s.rootAt i = some (getMeasureRoot s i) := by
  have h : 0 ≤ i ∧ i < 16 := ⟨h0, h16⟩
  simp [Processor.rootAt, getMeasureRoot, MAX_SEQUENCE_LENGTH, h]

/-- Slot 0, read through the getter. -/
theorem getMeasureRoot_zero {F : Type} (s : Processor F) :
    getMeasureRoot s 0 = s.measureRoots 0 := by
  simp [getMeasureRoot, MAX_SEQUENCE_LENGTH]

/-- The body of `getCurrentMeasureRootFrequencyForMeasure`, unfolded once. -/
theorem rootFrequency_unfold {F : Type} [LinearOrderedField F] (pow : F → F → F)
    (s : Processor F) (m : ℤ) :
    getCurrentMeasureRootFrequencyForMeasure pow s m =
      match s.rootAt m with
      | none => none
      | some rootForMeasure =>
        if s.intonationMode = IntonationMode.Set then
          if m = 0 then some (twelveTet pow rootForMeasure)
          else some (calculateFrequencyInScale pow rootForMeasure (s.measureRoots 0)
            (twelveTet pow (s.measureRoots 0)))
        else if m = 0 then
          if s.hasAccumulatedDrift = true then
            (s.rootAt (s.sequenceLength - 1)).map (fun lastMeasureRoot =>
              calculateFrequencyInScale pow rootForMeasure lastMeasureRoot
                s.accumulatedDriftFrequency)
          else some (twelveTet pow rootForMeasure)
        else
          match s.rootAt (m - 1) with
          | none => none
          | some previousRoot =>
            (getCurrentMeasureRootFrequencyForMeasure pow s (m - 1)).map
              (calculateFrequencyInScale pow rootForMeasure previousRoot) := by
  rw [getCurrentMeasureRootFrequencyForMeasure]
  cases hr : s.rootAt m with
  | none =>
    split
    · rfl
    · next r hroot => cases hroot
  | some r0 =>
    split
    · next hroot => cases hroot
    · next r hroot =>
      cases hroot
      simp only [twelveTet]
      split_ifs
      · rfl
      · rfl
      · cases s.rootAt (s.sequenceLength - 1) <;> rfl
      · rfl
      · cases s.rootAt (m - 1) with
        | none => rfl
        | some p => cases getCurrentMeasureRootFrequencyForMeasure pow s (m - 1) <;> rfl

/-- The two copies of the derivation in the source agree:
`getCurrentMeasureRootFrequency` is `getCurrentMeasureRootFrequencyForMeasure` at the
current measure. -/
theorem getCurrentMeasureRootFrequency_eq {F : Type} [LinearOrderedField F] (pow : F → F → F)
    (s : Processor F) :
    getCurrentMeasureRootFrequency pow s =
      getCurrentMeasureRootFrequencyForMeasure pow s s.currentMeasure := by
  rw [rootFrequency_unfold, getCurrentMeasureRootFrequency]
  cases s.rootAt s.currentMeasure with
  | none => rfl
  | some r =>
    simp only [twelveTet]
    split_ifs
    · rfl
    · rfl
    · cases s.rootAt (s.sequenceLength - 1) <;> rfl
    · rfl
    · cases s.rootAt (s.currentMeasure - 1) with
      | none => rfl
      | some p =>
        cases getCurrentMeasureRootFrequencyForMeasure pow s (s.currentMeasure - 1) <;> rfl

/-- One unfolding of the Shift-mode recursion at a measure after the first. -/
theorem rootFrequency_shift_step {F : Type} [LinearOrderedField F] (pow : F → F → F)
    (s : Processor F) (hmode : s.intonationMode = IntonationMode.Shift)
    (m : ℤ) (h0 : 0 < m) (h16 : m < 16) :
    getCurrentMeasureRootFrequencyForMeasure pow s m =
      (getCurrentMeasureRootFrequencyForMeasure pow s (m - 1)).map
        (calculateFrequencyInScale pow (getMeasureRoot s m) (getMeasureRoot s (m - 1))) := by
  have hm : m ≠ 0 := by omega
  rw [rootFrequency_unfold]
  simp [rootAt_of_range s m (by omega) h16, rootAt_of_range s (m - 1) (by omega) (by omega),
    hmode, hm]

/-- Measure 0 in Set mode: the 12-TET value of its root. -/
theorem rootFrequency_zero_set {F : Type} [LinearOrderedField F] (pow : F → F → F)
    (s : Processor F) (hmode : s.intonationMode = IntonationMode.Set) :
    getCurrentMeasureRootFrequencyForMeasure pow s 0 = some (twelveTet pow (getMeasureRoot s 0)) := by
  rw [rootFrequency_unfold]
  simp [rootAt_of_range s 0 (by omega) (by omega), hmode]

/-- Measure 0 in Shift mode without drift: the 12-TET value of its root. -/
theorem rootFrequency_zero_noDrift {F : Type} [LinearOrderedField F] (pow : F → F → F)
    (s : Processor F) (hmode : s.intonationMode = IntonationMode.Shift)
    (hd : s.hasAccumulatedDrift = false) :
    getCurrentMeasureRootFrequencyForMeasure pow s 0 = some (twelveTet pow (getMeasureRoot s 0)) := by
  rw [rootFrequency_unfold]
  simp [rootAt_of_range s 0 (by omega) (by omega), hmode, hd]

/-- Measure 0 in Shift mode with drift: tuned against the last measure's root. -/
theorem rootFrequency_zero_drift {F : Type} [LinearOrderedField F] (pow : F → F → F)
    (s : Processor F) (hmode : s.intonationMode = IntonationMode.Shift)
    (hd : s.hasAccumulatedDrift = true) :
    getCurrentMeasureRootFrequencyForMeasure pow s 0 =
      (s.rootAt (s.sequenceLength - 1)).map (fun lastMeasureRoot =>
        calculateFrequencyInScale pow (getMeasureRoot s 0) lastMeasureRoot
          s.accumulatedDriftFrequency) := by
  rw [rootFrequency_unfold]
  simp [rootAt_of_range s 0 (by omega) (by omega), hmode, hd]

/-- A later measure in Set mode: tuned against measure 0's root at its 12-TET value. -/
theorem rootFrequency_set_later {F : Type} [LinearOrderedField F] (pow : F → F → F)
    (s : Processor F) (hmode : s.intonationMode = IntonationMode.Set)
    (m : ℤ) (h0 : 0 < m) (h16 : m < 16) :
    getCurrentMeasureRootFrequencyForMeasure pow s m =
      some (calculateFrequencyInScale pow (getMeasureRoot s m) (getMeasureRoot s 0)
        (twelveTet pow (getMeasureRoot s 0))) := by
  have hm : m ≠ 0 := by omega
  rw [rootFrequency_unfold]
  simp [rootAt_of_range s m (by omega) h16, hmode, hm, getMeasureRoot_zero]

/-- Over the reals the repeated 12-TET expression is `440 * 2 ^ ((root - 69) / 12)`. -/
theorem twelveTet_real (root : ℤ) :
    twelveTet Real.rpow root = 440 * (2 : ℝ) ^ (((root : ℝ) - 69) / 12) := by
  simp [twelveTet, CONCERT_A_FREQ]

/-- Over the reals `calculateFrequencyInScale` multiplies the root frequency by the just
ratio of the step from the scale root to the note. -/
theorem calculateFrequencyInScale_step (noteToPlay scaleRoot : ℤ) (f : ℝ) :
    calculateFrequencyInScale Real.rpow noteToPlay scaleRoot f =
      f * justStepRatio (noteToPlay - scaleRoot) := by
  rw [calculateFrequencyInScale_eq, justStepRatio]

/-- In Shift mode the root frequency of measure `n` is that of measure 0 times the
product of the step ratios up to `n`. -/
theorem rootFrequency_shift_product (s : Processor ℝ)
    (hmode : s.intonationMode = IntonationMode.Shift) (n : ℕ) (hn : n < 16) :
    getCurrentMeasureRootFrequencyForMeasure Real.rpow s n =
      (getCurrentMeasureRootFrequencyForMeasure Real.rpow s 0).map (fun f0 =>
        f0 * ∏ k ∈ Finset.range n,
          justStepRatio (getMeasureRoot s ((k : ℤ) + 1) - getMeasureRoot s k)) := by
  induction n with
  | zero => simp
  | succ n ih =>
    have hstep := rootFrequency_shift_step Real.rpow s hmode ((n : ℤ) + 1) (by omega) (by omega)
    rw [add_sub_cancel_right, ih (by omega)] at hstep
    rw [Nat.cast_succ, hstep, Option.map_map]
    congr 1
    funext f0
    simp only [Function.comp, calculateFrequencyInScale_step, Finset.prod_range_succ]
    ring

/-- C2: in Shift mode, for every measure index `m` with `0 < m < 16`, every choice of
measure roots and every drift state, the root frequency of measure `m` is
`calculateFrequencyInScale (measureRoot[m], measureRoot[m-1], rootFrequency (m-1))`; hence
it is the root frequency of measure 0 times the product over `k = 1 .. m` of the just
ratio (octave factor included) of the step `measureRoot[k] - measureRoot[k-1]`. -/
theorem C2_shift_root_frequency_chain (s : Processor ℝ)
    (hmode : s.intonationMode = IntonationMode.Shift) (m : ℤ) (h0 : 0 < m) (h16 : m < 16) :
    getCurrentMeasureRootFrequencyForMeasure Real.rpow s m =
      (getCurrentMeasureRootFrequencyForMeasure Real.rpow s (m - 1)).map
        (calculateFrequencyInScale Real.rpow (getMeasureRoot s m) (getMeasureRoot s (m - 1))) ∧
    getCurrentMeasureRootFrequencyForMeasure Real.rpow s m =
      (getCurrentMeasureRootFrequencyForMeasure Real.rpow s 0).map (fun f0 =>
        f0 * ∏ k ∈ Finset.range m.toNat,
          justStepRatio (getMeasureRoot s ((k : ℤ) + 1) - getMeasureRoot s k)) := by
  refine ⟨rootFrequency_shift_step Real.rpow s hmode m h0 h16, ?_⟩
  have h := rootFrequency_shift_product s hmode m.toNat (by omega)
  rwa [Int.toNat_of_nonneg (by omega)] at h

/-- C2 at the Shift-mode engine with roots 60, 62, 64, 67 and measure 2. -/
theorem C2_shift_root_frequency_chain_witness :
    (driftExample : Processor ℝ).intonationMode = IntonationMode.Shift ∧
    (0 : ℤ) < 2 ∧ (2 : ℤ) < 16 ∧
    getCurrentMeasureRootFrequencyForMeasure Real.rpow (driftExample : Processor ℝ) 2 =
      (getCurrentMeasureRootFrequencyForMeasure Real.rpow driftExample (2 - 1)).map
        (calculateFrequencyInScale Real.rpow (getMeasureRoot (driftExample : Processor ℝ) 2)
          (getMeasureRoot (driftExample : Processor ℝ) (2 - 1))) :=
  ⟨rfl, by norm_num, by norm_num,
    (C2_shift_root_frequency_chain driftExample rfl 2 (by norm_num) (by norm_num)).1⟩

/-- C3: in Set mode, for every measure index `m` with `0 < m < 16`, the root frequency
of measure `m` is `calculateFrequencyInScale (measureRoot[m], measureRoot[0],
rootFrequency 0)` (also when read through `getCurrentMeasureRootFrequency` with `m` the
current measure); it is the same in any other Set-mode engine with the same roots in
measures `m` and 0; and with sequence length 4, root 60 in measure 0 and root 67 in
measure 1, the root frequency of measure 1 is 1.5 times that of measure 0. -/
theorem C3_set_root_frequency (s : Processor ℝ)
    (hmode : s.intonationMode = IntonationMode.Set) (m : ℤ) (h0 : 0 < m) (h16 : m < 16) :
    (∃ f0 : ℝ, getCurrentMeasureRootFrequencyForMeasure Real.rpow s 0 = some f0 ∧
      getCurrentMeasureRootFrequencyForMeasure Real.rpow s m =
        some (calculateFrequencyInScale Real.rpow (getMeasureRoot s m) (getMeasureRoot s 0) f0) ∧
      (s.currentMeasure = m → getCurrentMeasureRootFrequency Real.rpow s =
        some (calculateFrequencyInScale Real.rpow (getMeasureRoot s m) (getMeasureRoot s 0) f0))) ∧
    (∀ s' : Processor ℝ, s'.intonationMode = IntonationMode.Set →
      getMeasureRoot s' m = getMeasureRoot s m → getMeasureRoot s' 0 = getMeasureRoot s 0 →
      getCurrentMeasureRootFrequencyForMeasure Real.rpow s' m =
        getCurrentMeasureRootFrequencyForMeasure Real.rpow s m) ∧
    (s.sequenceLength = 4 → getMeasureRoot s 0 = 60 → getMeasureRoot s 1 = 67 →
      ∃ f0 f1 : ℝ, getCurrentMeasureRootFrequencyForMeasure Real.rpow s 0 = some f0 ∧
        getCurrentMeasureRootFrequencyForMeasure Real.rpow s 1 = some f1 ∧ f1 = f0 * 1.5) := by
  refine ⟨⟨_, rootFrequency_zero_set Real.rpow s hmode,
    rootFrequency_set_later Real.rpow s hmode m h0 h16, ?_⟩, ?_, ?_⟩
  · intro hcur
    rw [getCurrentMeasureRootFrequency_eq, hcur]
    exact rootFrequency_set_later Real.rpow s hmode m h0 h16
  · intro s' hmode' hm hz
    rw [rootFrequency_set_later Real.rpow s hmode m h0 h16,
      rootFrequency_set_later Real.rpow s' hmode' m h0 h16, hm, hz]
  · intro _ hr0 hr1
    refine ⟨_, _, rootFrequency_zero_set Real.rpow s hmode,
      rootFrequency_set_later Real.rpow s hmode 1 (by norm_num) (by norm_num), ?_⟩
    rw [hr0, hr1, calculateFrequencyInScale_of_split 67 60 _ 0 7 (by norm_num) (by norm_num)]
    norm_num

/-- C3 at the Set-mode engine with root 60 in measure 0 and root 67 in measure 1: the
root frequency of measure 1 is 1.5 times that of measure 0. -/
theorem C3_set_root_frequency_witness :
    (fifthExample : Processor ℝ).intonationMode = IntonationMode.Set ∧
    (0 : ℤ) < 1 ∧ (1 : ℤ) < 16 ∧
    ∃ f0 f1 : ℝ,
      getCurrentMeasureRootFrequencyForMeasure Real.rpow (fifthExample : Processor ℝ) 0 = some f0 ∧
      getCurrentMeasureRootFrequencyForMeasure Real.rpow (fifthExample : Processor ℝ) 1 = some f1 ∧
      f1 = f0 * 1.5 :=
  ⟨rfl, by norm_num, by norm_num,
    (C3_set_root_frequency fifthExample rfl 1 (by norm_num) (by norm_num)).2.2 rfl
      (by simp [fifthExample, setMeasureRoot, getMeasureRoot, MAX_SEQUENCE_LENGTH,
        Processor.initial])
      (by simp [fifthExample, setMeasureRoot, getMeasureRoot, MAX_SEQUENCE_LENGTH,
        Processor.initial])⟩

/-- C4: whenever the mode is Set, or the mode is Shift and there is no drift, the root
frequency of measure 0 is the 12-TET reference `440 * 2 ^ ((root0 - 69) / 12)` of its root
note `root0` (also when read through `getCurrentMeasureRootFrequency` in measure 0); for
`root0 = 69` it is exactly 440 and for `root0 = 60` it is `440 * 2 ^ (-9 / 12)`. -/
theorem C4_measure_zero_reference (s : Processor ℝ)
    (h : s.intonationMode = IntonationMode.Set ∨
      (s.intonationMode = IntonationMode.Shift ∧ s.hasAccumulatedDrift = false)) :
    getCurrentMeasureRootFrequencyForMeasure Real.rpow s 0 =
      some (440 * (2 : ℝ) ^ (((getMeasureRoot s 0 : ℝ) - 69) / 12)) ∧
    (s.currentMeasure = 0 → getCurrentMeasureRootFrequency Real.rpow s =
      some (440 * (2 : ℝ) ^ (((getMeasureRoot s 0 : ℝ) - 69) / 12))) ∧
    (getMeasureRoot s 0 = 69 →
      getCurrentMeasureRootFrequencyForMeasure Real.rpow s 0 = some 440) ∧
    (getMeasureRoot s 0 = 60 →
      getCurrentMeasureRootFrequencyForMeasure Real.rpow s 0 =
        some (440 * (2 : ℝ) ^ (-(9 : ℝ) / 12))) := by
  have hz : getCurrentMeasureRootFrequencyForMeasure Real.rpow s 0 =
      some (440 * (2 : ℝ) ^ (((getMeasureRoot s 0 : ℝ) - 69) / 12)) := by
    rw [← twelveTet_real]
    rcases h with hset | ⟨hshift, hd⟩
    · exact rootFrequency_zero_set Real.rpow s hset
    · exact rootFrequency_zero_noDrift Real.rpow s hshift hd
  refine ⟨hz, ?_, ?_, ?_⟩
  · intro hcur
    rw [getCurrentMeasureRootFrequency_eq, hcur, hz]
  · intro h69
    rw [hz, h69]
    norm_num
  · intro h60
    rw [hz, h60]
    norm_num

/-- C4 at the engine right after the constructor (Set mode, root 60 in measure 0). -/
theorem C4_measure_zero_reference_witness :
    ((Processor.initial : Processor ℝ).intonationMode = IntonationMode.Set ∨
      ((Processor.initial : Processor ℝ).intonationMode = IntonationMode.Shift ∧
        (Processor.initial : Processor ℝ).hasAccumulatedDrift = false)) ∧
    getCurrentMeasureRootFrequencyForMeasure Real.rpow (Processor.initial : Processor ℝ) 0 =
      some (440 * (2 : ℝ) ^ (-(9 : ℝ) / 12)) :=
  ⟨Or.inl rfl, (C4_measure_zero_reference Processor.initial (Or.inl rfl)).2.2.2
    (by simp [getMeasureRoot, MAX_SEQUENCE_LENGTH, Processor.initial])⟩

/-- C5: in Shift mode with drift, for every choice of measure roots, every sequence
length inside the 16 slots and every drift frequency `D`, the root frequency of measure 0
is `calculateFrequencyInScale (measureRoot[0], measureRoot[length-1], D)` (also when read
through `getCurrentMeasureRootFrequency` in measure 0): it is tuned against the previous
loop's last measure root. -/
theorem C5_measure_zero_drift (s : Processor ℝ)
    (hmode : s.intonationMode = IntonationMode.Shift) (hd : s.hasAccumulatedDrift = true)
    (hlen : 1 ≤ s.sequenceLength ∧ s.sequenceLength ≤ 16) :
    getCurrentMeasureRootFrequencyForMeasure Real.rpow s 0 =
      some (calculateFrequencyInScale Real.rpow (getMeasureRoot s 0)
        (getMeasureRoot s (s.sequenceLength - 1)) s.accumulatedDriftFrequency) ∧
    (s.currentMeasure = 0 → getCurrentMeasureRootFrequency Real.rpow s =
      some (calculateFrequencyInScale Real.rpow (getMeasureRoot s 0)
        (getMeasureRoot s (s.sequenceLength - 1)) s.accumulatedDriftFrequency)) := by
  have hz := rootFrequency_zero_drift Real.rpow s hmode hd
  rw [rootAt_of_range s (s.sequenceLength - 1) (by omega) (by omega), Option.map_some'] at hz
  refine ⟨hz, ?_⟩
  intro hcur
  rw [getCurrentMeasureRootFrequency_eq, hcur, hz]

/-- C5 at the Shift-mode engine with roots 60, 62, 64, 67, length 4 and a drift of
400 Hz: measure 0 sounds at `400 * (4/3) / 2`. -/
theorem C5_measure_zero_drift_witness :
    (driftedExample : Processor ℝ).intonationMode = IntonationMode.Shift ∧
    (driftedExample : Processor ℝ).hasAccumulatedDrift = true ∧
    (1 ≤ (driftedExample : Processor ℝ).sequenceLength ∧
      (driftedExample : Processor ℝ).sequenceLength ≤ 16) ∧
    getCurrentMeasureRootFrequencyForMeasure Real.rpow (driftedExample : Processor ℝ) 0 =
      some (calculateFrequencyInScale Real.rpow 60 67 400) :=
  ⟨rfl, rfl, by decide,
    (C5_measure_zero_drift driftedExample rfl rfl (by decide)).1⟩

/-! ## The frequency map -/

/-- The root frequency of a measure reads only the sequence length, the mode, the measure
roots and the drift fields. -/
theorem rootFrequency_congr {F : Type} [LinearOrderedField F] (pow : F → F → F)
    (s t : Processor F) (hlen : t.sequenceLength = s.sequenceLength)
    (hmode : t.intonationMode = s.intonationMode) (hroots : t.measureRoots = s.measureRoots)
    (hfreq : t.accumulatedDriftFrequency = s.accumulatedDriftFrequency)
    (hdrift : t.hasAccumulatedDrift = s.hasAccumulatedDrift) (m : ℤ) :
    getCurrentMeasureRootFrequencyForMeasure pow t m =
      getCurrentMeasureRootFrequencyForMeasure pow s m := by
  have hrootAt : ∀ i, t.rootAt i = s.rootAt i := by
    intro i; simp only [Processor.rootAt, hroots]
  have key : ∀ n : ℕ, ∀ m : ℤ, m.toNat = n →
      getCurrentMeasureRootFrequencyForMeasure pow t m =
        getCurrentMeasureRootFrequencyForMeasure pow s m := by
    intro n
    induction n with
    | zero =>
      intro m hm
      rw [rootFrequency_unfold pow t, rootFrequency_unfold pow s]
      simp only [hrootAt, hlen, hmode, hroots, hfreq, hdrift]
      cases hr : s.rootAt m with
      | none => rfl
      | some r =>
        have hm0 : m = 0 := by
          unfold Processor.rootAt at hr
          split at hr
          · omega
          · cases hr
        simp [hm0]
    | succ n ih =>
      intro m hm
      rw [rootFrequency_unfold pow t, rootFrequency_unfold pow s]
      simp only [hrootAt, hlen, hmode, hroots, hfreq, hdrift]
      rw [ih (m - 1) (by omega)]
  exact key m.toNat m rfl

/-- Inside the 16 slots, and with the last measure inside them too, the root frequency of
a measure is defined. -/
theorem rootFrequency_isSome {F : Type} [LinearOrderedField F] (pow : F → F → F)
    (s : Processor F) (hlen : 1 ≤ s.sequenceLength ∧ s.sequenceLength ≤ 16)
    (n : ℕ) (hn : n < 16) :
    ∃ f, getCurrentMeasureRootFrequencyForMeasure pow s n = some f := by
  induction n with
  | zero =>
    rw [rootFrequency_unfold]
    simp only [Nat.cast_zero, rootAt_of_range s 0 (by omega) (by omega),
      rootAt_of_range s (s.sequenceLength - 1) (by omega) (by omega)]
    split_ifs <;> simp
  | succ n ih =>
    obtain ⟨f, hf⟩ := ih (by omega)
    rw [rootFrequency_unfold]
    have hne : ((n + 1 : ℕ) : ℤ) ≠ 0 := by omega
    have hpred : ((n + 1 : ℕ) : ℤ) - 1 = n := by omega
    simp only [rootAt_of_range s ((n + 1 : ℕ) : ℤ) (by omega) (by omega), hne, hpred,
      rootAt_of_range s (n : ℤ) (by omega) (by omega), hf, if_false]
    split_ifs <;> simp

/-- With the current measure inside the 16 slots, `midiNoteToFrequency` tunes the note
against the current measure's root at that measure's root frequency, whatever the
frequency map holds. -/
theorem midiNoteToFrequency_eq {F : Type} [LinearOrderedField F] (pow : F → F → F)
    (s : Processor F) (hcur : 0 ≤ s.currentMeasure ∧ s.currentMeasure < 16)
    (rootFreq : F)
    (hroot : getCurrentMeasureRootFrequencyForMeasure pow s s.currentMeasure = some rootFreq)
    (g : ℤ → Option F) (midiNote : ℤ) :
    midiNoteToFrequency pow { s with currentFrequencyMap := g } midiNote =
      some (calculateFrequencyInScale pow midiNote (getMeasureRoot s s.currentMeasure) rootFreq) := by
  have h1 : getCurrentMeasureRootFrequency pow { s with currentFrequencyMap := g } =
      some rootFreq := by
    rw [getCurrentMeasureRootFrequency_eq,
      rootFrequency_congr pow s { s with currentFrequencyMap := g } rfl rfl rfl rfl rfl]
    exact hroot
  have h2 : Processor.rootAt { s with currentFrequencyMap := g } s.currentMeasure =
      some (getMeasureRoot s s.currentMeasure) :=
    rootAt_of_range s s.currentMeasure hcur.1 hcur.2
  simp only [midiNoteToFrequency, h1]
  rw [h2]

/-- The loop of `updateFrequencyMap` over a list of notes writes the entry of every note
of the list and leaves the other entries and all other fields as they are. -/
theorem updateFrequencyMap_loop {F : Type} [LinearOrderedField F] (pow : F → F → F)
    (s : Processor F) (freq : ℤ → F)
    (hfreq : ∀ (g : ℤ → Option F) (n : ℤ),
      midiNoteToFrequency pow { s with currentFrequencyMap := g } n = some (freq n))
    (notes : List ℕ) (g : ℤ → Option F) :
    notes.foldlM (updateFrequencyMapStep pow) { s with currentFrequencyMap := g } =
      some { s with currentFrequencyMap := fun n =>
        if ∃ k ∈ notes, (k : ℤ) = n then some (freq n) else g n } := by
  induction notes generalizing g with
  | nil => simp
  | cons a rest ih =>
    rw [List.foldlM_cons]
    have hstep : updateFrequencyMapStep pow { s with currentFrequencyMap := g } a =
        some { s with currentFrequencyMap := Function.update g (a : ℤ) (some (freq a)) } := by
      simp only [updateFrequencyMapStep, hfreq]
    rw [hstep]
    show List.foldlM (updateFrequencyMapStep pow) _ rest = _
    rw [ih]
    congr 2
    funext n
    by_cases hn : (a : ℤ) = n
    · subst hn
      simp
    · have hn' : n ≠ (a : ℤ) := fun h => hn h.symm
      simp [Function.update_noteq hn', hn]

/-- C6: from every engine state with the current measure and the last measure inside the
16 slots, `updateFrequencyMap` returns; afterwards the frequency map has exactly the keys
`0 .. 127`, and for every note `n` in `0 .. 127` its entry is
`midiNoteToFrequency n = calculateFrequencyInScale (n, measureRoot[currentMeasure],
rootFrequency currentMeasure)` computed from the state at the time of the call; the other
fields are as before. -/
theorem C6_updateFrequencyMap_entries (s : Processor ℝ)
    (hcur : 0 ≤ s.currentMeasure ∧ s.currentMeasure < 16)
    (hlen : 1 ≤ s.sequenceLength ∧ s.sequenceLength ≤ 16) :
    ∃ (s' : Processor ℝ) (rootFreq : ℝ),
      updateFrequencyMap Real.rpow s = some s' ∧
      getCurrentMeasureRootFrequencyForMeasure Real.rpow s s.currentMeasure = some rootFreq ∧
      (∀ n : ℤ, s'.currentFrequencyMap n ≠ none ↔ 0 ≤ n ∧ n < 128) ∧
      (∀ n : ℤ, 0 ≤ n → n < 128 →
        s'.currentFrequencyMap n = midiNoteToFrequency Real.rpow s n ∧
        s'.currentFrequencyMap n =
          some (calculateFrequencyInScale Real.rpow n (getMeasureRoot s s.currentMeasure)
            rootFreq)) ∧
      s' = { s with currentFrequencyMap := s'.currentFrequencyMap } := by
  obtain ⟨rootFreq, hroot⟩ := rootFrequency_isSome Real.rpow s hlen s.currentMeasure.toNat
    (by omega)
  rw [Int.toNat_of_nonneg hcur.1] at hroot
  have hfreq := midiNoteToFrequency_eq Real.rpow s hcur rootFreq hroot
  have hloop := updateFrequencyMap_loop Real.rpow s
    (fun n => calculateFrequencyInScale Real.rpow n (getMeasureRoot s s.currentMeasure) rootFreq)
    hfreq (List.range 128) (fun _ => none)
  have hmem : ∀ n : ℤ, (∃ k ∈ List.range 128, (k : ℤ) = n) ↔ 0 ≤ n ∧ n < 128 := by
    intro n
    constructor
    · rintro ⟨k, hk, rfl⟩
      rw [List.mem_range] at hk
      omega
    · rintro ⟨h0, h128⟩
      exact ⟨n.toNat, List.mem_range.mpr (by omega), by omega⟩
  refine ⟨_, rootFreq, hloop, hroot, ?_, ?_, rfl⟩
  · intro n
    simp only [hmem]
    split_ifs with h
    · simp [h]
    · simp [h]
  · intro n h0 h128
    have hin : 0 ≤ n ∧ n < 128 := ⟨h0, h128⟩
    simp only [hmem, hin, and_self, if_true]
    exact ⟨(hfreq s.currentFrequencyMap n).symm, trivial⟩

/-- C6 at the engine right after the constructor: the map gets the 128 entries, the one
of note 72 being the octave above the 12-TET middle C. -/
theorem C6_updateFrequencyMap_entries_witness :
    (0 ≤ (Processor.initial : Processor ℝ).currentMeasure ∧
      (Processor.initial : Processor ℝ).currentMeasure < 16) ∧
    (1 ≤ (Processor.initial : Processor ℝ).sequenceLength ∧
      (Processor.initial : Processor ℝ).sequenceLength ≤ 16) ∧
    ∃ (s' : Processor ℝ) (rootFreq : ℝ),
      updateFrequencyMap Real.rpow Processor.initial = some s' ∧
      getCurrentMeasureRootFrequencyForMeasure Real.rpow (Processor.initial : Processor ℝ)
        (Processor.initial : Processor ℝ).currentMeasure = some rootFreq ∧
      (∀ n : ℤ, s'.currentFrequencyMap n ≠ none ↔ 0 ≤ n ∧ n < 128) ∧
      (∀ n : ℤ, 0 ≤ n → n < 128 →
        s'.currentFrequencyMap n = midiNoteToFrequency Real.rpow Processor.initial n ∧
        s'.currentFrequencyMap n =
          some (calculateFrequencyInScale Real.rpow n
            (getMeasureRoot (Processor.initial : Processor ℝ)
              (Processor.initial : Processor ℝ).currentMeasure) rootFreq)) ∧
      s' = { (Processor.initial : Processor ℝ) with
        currentFrequencyMap := s'.currentFrequencyMap } :=
  ⟨by decide, by decide, C6_updateFrequencyMap_entries Processor.initial (by decide) (by decide)⟩

/-! ## The per-block transport update -/

/-- The cast to `int` of a non-negative value is its floor. -/
theorem truncToInt_of_nonneg {F : Type} [LinearOrderedField F] [FloorRing F] (x : F) (q : ℤ)
    (h0 : 0 ≤ x) (hq : (q : F) ≤ x ∧ x < q + 1)
    (hint : -2147483648 ≤ q ∧ q ≤ 2147483647) : truncToInt x = q := by
  have hfloor : ⌊x⌋ = q := Int.floor_eq_iff.mpr hq
  simp only [truncToInt, h0, if_true, hfloor, hint, and_self]

/-- The cast to `int` of a negative value is its ceiling. -/
theorem truncToInt_of_neg {F : Type} [LinearOrderedField F] [FloorRing F] (x : F) (q : ℤ)
    (h0 : x < 0) (hq : (q : F) - 1 < x ∧ x ≤ q)
    (hint : -2147483648 ≤ q ∧ q ≤ 2147483647) : truncToInt x = q := by
  have hceil : ⌈x⌉ = q := Int.ceil_eq_iff.mpr hq
  simp only [truncToInt, not_le.mpr h0, if_false, hceil, hint, and_self, if_true]

/-- The update for a block in which the host is playing and reports a position: no stop
is detected, the position is stored, drift is captured when the condition of the source
holds, and the measure indices move on. -/
theorem updateCurrentMeasure_playingAt {F : Type} [LinearOrderedField F] [FloorRing F]
    (pow : F → F → F) (s : Processor F) (ppq : F) (hlen : s.sequenceLength ≠ 0) :
    updateCurrentMeasure pow s (playingAt ppq) =
      if s.intonationMode = IntonationMode.Shift ∧
          s.previousMeasure = s.sequenceLength - 1 ∧
          Int.tmod (truncToInt (ppq / 4)) s.sequenceLength = 0 ∧
          s.previousMeasure ≠ -1 then
        (getCurrentMeasureRootFrequencyForMeasure pow s (s.sequenceLength - 1)).map
          (fun lastFreq =>
            { s with wasPlaying := true, ppqPosition := ppq, bpm := 120,
                     accumulatedDriftFrequency := lastFreq, hasAccumulatedDrift := true,
                     previousMeasure := s.currentMeasure,
                     currentMeasure := Int.tmod (truncToInt (ppq / 4)) s.sequenceLength })
      else
        some { s with wasPlaying := true, ppqPosition := ppq, bpm := 120,
                      previousMeasure := s.currentMeasure,
                      currentMeasure := Int.tmod (truncToInt (ppq / 4)) s.sequenceLength } := by
  have hfreq : getCurrentMeasureRootFrequencyForMeasure pow
      { s with wasPlaying := true, ppqPosition := ppq, bpm := 120 } (s.sequenceLength - 1) =
      getCurrentMeasureRootFrequencyForMeasure pow s (s.sequenceLength - 1) :=
    rootFrequency_congr pow s { s with wasPlaying := true, ppqPosition := ppq, bpm := 120 }
      rfl rfl rfl rfl rfl _
  simp only [updateCurrentMeasure, playingAt, Bool.true_eq_false, and_false, if_false,
    Option.getD_none, hlen, hfreq]
  split_ifs
  · cases getCurrentMeasureRootFrequencyForMeasure pow s (s.sequenceLength - 1) <;> rfl
  · rfl

/-- The update for a block in which the host reports a position and is stopped after
having played: the drift and the measure indices are reset, and then the measure indices
are recomputed from the reported position all the same. -/
theorem updateCurrentMeasure_stoppedAt {F : Type} [LinearOrderedField F] [FloorRing F]
    (pow : F → F → F) (s : Processor F) (ppq : F) (hlen : s.sequenceLength ≠ 0)
    (hwas : s.wasPlaying = true) :
    updateCurrentMeasure pow s (stoppedAt ppq) =
      some { s with wasPlaying := false, ppqPosition := ppq, bpm := 120,
                    accumulatedDriftFrequency := 0, hasAccumulatedDrift := false,
                    previousMeasure := 0,
                    currentMeasure := Int.tmod (truncToInt (ppq / 4)) s.sequenceLength } := by
  have hprev : ¬ ((-1 : ℤ) = s.sequenceLength - 1) := by omega
  simp [updateCurrentMeasure, stoppedAt, hwas, resetAccumulatedDrift, hlen, hprev]

/-- C9 (code at the failing input): from the engine right after the constructor
(length 4), a block played at the beat position `-4` leaves the current measure index at
`-1`, outside `[0, 4)`, where the floored formula `floor (b / 4) mod 4` gives 3; the
array read `measureRoots[currentMeasure]` is then outside the array. -/
theorem C9_negative_position_measure_index :
    ∃ s' : Processor ℝ,
      updateCurrentMeasure Real.rpow (Processor.initial : Processor ℝ) (playingAt (-4)) = some s' ∧
      s'.sequenceLength = 4 ∧
      s'.currentMeasure = -1 ∧
      Int.fmod ⌊(-4 : ℝ) / 4⌋ 4 = 3 ∧
      s'.rootAt s'.currentMeasure = none := by
  have htrunc : truncToInt ((-4 : ℝ) / 4) = -1 :=
    truncToInt_of_neg _ _ (by norm_num) (by norm_num) (by decide)
  have hfloor : ⌊(-4 : ℝ) / 4⌋ = -1 := Int.floor_eq_iff.mpr (by norm_num)
  rw [updateCurrentMeasure_playingAt Real.rpow _ _ (by decide)]
  refine ⟨_, if_neg (by decide), rfl, ?_, ?_, ?_⟩
  · show Int.tmod (truncToInt ((-4 : ℝ) / 4)) 4 = -1
    rw [htrunc]; decide
  · rw [hfloor]; decide
  · show Processor.rootAt _ (Int.tmod (truncToInt ((-4 : ℝ) / 4)) 4) = none
    rw [htrunc]
    rfl

/-- The update for a block in which the host is stopped after having played and reports
no beats position: the measure indices stay at their reset values. -/
theorem updateCurrentMeasure_stopped_noPosition {F : Type} [LinearOrderedField F]
    [FloorRing F] (pow : F → F → F) (s : Processor F) (bpm : Option F)
    (hwas : s.wasPlaying = true) :
    updateCurrentMeasure pow s
        (some { position := some { isPlaying := false, ppqPosition := none, bpm := bpm } }) =
      some { s with wasPlaying := false,
                    accumulatedDriftFrequency := 0, hasAccumulatedDrift := false,
                    previousMeasure := -1, currentMeasure := 0 } := by
  simp [updateCurrentMeasure, hwas, resetAccumulatedDrift]

/-- The engine of `playingExample` is the one reached from the constructor by a block
played at beat 4. -/
theorem playingExample_reached :
    updateCurrentMeasure Real.rpow (Processor.initial : Processor ℝ) (playingAt 4) =
      some playingExample := by
  have htrunc : truncToInt ((4 : ℝ) / 4) = 1 :=
    truncToInt_of_nonneg _ _ (by norm_num) (by norm_num) (by decide)
  rw [updateCurrentMeasure_playingAt Real.rpow _ _ (by decide), if_neg (by decide), htrunc]
  rfl

/-- C10 as stated fails: from the engine that has played a block at beat 4, a block in
which the host is stopped and still reports beat 4 ends with the current measure index 1
and the previous measure 0, not with 0 and -1. -/
theorem C10_stop_with_position_counterexample :
    ∃ s2 : Processor ℝ,
      (playingExample : Processor ℝ).wasPlaying = true ∧
      updateCurrentMeasure Real.rpow (playingExample : Processor ℝ) (stoppedAt 4) = some s2 ∧
      s2.wasPlaying = false ∧
      s2.currentMeasure = 1 ∧
      s2.previousMeasure = 0 ∧
      ¬ (s2.currentMeasure = 0 ∧ s2.previousMeasure = -1) := by
  have htrunc : truncToInt ((4 : ℝ) / 4) = 1 :=
    truncToInt_of_nonneg _ _ (by norm_num) (by norm_num) (by decide)
  have hcur : Int.tmod (truncToInt ((4 : ℝ) / 4)) 4 = 1 := by rw [htrunc]; decide
  refine ⟨_, rfl, updateCurrentMeasure_stoppedAt Real.rpow _ 4 (by decide) rfl, rfl, hcur, rfl, ?_⟩
  rintro ⟨h, -⟩
  have h1 : Int.tmod (truncToInt ((4 : ℝ) / 4)) 4 = 0 := h
  rw [hcur] at h1
  exact absurd h1 (by decide)

/-- C10 as amended: for every state in which the transport was playing at the previous
block, a per-block update in which the host reports the transport as stopped returns;
when the block carries no beats position the current measure index is 0 and the previous
measure is -1; when it carries a beats position `b` (and the sequence length is not 0) the
measure indices are recomputed from it in the same update: the previous measure is 0 and
the current measure is the truncated `b / 4` taken `%` the sequence length. -/
theorem C10_stop_measure_indices (s : Processor ℝ) (hwas : s.wasPlaying = true) :
    (∀ bpm : Option ℝ, ∃ s' : Processor ℝ,
      updateCurrentMeasure Real.rpow s
        (some { position := some { isPlaying := false, ppqPosition := none, bpm := bpm } }) =
        some s' ∧
      s'.currentMeasure = 0 ∧ s'.previousMeasure = -1) ∧
    (∀ b : ℝ, s.sequenceLength ≠ 0 → ∃ s' : Processor ℝ,
      updateCurrentMeasure Real.rpow s (stoppedAt b) = some s' ∧
      s'.previousMeasure = 0 ∧
      s'.currentMeasure = Int.tmod (truncToInt (b / 4)) s.sequenceLength) := by
  constructor
  · intro bpm
    exact ⟨_, updateCurrentMeasure_stopped_noPosition Real.rpow s bpm hwas, rfl, rfl⟩
  · intro b hlen
    exact ⟨_, updateCurrentMeasure_stoppedAt Real.rpow s b hlen hwas, rfl, rfl⟩

/-- C10 as amended, at the engine that has played a block at beat 4: stopped without a
position it ends in measure 0 with no previous measure. -/
theorem C10_stop_measure_indices_witness :
    (playingExample : Processor ℝ).wasPlaying = true ∧
    ∃ s' : Processor ℝ,
      updateCurrentMeasure Real.rpow (playingExample : Processor ℝ)
        (some { position := some { isPlaying := false, ppqPosition := none, bpm := none } }) =
        some s' ∧
      s'.currentMeasure = 0 ∧ s'.previousMeasure = -1 :=
  ⟨rfl, (C10_stop_measure_indices playingExample rfl).1 none⟩

/-! ## The four-measure Shift loop with roots 60, 62, 64, 67 -/

/-- The roots of the example loop, read through the getter. -/
theorem driftExample_roots (s : Processor ℝ)
    (hroots : s.measureRoots = (driftExample : Processor ℝ).measureRoots) :
    getMeasureRoot s 0 = 60 ∧ getMeasureRoot s 1 = 62 ∧ getMeasureRoot s 2 = 64 ∧
      getMeasureRoot s 3 = 67 := by
  refine ⟨?_, ?_, ?_, ?_⟩ <;>
    (simp only [getMeasureRoot, MAX_SEQUENCE_LENGTH, hroots]; rfl)

/-- The step ratios of the example loop: a whole tone, a minor third, and the fall of a
fifth back to the first root. -/
theorem justStepRatio_values :
    (justStepRatio 2 : ℝ) = 9 / 8 ∧ (justStepRatio 3 : ℝ) = 6 / 5 ∧
      (justStepRatio (-7) : ℝ) = 2 / 3 := by
  have h2 : (Int.fmod 2 12).toNat = 2 ∧ Int.fdiv 2 12 = 0 := by decide
  have h3 : (Int.fmod 3 12).toNat = 3 ∧ Int.fdiv 3 12 = 0 := by decide
  have h7 : (Int.fmod (-7) 12).toNat = 5 ∧ Int.fdiv (-7) 12 = -1 := by decide
  refine ⟨?_, ?_, ?_⟩
  · rw [justStepRatio, h2.1, h2.2]; norm_num
  · rw [justStepRatio, h3.1, h3.2]; norm_num
  · rw [justStepRatio, h7.1, h7.2]; norm_num

/-- In the example loop the root frequency of measure 3 is 243/160 of that of measure 0. -/
theorem driftExample_measure3 (s : Processor ℝ)
    (hmode : s.intonationMode = IntonationMode.Shift)
    (hroots : s.measureRoots = (driftExample : Processor ℝ).measureRoots) :
    getCurrentMeasureRootFrequencyForMeasure Real.rpow s 3 =
      (getCurrentMeasureRootFrequencyForMeasure Real.rpow s 0).map (fun f0 => f0 * (243 / 160)) := by
  obtain ⟨h0, h1, h2, h3⟩ := driftExample_roots s hroots
  have h := rootFrequency_shift_product s hmode 3 (by norm_num)
  simp only [Finset.prod_range_succ, Finset.prod_range_zero, Nat.cast_zero, Nat.cast_one,
    Nat.cast_ofNat, zero_add, one_mul] at h
  norm_num at h
  rw [h0, h1, h2, h3] at h
  norm_num [justStepRatio_values.1, justStepRatio_values.2.1] at h
  rw [h]

/-- In the example loop without drift, measure 0 sounds at the 12-TET middle C. -/
theorem driftExample_measure0_noDrift (s : Processor ℝ)
    (hmode : s.intonationMode = IntonationMode.Shift)
    (hroots : s.measureRoots = (driftExample : Processor ℝ).measureRoots)
    (hd : s.hasAccumulatedDrift = false) :
    getCurrentMeasureRootFrequencyForMeasure Real.rpow s 0 = some (twelveTet Real.rpow 60) := by
  rw [rootFrequency_zero_noDrift Real.rpow s hmode hd, (driftExample_roots s hroots).1]

/-- In the example loop with drift, measure 0 is tuned a fifth below the carried
frequency. -/
theorem driftExample_measure0_drift (s : Processor ℝ) (hlen : s.sequenceLength = 4)
    (hmode : s.intonationMode = IntonationMode.Shift)
    (hroots : s.measureRoots = (driftExample : Processor ℝ).measureRoots)
    (hd : s.hasAccumulatedDrift = true) :
    getCurrentMeasureRootFrequencyForMeasure Real.rpow s 0 =
      some (calculateFrequencyInScale Real.rpow 60 67 s.accumulatedDriftFrequency) := by
  obtain ⟨h0, _, _, h3⟩ := driftExample_roots s hroots
  rw [rootFrequency_zero_drift Real.rpow s hmode hd, hlen,
    rootAt_of_range s (4 - 1) (by norm_num) (by norm_num), Option.map_some', h0]
  norm_num [h3]

/-- A played block of the example loop: the measure indices move on, and the drift fields
are assigned exactly when the measure before the last block was 3 and the new one is 0. -/
theorem driftExample_step (s : Processor ℝ) (hlen : s.sequenceLength = 4)
    (hmode : s.intonationMode = IntonationMode.Shift) (ppq : ℝ) (q r : ℤ)
    (h0 : 0 ≤ ppq / 4) (hq : (q : ℝ) ≤ ppq / 4 ∧ ppq / 4 < q + 1) (hr : Int.tmod q 4 = r)
    (hint : -2147483648 ≤ q ∧ q ≤ 2147483647) :
    ∃ s' : Processor ℝ,
      updateCurrentMeasure Real.rpow s (playingAt ppq) = some s' ∧
      s'.sequenceLength = 4 ∧ s'.intonationMode = IntonationMode.Shift ∧
      s'.measureRoots = s.measureRoots ∧
      s'.previousMeasure = s.currentMeasure ∧ s'.currentMeasure = r ∧
      ((s.previousMeasure = 3 ∧ r = 0) → s'.hasAccumulatedDrift = true ∧
        getCurrentMeasureRootFrequencyForMeasure Real.rpow s 3 =
          some s'.accumulatedDriftFrequency) ∧
      (¬ (s.previousMeasure = 3 ∧ r = 0) →
        s'.hasAccumulatedDrift = s.hasAccumulatedDrift ∧
        s'.accumulatedDriftFrequency = s.accumulatedDriftFrequency) := by
  have htrunc : truncToInt (ppq / 4) = q := truncToInt_of_nonneg _ _ h0 hq hint
  have hlen0 : s.sequenceLength ≠ 0 := by omega
  have h41 : (4 : ℤ) - 1 = 3 := by norm_num
  obtain ⟨f, hf⟩ := rootFrequency_isSome Real.rpow s (by omega) 3 (by norm_num)
  simp only [Nat.cast_ofNat] at hf
  rw [updateCurrentMeasure_playingAt Real.rpow s ppq hlen0, htrunc, hlen, hr, h41]
  by_cases hc : s.previousMeasure = 3 ∧ r = 0
  · rw [if_pos ⟨hmode, hc.1, hc.2, by omega⟩, hf, Option.map_some']
    exact ⟨_, rfl, rfl, hmode, rfl, rfl, rfl, fun _ => ⟨rfl, rfl⟩, fun h => absurd hc h⟩
  · have hcond : ¬ (s.intonationMode = IntonationMode.Shift ∧ s.previousMeasure = 3 ∧
        r = 0 ∧ s.previousMeasure ≠ -1) := by
      rintro ⟨_, h1, h2, _⟩
      exact hc ⟨h1, h2⟩
    rw [if_neg hcond]
    exact ⟨_, rfl, rfl, hmode, rfl, rfl, rfl, fun h => absurd h hc, fun _ => ⟨rfl, rfl⟩⟩

/-- Appending one block to a run of transport updates. -/
theorem runTransport_append {F : Type} [LinearOrderedField F] [FloorRing F]
    (pow : F → F → F) (s : Processor F) (blocks : List (Option (PlayHead F)))
    (block : Option (PlayHead F)) :
    runTransport pow s (blocks ++ [block]) =
      (runTransport pow s blocks).bind (fun s' => updateCurrentMeasure pow s' block) := by
  simp only [runTransport, List.foldlM_append, List.foldlM_cons, List.foldlM_nil]
  cases List.foldlM (updateCurrentMeasure pow) s blocks with
  | none => rfl
  | some s' =>
    show (updateCurrentMeasure pow s' block >>= fun init => some init) =
      updateCurrentMeasure pow s' block
    cases updateCurrentMeasure pow s' block <;> rfl

/-- The first loop of the example, one block in each of the measures 0, 1, 2 and 3: the
engine is in measure 3, the block before was in measure 2, no drift yet. -/
theorem driftExample_first_loop :
    ∃ s4 : Processor ℝ,
      runTransport Real.rpow (driftExample : Processor ℝ)
        [playingAt 0, playingAt 4, playingAt 8, playingAt 12] = some s4 ∧
      s4.sequenceLength = 4 ∧ s4.intonationMode = IntonationMode.Shift ∧
      s4.measureRoots = (driftExample : Processor ℝ).measureRoots ∧
      s4.previousMeasure = 2 ∧ s4.currentMeasure = 3 ∧ s4.hasAccumulatedDrift = false := by
  obtain ⟨s1, e1, l1, m1, r1, p1, c1, -, n1⟩ := driftExample_step driftExample rfl rfl 0 0 0
    (by norm_num) (by norm_num) (by decide) (by decide)
  obtain ⟨s2, e2, l2, m2, r2, p2, c2, -, n2⟩ := driftExample_step s1 l1 m1 4 1 1
    (by norm_num) (by norm_num) (by decide) (by decide)
  obtain ⟨s3, e3, l3, m3, r3, p3, c3, -, n3⟩ := driftExample_step s2 l2 m2 8 2 2
    (by norm_num) (by norm_num) (by decide) (by decide)
  obtain ⟨s4, e4, l4, m4, r4, p4, c4, -, n4⟩ := driftExample_step s3 l3 m3 12 3 3
    (by norm_num) (by norm_num) (by decide) (by decide)
  have hp0 : (driftExample : Processor ℝ).previousMeasure = -1 := rfl
  have hd0 : (driftExample : Processor ℝ).hasAccumulatedDrift = false := rfl
  have hc0 : (driftExample : Processor ℝ).currentMeasure = 0 := rfl
  have d1 := (n1 (by omega)).1
  have d2 := (n2 (by omega)).1
  have d3 := (n3 (by omega)).1
  have d4 := (n4 (by omega)).1
  refine ⟨s4, ?_, l4, m4, ?_, ?_, c4, ?_⟩
  · simp [runTransport, e1, e2, e3, e4]
  · rw [r4, r3, r2, r1]
  · rw [p4, c3]
  · rw [d4, d3, d2, d1, hd0]

/-- Tuning the root 60 against the root 67 multiplies the frequency by 2/3. -/
theorem calculateFrequencyInScale_fifth_down (f : ℝ) :
    calculateFrequencyInScale Real.rpow 60 67 f = f * (2 / 3) := by
  rw [calculateFrequencyInScale_step]
  norm_num [justStepRatio_values.2.2]

/-- The 12-TET reference frequency is positive. -/
theorem twelveTet_pos (root : ℤ) : 0 < twelveTet Real.rpow root := by
  rw [twelveTet_real]
  have h : (0 : ℝ) < (2 : ℝ) ^ (((root : ℝ) - 69) / 12) := Real.rpow_pos_of_pos (by norm_num) _
  linarith

/-- The example loop with two blocks in measure 3 and two blocks in measure 0 of the
second loop: the drift fields are assigned in both blocks of measure 0, the second time
from a derivation that already starts at the drift of the first. -/
theorem driftExample_wrap_two_blocks :
    ∃ (s5 s6 s7 : Processor ℝ) (f3 : ℝ),
      runTransport Real.rpow (driftExample : Processor ℝ)
        [playingAt 0, playingAt 4, playingAt 8, playingAt 12, playingAt 13] = some s5 ∧
      updateCurrentMeasure Real.rpow s5 (playingAt 16) = some s6 ∧
      updateCurrentMeasure Real.rpow s6 (playingAt 17) = some s7 ∧
      s5.currentMeasure = 3 ∧ s5.hasAccumulatedDrift = false ∧
      getCurrentMeasureRootFrequencyForMeasure Real.rpow s5 3 = some f3 ∧ 0 < f3 ∧
      s6.currentMeasure = 0 ∧ s6.hasAccumulatedDrift = true ∧
      s6.accumulatedDriftFrequency = f3 ∧
      getCurrentMeasureRootFrequencyForMeasure Real.rpow s6 0 =
        some (calculateFrequencyInScale Real.rpow 60 67 f3) ∧
      s7.currentMeasure = 0 ∧ s7.hasAccumulatedDrift = true ∧
      s7.accumulatedDriftFrequency = f3 * (81 / 80) ∧
      getCurrentMeasureRootFrequencyForMeasure Real.rpow s7 0 =
        some (calculateFrequencyInScale Real.rpow 60 67 (f3 * (81 / 80))) := by
  obtain ⟨s4, e4, l4, m4, r4, p4, c4, d4⟩ := driftExample_first_loop
  obtain ⟨s5, e5, l5, m5, r5, p5, c5, -, n5⟩ := driftExample_step s4 l4 m4 13 3 3
    (by norm_num) (by norm_num) (by decide) (by decide)
  obtain ⟨s6, e6, l6, m6, r6, p6, c6, y6, -⟩ := driftExample_step s5 l5 m5 16 4 0
    (by norm_num) (by norm_num) (by decide) (by decide)
  obtain ⟨s7, e7, l7, m7, r7, p7, c7, y7, -⟩ := driftExample_step s6 l6 m6 17 4 0
    (by norm_num) (by norm_num) (by decide) (by decide)
  have d5 : s5.hasAccumulatedDrift = false := by rw [(n5 (by omega)).1, d4]
  obtain ⟨d6, f6⟩ := y6 ⟨by rw [p5, c4], rfl⟩
  obtain ⟨d7, f7⟩ := y7 ⟨by rw [p6, c5], rfl⟩
  have hr5 : s5.measureRoots = (driftExample : Processor ℝ).measureRoots := by rw [r5, r4]
  have hr6 : s6.measureRoots = (driftExample : Processor ℝ).measureRoots := by rw [r6, hr5]
  have hr7 : s7.measureRoots = (driftExample : Processor ℝ).measureRoots := by rw [r7, hr6]
  -- the frequency captured at the first block of measure 0
  have h53 := driftExample_measure3 s5 m5 hr5
  rw [driftExample_measure0_noDrift s5 m5 hr5 d5, Option.map_some', f6] at h53
  have hf3 : s6.accumulatedDriftFrequency = twelveTet Real.rpow 60 * (243 / 160) :=
    Option.some.inj h53
  have hpos : 0 < s6.accumulatedDriftFrequency := by
    rw [hf3]
    exact mul_pos (twelveTet_pos 60) (by norm_num)
  -- the frequency captured again at the second block of measure 0
  have h60 := driftExample_measure0_drift s6 l6 m6 hr6 d6
  have h63 := driftExample_measure3 s6 m6 hr6
  rw [h60, Option.map_some', f7, calculateFrequencyInScale_fifth_down] at h63
  have hf7 : s7.accumulatedDriftFrequency = s6.accumulatedDriftFrequency * (81 / 80) := by
    have := Option.some.inj h63
    rw [this]; ring
  have h70 := driftExample_measure0_drift s7 l7 m7 hr7 d7
  rw [hf7] at h70
  refine ⟨s5, s6, s7, s6.accumulatedDriftFrequency, ?_, e6, e7, c5, d5, f6, hpos, c6, d6, rfl,
    h60, c7, d7, hf7, h70⟩
  show runTransport Real.rpow (driftExample : Processor ℝ)
    ([playingAt 0, playingAt 4, playingAt 8, playingAt 12] ++ [playingAt 13]) = some s5
  rw [runTransport_append, e4]
  exact e5

/-- C7 (code at the failing input): the Shift-mode engine with length 4 and roots
60, 62, 64, 67 is played through blocks at the beats 0, 4, 8, 12, 13 (measures 0, 1, 2, 3, 3)
and then 16, 17 (measure 0 of the second loop).  With `f3` the root frequency of measure 3
during the first loop, at the block of beat 17 the engine is in measure 0 with drift, and
the root frequency of measure 0 is `calculateFrequencyInScale (60, 67, f3 * 81/80)`, which is
not `calculateFrequencyInScale (60, 67, f3)`. -/
theorem C7_second_block_after_wrap :
    ∃ (s5 s7 : Processor ℝ) (f3 : ℝ),
      runTransport Real.rpow (driftExample : Processor ℝ)
        [playingAt 0, playingAt 4, playingAt 8, playingAt 12, playingAt 13] = some s5 ∧
      s5.currentMeasure = 3 ∧
      getCurrentMeasureRootFrequencyForMeasure Real.rpow s5 3 = some f3 ∧
      runTransport Real.rpow (driftExample : Processor ℝ)
        [playingAt 0, playingAt 4, playingAt 8, playingAt 12, playingAt 13, playingAt 16,
          playingAt 17] = some s7 ∧
      s7.currentMeasure = 0 ∧ s7.hasAccumulatedDrift = true ∧
      getCurrentMeasureRootFrequencyForMeasure Real.rpow s7 0 =
        some (calculateFrequencyInScale Real.rpow 60 67 (f3 * (81 / 80))) ∧
      getCurrentMeasureRootFrequencyForMeasure Real.rpow s7 0 ≠
        some (calculateFrequencyInScale Real.rpow 60 67 f3) := by
  obtain ⟨s5, s6, s7, f3, e5, e6, e7, c5, -, h53, hpos, -, -, -, -, c7, d7, -, h70⟩ :=
    driftExample_wrap_two_blocks
  refine ⟨s5, s7, f3, e5, c5, h53, ?_, c7, d7, h70, ?_⟩
  · show runTransport Real.rpow (driftExample : Processor ℝ)
      (([playingAt 0, playingAt 4, playingAt 8, playingAt 12, playingAt 13] ++ [playingAt 16]) ++
        [playingAt 17]) = some s7
    rw [runTransport_append, runTransport_append, e5]
    show (updateCurrentMeasure Real.rpow s5 (playingAt 16)).bind _ = _
    rw [e6]
    exact e7
  · rw [h70]
    intro h
    have h' := Option.some.inj h
    rw [calculateFrequencyInScale_fifth_down, calculateFrequencyInScale_fifth_down] at h'
    linarith

/-- C8 (code at the failing input), in the same four-measure Shift loop.  With two blocks
in measure 3 and two in measure 0 (beats 13, 16, 17), the drift fields are assigned at the
wrap block of beat 16 and a second time, to another value, at the block of beat 17, which
is no wrap.  With one block per measure (beats 12, 16, 20) the wrap at beat 16 assigns
nothing, and neither does the next block. -/
theorem C8_captures_per_wrap :
    (∃ s5 s6 s7 : Processor ℝ,
      runTransport Real.rpow (driftExample : Processor ℝ)
        [playingAt 0, playingAt 4, playingAt 8, playingAt 12, playingAt 13] = some s5 ∧
      updateCurrentMeasure Real.rpow s5 (playingAt 16) = some s6 ∧
      updateCurrentMeasure Real.rpow s6 (playingAt 17) = some s7 ∧
      s5.currentMeasure = 3 ∧ s6.currentMeasure = 0 ∧ s7.currentMeasure = 0 ∧
      s5.hasAccumulatedDrift = false ∧ s6.hasAccumulatedDrift = true ∧
      s7.hasAccumulatedDrift = true ∧
      s7.accumulatedDriftFrequency ≠ s6.accumulatedDriftFrequency) ∧
    (∃ s4 s5 s6 : Processor ℝ,
      runTransport Real.rpow (driftExample : Processor ℝ)
        [playingAt 0, playingAt 4, playingAt 8, playingAt 12] = some s4 ∧
      updateCurrentMeasure Real.rpow s4 (playingAt 16) = some s5 ∧
      updateCurrentMeasure Real.rpow s5 (playingAt 20) = some s6 ∧
      s4.currentMeasure = 3 ∧ s5.currentMeasure = 0 ∧ s6.currentMeasure = 1 ∧
      s4.hasAccumulatedDrift = false ∧ s5.hasAccumulatedDrift = false ∧
      s6.hasAccumulatedDrift = false) := by
  constructor
  · obtain ⟨s5, s6, s7, f3, e5, e6, e7, c5, d5, -, hpos, c6, d6, a6, -, c7, d7, a7, -⟩ :=
      driftExample_wrap_two_blocks
    refine ⟨s5, s6, s7, e5, e6, e7, c5, c6, c7, d5, d6, d7, ?_⟩
    rw [a6, a7]
    intro h
    linarith
  · obtain ⟨s4, e4, l4, m4, r4, p4, c4, d4⟩ := driftExample_first_loop
    obtain ⟨s5, e5, l5, m5, r5, p5, c5, -, n5⟩ := driftExample_step s4 l4 m4 16 4 0
      (by norm_num) (by norm_num) (by decide) (by decide)
    obtain ⟨s6, e6, l6, m6, r6, p6, c6, -, n6⟩ := driftExample_step s5 l5 m5 20 5 1
      (by norm_num) (by norm_num) (by decide) (by decide)
    have d5 : s5.hasAccumulatedDrift = false := by rw [(n5 (by omega)).1, d4]
    have d6 : s6.hasAccumulatedDrift = false := by rw [(n6 (by omega)).1, d5]
    exact ⟨s4, s5, s6, e4, e5, e6, c4, c5, c6, d4, d5, d6⟩

/-! ## Octave invariance, positivity and monotonicity of the scale -/

/-- The step ratio once the step is split as `12 * k + i` with `0 ≤ i < 12`. -/
theorem justStepRatio_of_split (d k : ℤ) (i : ℕ) (hi : i < 12) (hd : d = 12 * k + i) :
    (justStepRatio d : ℝ) =
      (calculateJustRatios 0 : List ℝ).getD i 0 * (2 : ℝ) ^ k := by
  have h1 : Int.fmod d 12 = i := by
    rw [Int.fmod_eq_emod _ (by omega)]; omega
  have h2 : Int.fdiv d 12 = k := by
    rw [Int.fdiv_eq_ediv _ (by omega)]; omega
  rw [justStepRatio, h1, h2, Int.toNat_ofNat, calculateJustRatios]

/-- Every step splits as `12 * k + i` with `0 ≤ i < 12`. -/
theorem exists_split (d : ℤ) : ∃ (k : ℤ) (i : ℕ), i < 12 ∧ d = 12 * k + i :=
  ⟨d / 12, (d % 12).toNat, by omega, by omega⟩

/-- The entries of the ratio table are positive, increase strictly, and stay below the
octave. -/
theorem justRatios_table (i : ℕ) (hi : i < 12) :
    0 < (calculateJustRatios 0 : List ℝ).getD i 0 ∧
    (i + 1 < 12 → (calculateJustRatios 0 : List ℝ).getD i 0 <
      (calculateJustRatios 0 : List ℝ).getD (i + 1) 0) ∧
    (calculateJustRatios 0 : List ℝ).getD i 0 < 2 := by
  interval_cases i <;> norm_num [calculateJustRatios]

/-- The step ratio is positive. -/
theorem justStepRatio_pos (d : ℤ) : 0 < (justStepRatio d : ℝ) := by
  obtain ⟨k, i, hi, hd⟩ := exists_split d
  rw [justStepRatio_of_split d k i hi hd]
  exact mul_pos (justRatios_table i hi).1 (zpow_pos (by norm_num) k)

/-- A step one octave larger has twice the ratio. -/
theorem justStepRatio_add_octave (d : ℤ) :
    (justStepRatio (d + 12) : ℝ) = 2 * justStepRatio d := by
  obtain ⟨k, i, hi, hd⟩ := exists_split d
  rw [justStepRatio_of_split d k i hi hd,
    justStepRatio_of_split (d + 12) (k + 1) i hi (by omega),
    zpow_add_one₀ (by norm_num : (2 : ℝ) ≠ 0)]
  ring

/-- C14: octave invariance.  For all integers `n` and `root` and every root frequency
`f`, `calculateFrequencyInScale (n + 12, root, f) = 2 * calculateFrequencyInScale (n, root,
f)`, exactly over the reals, also when `n` is below `root`. -/
theorem C14_octave_invariance (n root : ℤ) (f : ℝ) :
    calculateFrequencyInScale Real.rpow (n + 12) root f =
      2 * calculateFrequencyInScale Real.rpow n root f := by
  rw [calculateFrequencyInScale_step, calculateFrequencyInScale_step,
    show n + 12 - root = (n - root) + 12 by ring, justStepRatio_add_octave]
  ring

/-- C15: for all integers `n` and `root` and every root frequency `f > 0`,
`calculateFrequencyInScale (n, root, f) > 0`. -/
theorem C15_frequency_positive (n root : ℤ) (f : ℝ) (hf : 0 < f) :
    0 < calculateFrequencyInScale Real.rpow n root f := by
  rw [calculateFrequencyInScale_step]
  exact mul_pos hf (justStepRatio_pos _)

/-- C15 at the note 55 below the root 60 with root frequency 100. -/
theorem C15_frequency_positive_witness :
    (0 : ℝ) < 100 ∧ 0 < calculateFrequencyInScale Real.rpow 55 60 100 :=
  ⟨by norm_num, C15_frequency_positive 55 60 100 (by norm_num)⟩

/-- With the current measure inside the 16 slots and its root frequency defined,
`updateFrequencyMap` returns the state whose map holds, for the notes `0 .. 127` and no
others, the note tuned against the current measure's root. -/
theorem updateFrequencyMap_eq {F : Type} [LinearOrderedField F] (pow : F → F → F)
    (s : Processor F) (hcur : 0 ≤ s.currentMeasure ∧ s.currentMeasure < 16) (rootFreq : F)
    (hroot : getCurrentMeasureRootFrequencyForMeasure pow s s.currentMeasure = some rootFreq) :
    updateFrequencyMap pow s =
      some { s with
        currentFrequencyMap := fun n =>
          if 0 ≤ n ∧ n < 128 then
            some (calculateFrequencyInScale pow n (getMeasureRoot s s.currentMeasure) rootFreq)
          else none } := by
  have hfreq := midiNoteToFrequency_eq pow s hcur rootFreq hroot
  have hloop := updateFrequencyMap_loop pow s
    (fun n => calculateFrequencyInScale pow n (getMeasureRoot s s.currentMeasure) rootFreq)
    hfreq (List.range 128) (fun _ => none)
  have hmem : ∀ n : ℤ, (∃ k ∈ List.range 128, (k : ℤ) = n) ↔ 0 ≤ n ∧ n < 128 := by
    intro n
    constructor
    · rintro ⟨k, hk, rfl⟩
      rw [List.mem_range] at hk
      omega
    · rintro ⟨h0, h128⟩
      exact ⟨n.toNat, List.mem_range.mpr (by omega), by omega⟩
  simp only [hmem] at hloop
  exact hloop

/-- The update for a block in which the host is stopped after having played and reports
the beats position `ppq`, with any tempo reading. -/
theorem updateCurrentMeasure_stopped_position {F : Type} [LinearOrderedField F]
    [FloorRing F] (pow : F → F → F) (s : Processor F) (ppq : F) (bpm : Option F)
    (hlen : s.sequenceLength ≠ 0) (hwas : s.wasPlaying = true) :
    updateCurrentMeasure pow s
        (some { position := some { isPlaying := false, ppqPosition := some ppq, bpm := bpm } }) =
      some { s with wasPlaying := false, ppqPosition := ppq, bpm := bpm.getD 120,
                    accumulatedDriftFrequency := 0, hasAccumulatedDrift := false,
                    previousMeasure := 0,
                    currentMeasure := Int.tmod (truncToInt (ppq / 4)) s.sequenceLength } := by
  have hprev : ¬ ((-1 : ℤ) = s.sequenceLength - 1) := by omega
  simp [updateCurrentMeasure, hwas, resetAccumulatedDrift, hlen, hprev]

/-- C11: for every state (either mode, any drift, any measure indices) in which the
transport was playing at the previous block, a per-block update in which the host reports
the transport as stopped returns with the drift state `{hasDrift = false,
driftFrequencyHz = 0}`, for every beats position reported in the same block, and also when
none is reported.  (With a position the update takes a remainder by the sequence length,
which must not be 0.) -/
theorem C11_stop_resets_drift (s : Processor ℝ) (hwas : s.wasPlaying = true)
    (ppq : Option ℝ) (bpm : Option ℝ) (hlen : ppq ≠ none → s.sequenceLength ≠ 0) :
    ∃ s' : Processor ℝ,
      updateCurrentMeasure Real.rpow s
        (some { position := some { isPlaying := false, ppqPosition := ppq, bpm := bpm } }) =
        some s' ∧
      s'.hasAccumulatedDrift = false ∧ s'.accumulatedDriftFrequency = 0 := by
  cases ppq with
  | none => exact ⟨_, updateCurrentMeasure_stopped_noPosition Real.rpow s bpm hwas, rfl, rfl⟩
  | some b =>
    exact ⟨_, updateCurrentMeasure_stopped_position Real.rpow s b bpm (hlen (by simp)) hwas,
      rfl, rfl⟩

/-- C11 at the engine with a drift of 400 Hz that is playing in its last measure and is
then stopped at beat 0. -/
theorem C11_stop_resets_drift_witness :
    (lastMeasureExample : Processor ℝ).wasPlaying = true ∧
    (lastMeasureExample : Processor ℝ).hasAccumulatedDrift = true ∧
    ∃ s' : Processor ℝ,
      updateCurrentMeasure Real.rpow (lastMeasureExample : Processor ℝ)
        (some { position := some { isPlaying := false, ppqPosition := some 0, bpm := none } }) =
        some s' ∧
      s'.hasAccumulatedDrift = false ∧ s'.accumulatedDriftFrequency = 0 :=
  ⟨rfl, rfl, C11_stop_resets_drift lastMeasureExample rfl (some 0) none (fun _ => by decide)⟩

/-- C12: for every state (with active drift or not) and every valid length `L` in
`{4, 8, 12, 16}` different from the current length, right after `setSequenceLength L` the
sequence length is `L`, `hasDrift` is false and the drift frequency is 0, so the root
frequency of measure 0 is again the 12-TET reference of `measureRoot[0]`. -/
theorem C12_setSequenceLength_clears_drift (s : Processor ℝ) (L : ℤ)
    (hL : L = 4 ∨ L = 8 ∨ L = 12 ∨ L = 16) (hne : L ≠ s.sequenceLength) :
    (setSequenceLength s L).sequenceLength = L ∧
    (setSequenceLength s L).hasAccumulatedDrift = false ∧
    (setSequenceLength s L).accumulatedDriftFrequency = 0 ∧
    getMeasureRoot (setSequenceLength s L) 0 = getMeasureRoot s 0 ∧
    getCurrentMeasureRootFrequencyForMeasure Real.rpow (setSequenceLength s L) 0 =
      some (440 * (2 : ℝ) ^ (((getMeasureRoot s 0 : ℝ) - 69) / 12)) := by
  have hset : setSequenceLength s L =
      { s with accumulatedDriftFrequency := 0, hasAccumulatedDrift := false,
               sequenceLength := L } := by
    simp [setSequenceLength, hL, hne, resetAccumulatedDrift]
  have hd : (setSequenceLength s L).hasAccumulatedDrift = false := by rw [hset]
  have hroot : getMeasureRoot (setSequenceLength s L) 0 = getMeasureRoot s 0 := by rw [hset]; rfl
  refine ⟨by rw [hset], hd, by rw [hset], hroot, ?_⟩
  rw [← twelveTet_real, ← hroot]
  cases hmode : (setSequenceLength s L).intonationMode with
  | Set => exact rootFrequency_zero_set Real.rpow _ hmode
  | Shift => exact rootFrequency_zero_noDrift Real.rpow _ hmode hd

/-- C12 at the Shift-mode engine with length 4 and a drift of 400 Hz, set to length 8. -/
theorem C12_setSequenceLength_clears_drift_witness :
    ((8 : ℤ) = 4 ∨ (8 : ℤ) = 8 ∨ (8 : ℤ) = 12 ∨ (8 : ℤ) = 16) ∧
    (8 : ℤ) ≠ (driftedExample : Processor ℝ).sequenceLength ∧
    (driftedExample : Processor ℝ).hasAccumulatedDrift = true ∧
    (setSequenceLength (driftedExample : Processor ℝ) 8).sequenceLength = 8 ∧
    (setSequenceLength (driftedExample : Processor ℝ) 8).hasAccumulatedDrift = false ∧
    (setSequenceLength (driftedExample : Processor ℝ) 8).accumulatedDriftFrequency = 0 :=
  ⟨by decide, by decide, rfl,
    (C12_setSequenceLength_clears_drift driftedExample 8 (by decide) (by decide)).1,
    (C12_setSequenceLength_clears_drift driftedExample 8 (by decide) (by decide)).2.1,
    (C12_setSequenceLength_clears_drift driftedExample 8 (by decide) (by decide)).2.2.1⟩

/-! ## Reachable states -/

/-- What one transport update can do to the fields the tuning reads.  The length, the mode
and the roots stay; the drift fields stay, or are reset, or (in Shift mode only) receive
the root frequency of the last measure, derived from the drift fields as they were or as
reset; the current measure stays, or becomes 0, or is computed from the reported beats
position. -/
theorem updateCurrentMeasure_effect {F : Type} [LinearOrderedField F] [FloorRing F]
    (pow : F → F → F) (s s' : Processor F) (playHead : Option (PlayHead F))
    (h : updateCurrentMeasure pow s playHead = some s') :
    s'.sequenceLength = s.sequenceLength ∧ s'.intonationMode = s.intonationMode ∧
    s'.measureRoots = s.measureRoots ∧
    ((s'.hasAccumulatedDrift = s.hasAccumulatedDrift ∧
        s'.accumulatedDriftFrequency = s.accumulatedDriftFrequency) ∨
      (s'.hasAccumulatedDrift = false ∧ s'.accumulatedDriftFrequency = 0) ∨
      (s.intonationMode = IntonationMode.Shift ∧ s'.hasAccumulatedDrift = true ∧
        ∃ t : Processor F, t.sequenceLength = s.sequenceLength ∧
          t.intonationMode = s.intonationMode ∧ t.measureRoots = s.measureRoots ∧
          ((t.hasAccumulatedDrift = s.hasAccumulatedDrift ∧
              t.accumulatedDriftFrequency = s.accumulatedDriftFrequency) ∨
            t.hasAccumulatedDrift = false) ∧
          getCurrentMeasureRootFrequencyForMeasure pow t (s.sequenceLength - 1) =
            some s'.accumulatedDriftFrequency)) ∧
    (s'.currentMeasure = s.currentMeasure ∨ s'.currentMeasure = 0 ∨
      ∃ ph pos b, playHead = some ph ∧ ph.position = some pos ∧ pos.ppqPosition = some b ∧
        s.sequenceLength ≠ 0 ∧
        s'.currentMeasure = Int.tmod (truncToInt (b / 4)) s.sequenceLength) := by
  unfold updateCurrentMeasure at h
  cases playHead with
  | none =>
    simp only [Option.some.injEq] at h
    subst h
    exact ⟨rfl, rfl, rfl, Or.inl ⟨rfl, rfl⟩, Or.inl rfl⟩
  | some ph =>
    cases hpos : ph.position with
    | none =>
      simp only [hpos, Option.some.injEq] at h
      subst h
      exact ⟨rfl, rfl, rfl, Or.inl ⟨rfl, rfl⟩, Or.inl rfl⟩
    | some position =>
      simp only [hpos] at h
      have hs1 : ∃ s1 : Processor F,
          (if s.wasPlaying = true ∧ position.isPlaying = false then
            { resetAccumulatedDrift s with previousMeasure := -1, currentMeasure := 0 }
          else s) = s1 ∧
          s1.sequenceLength = s.sequenceLength ∧ s1.intonationMode = s.intonationMode ∧
          s1.measureRoots = s.measureRoots ∧
          ((s1.hasAccumulatedDrift = s.hasAccumulatedDrift ∧
              s1.accumulatedDriftFrequency = s.accumulatedDriftFrequency) ∨
            (s1.hasAccumulatedDrift = false ∧ s1.accumulatedDriftFrequency = 0)) ∧
          (s1.currentMeasure = s.currentMeasure ∨ s1.currentMeasure = 0) := by
        by_cases hstop : s.wasPlaying = true ∧ position.isPlaying = false
        · exact ⟨_, rfl, by rw [if_pos hstop]; exact ⟨rfl, rfl, rfl, Or.inr ⟨rfl, rfl⟩, Or.inr rfl⟩⟩
        · exact ⟨_, rfl, by rw [if_neg hstop]; exact ⟨rfl, rfl, rfl, Or.inl ⟨rfl, rfl⟩, Or.inl rfl⟩⟩
      obtain ⟨s1, e1, l1, m1, r1, d1, c1⟩ := hs1
      rw [e1] at h
      cases hppq : position.ppqPosition with
      | none =>
        simp only [hppq, Option.some.injEq] at h
        subst h
        exact ⟨l1, m1, r1, Or.imp_right Or.inl d1, Or.imp_right Or.inl c1⟩
      | some b =>
        simp only [hppq] at h
        by_cases hlen : s1.sequenceLength = 0
        · simp [hlen] at h
        · simp only [hlen, if_false] at h
          have hlen' : s.sequenceLength ≠ 0 := by rw [← l1]; exact hlen
          split at h
          · next hcond =>
            split at h
            · cases h
            · next lastFreq hf =>
              simp only [Option.some.injEq] at h
              subst h
              refine ⟨l1, m1, r1, Or.inr (Or.inr ⟨by rw [← m1]; exact hcond.1, rfl, _, ?_, ?_, ?_, ?_,
                by rw [← l1]; exact hf⟩), Or.inr (Or.inr ⟨ph, position, b, rfl, hpos, hppq, hlen',
                by rw [← l1]⟩)⟩
              · exact l1
              · exact m1
              · exact r1
              · rcases d1 with d | d
                · exact Or.inl d
                · exact Or.inr d.1
          · simp only [Option.some.injEq] at h
            subst h
            exact ⟨l1, m1, r1, Or.imp_right Or.inl d1,
              Or.inr (Or.inr ⟨ph, position, b, rfl, hpos, hppq, hlen', by rw [← l1]⟩)⟩

/-- One turn of the loop of `updateFrequencyMap` changes only the frequency map. -/
theorem updateFrequencyMapStep_frame {F : Type} [LinearOrderedField F] (pow : F → F → F)
    (s s' : Processor F) (note : ℕ) (h : updateFrequencyMapStep pow s note = some s') :
    s' = { s with currentFrequencyMap := s'.currentFrequencyMap } := by
  unfold updateFrequencyMapStep at h
  split at h
  · cases h
  · simp only [Option.some.injEq] at h
    subst h
    rfl

/-- The loop of `updateFrequencyMap` changes only the frequency map. -/
theorem updateFrequencyMap_loop_frame {F : Type} [LinearOrderedField F] (pow : F → F → F)
    (notes : List ℕ) (s s' : Processor F)
    (h : notes.foldlM (updateFrequencyMapStep pow) s = some s') :
    s' = { s with currentFrequencyMap := s'.currentFrequencyMap } := by
  induction notes generalizing s with
  | nil =>
    simp only [List.foldlM_nil] at h
    cases h
    rfl
  | cons a rest ih =>
    rw [List.foldlM_cons] at h
    cases hstep : updateFrequencyMapStep pow s a with
    | none => rw [hstep] at h; cases h
    | some s1 =>
      rw [hstep] at h
      have h1 := updateFrequencyMapStep_frame pow s s1 a hstep
      have h2 := ih s1 h
      rw [h2, h1]

/-- The call `updateFrequencyMap` changes only the frequency map. -/
theorem updateFrequencyMap_frame {F : Type} [LinearOrderedField F] (pow : F → F → F)
    (s s' : Processor F) (h : updateFrequencyMap pow s = some s') :
    s' = { s with currentFrequencyMap := s'.currentFrequencyMap } := by
  unfold updateFrequencyMap at h
  have h1 := updateFrequencyMap_loop_frame pow (List.range 128)
    { s with currentFrequencyMap := fun _ => none } s' h
  rw [h1]

/-- In every reachable state, Set mode comes without drift. -/
theorem reachable_set_noDrift {F : Type} [LinearOrderedField F] [FloorRing F]
    (pow : F → F → F) (okBeat : F → Prop) (s : Processor F) (h : Reachable pow okBeat s) :
    s.intonationMode = IntonationMode.Set → s.hasAccumulatedDrift = false := by
  induction h with
  | start => intro _; rfl
  | setLength s length _ ih =>
    intro hm
    unfold setSequenceLength at hm ⊢
    split_ifs at hm ⊢
    · rfl
    · exact ih hm
    · exact ih hm
  | setMode s mode _ ih =>
    intro hm
    have hmode : mode = IntonationMode.Set := hm
    unfold setIntonationMode
    cases hs : s.intonationMode with
    | Set => simp only [hmode, hs]; exact ih hs
    | Shift => simp [hmode, hs, resetAccumulatedDrift]
  | setRoot s measureIndex rootNote _ ih =>
    intro hm
    unfold setMeasureRoot at hm ⊢
    split_ifs at hm ⊢
    · exact ih hm
    · exact ih hm
  | resetDrift s _ _ => intro _; rfl
  | transport s s' playHead _ _ hupd ih =>
    intro hm
    obtain ⟨-, hmode, -, hd, -⟩ := updateCurrentMeasure_effect pow s s' playHead hupd
    rcases hd with ⟨hd, -⟩ | ⟨hd, -⟩ | ⟨hshift, -⟩
    · rw [hd]; exact ih (hmode ▸ hm)
    · exact hd
    · rw [← hmode, hm] at hshift
      cases hshift
  | frequencyMap s s' _ hupd ih =>
    intro hm
    rw [updateFrequencyMap_frame pow s s' hupd] at hm ⊢
    exact ih hm

/-- C13: for every state reachable from the initial state through the setters and
per-block transport updates (with any beats positions), Set mode comes without drift, and
calling `setIntonationMode Set` and then `setIntonationMode Shift` yields a Shift-mode
state with `hasDrift = false`. -/
theorem C13_mode_round_trip_clears_drift (okBeat : ℝ → Prop) (s : Processor ℝ)
    (h : Reachable Real.rpow okBeat s) :
    (s.intonationMode = IntonationMode.Set → s.hasAccumulatedDrift = false) ∧
    (setIntonationMode (setIntonationMode s IntonationMode.Set)
      IntonationMode.Shift).intonationMode = IntonationMode.Shift ∧
    (setIntonationMode (setIntonationMode s IntonationMode.Set)
      IntonationMode.Shift).hasAccumulatedDrift = false := by
  have hinv := reachable_set_noDrift Real.rpow okBeat s h
  refine ⟨hinv, rfl, ?_⟩
  cases hs : s.intonationMode with
  | Set => simp [setIntonationMode, hs, hinv hs]
  | Shift => simp [setIntonationMode, hs, resetAccumulatedDrift]

/-- A run of transport updates leads from reachable states to reachable states, when
every beats position reported in the run is one the host may report. -/
theorem reachable_runTransport {F : Type} [LinearOrderedField F] [FloorRing F]
    (pow : F → F → F) (okBeat : F → Prop) (blocks : List (Option (PlayHead F)))
    (s s' : Processor F) (h : Reachable pow okBeat s)
    (hok : ∀ blk ∈ blocks, ∀ ph pos b, blk = some ph → ph.position = some pos →
      pos.ppqPosition = some b → okBeat b)
    (hrun : runTransport pow s blocks = some s') :
    Reachable pow okBeat s' := by
  induction blocks generalizing s with
  | nil =>
    simp only [runTransport, List.foldlM_nil] at hrun
    cases hrun
    exact h
  | cons b rest ih =>
    simp only [runTransport, List.foldlM_cons] at hrun
    cases hstep : updateCurrentMeasure pow s b with
    | none => rw [hstep] at hrun; cases hrun
    | some s1 =>
      rw [hstep] at hrun
      exact ih s1 (Reachable.transport s s1 b h (hok b (List.mem_cons_self _ _)) hstep)
        (fun blk hblk => hok blk (List.mem_cons_of_mem _ hblk)) hrun

/-- The beats position of a `playingAt` reading. -/
theorem playingAt_beat {F : Type} (ppq : F) (ph : PlayHead F) (pos : PositionInfo F) (b : F)
    (h1 : playingAt ppq = some ph) (h2 : ph.position = some pos)
    (h3 : pos.ppqPosition = some b) : b = ppq := by
  unfold playingAt at h1
  cases h1
  cases h2
  cases h3
  rfl

/-- The example engine is reachable: it is built with the setters. -/
theorem driftExample_reachable {F : Type} [LinearOrderedField F] [FloorRing F]
    (pow : F → F → F) (okBeat : F → Prop) :
    Reachable pow okBeat (driftExample : Processor F) :=
  Reachable.setRoot _ 3 67 (Reachable.setRoot _ 2 64 (Reachable.setRoot _ 1 62
    (Reachable.setMode _ IntonationMode.Shift Reachable.start)))

/-- C13 at the state of the example loop right after its first drift capture (blocks at
the beats 0, 4, 8, 12, 13, 16): it is reachable, in Shift mode with drift, and the round
trip through Set mode leaves it in Shift mode without drift. -/
theorem C13_mode_round_trip_clears_drift_witness :
    ∃ s6 : Processor ℝ,
      Reachable Real.rpow (fun _ => True) s6 ∧
      s6.intonationMode = IntonationMode.Shift ∧ s6.hasAccumulatedDrift = true ∧
      (setIntonationMode (setIntonationMode s6 IntonationMode.Set)
        IntonationMode.Shift).intonationMode = IntonationMode.Shift ∧
      (setIntonationMode (setIntonationMode s6 IntonationMode.Set)
        IntonationMode.Shift).hasAccumulatedDrift = false := by
  obtain ⟨s5, s6, s7, f3, e5, e6, -, -, -, -, -, -, d6, -⟩ := driftExample_wrap_two_blocks
  have h5 : Reachable Real.rpow (fun _ => True) s5 :=
    reachable_runTransport Real.rpow _ _ _ s5 (driftExample_reachable Real.rpow _)
      (fun _ _ _ _ _ _ _ _ => trivial) e5
  have h6 : Reachable Real.rpow (fun _ => True) s6 :=
    Reachable.transport s5 s6 _ h5 (fun _ _ _ _ _ _ => trivial) e6
  have hm6 : s6.intonationMode = IntonationMode.Shift := by
    cases hm : s6.intonationMode with
    | Shift => rfl
    | Set =>
      have := reachable_set_noDrift Real.rpow _ s6 h6 hm
      rw [d6] at this
      cases this
  exact ⟨s6, h6, hm6, d6, (C13_mode_round_trip_clears_drift (fun _ => True) s6 h6).2⟩

/-- For a positive root frequency the tuned frequency is positive. -/
theorem calculateFrequencyInScale_pos (n root : ℤ) (f : ℝ) (hf : 0 < f) :
    0 < calculateFrequencyInScale Real.rpow n root f := by
  rw [calculateFrequencyInScale_step]
  exact mul_pos hf (justStepRatio_pos _)

/-- A root frequency is defined only for a measure inside the 16 slots. -/
theorem rootFrequency_some_range {F : Type} [LinearOrderedField F] (pow : F → F → F)
    (s : Processor F) (m : ℤ) (f : F)
    (h : getCurrentMeasureRootFrequencyForMeasure pow s m = some f) : 0 ≤ m ∧ m < 16 := by
  rw [rootFrequency_unfold] at h
  by_contra hr
  have hnone : s.rootAt m = none := by
    unfold Processor.rootAt
    rw [dif_neg hr]
  rw [hnone] at h
  cases h

/-- When the drift frequency, if there is one, is positive, every root frequency is
positive. -/
theorem rootFrequency_pos (s : Processor ℝ)
    (hd : s.hasAccumulatedDrift = true → 0 < s.accumulatedDriftFrequency) (m : ℤ) (f : ℝ)
    (h : getCurrentMeasureRootFrequencyForMeasure Real.rpow s m = some f) : 0 < f := by
  obtain ⟨hm0, hm16⟩ := rootFrequency_some_range Real.rpow s m f h
  have key : ∀ n : ℕ, n < 16 → ∀ g : ℝ,
      getCurrentMeasureRootFrequencyForMeasure Real.rpow s n = some g → 0 < g := by
    intro n
    induction n with
    | zero =>
      intro _ g hg
      rw [Nat.cast_zero] at hg
      cases hmode : s.intonationMode with
      | Set =>
        rw [rootFrequency_zero_set Real.rpow s hmode] at hg
        cases hg
        exact twelveTet_pos _
      | Shift =>
        cases hdrift : s.hasAccumulatedDrift with
        | false =>
          rw [rootFrequency_zero_noDrift Real.rpow s hmode hdrift] at hg
          cases hg
          exact twelveTet_pos _
        | true =>
          rw [rootFrequency_zero_drift Real.rpow s hmode hdrift] at hg
          cases hlast : s.rootAt (s.sequenceLength - 1) with
          | none => rw [hlast] at hg; cases hg
          | some r =>
            rw [hlast] at hg
            cases hg
            exact calculateFrequencyInScale_pos _ _ _ (hd hdrift)
    | succ n ih =>
      intro hn g hg
      cases hmode : s.intonationMode with
      | Set =>
        rw [rootFrequency_set_later Real.rpow s hmode _ (by omega) (by omega)] at hg
        cases hg
        exact calculateFrequencyInScale_pos _ _ _ (twelveTet_pos _)
      | Shift =>
        rw [rootFrequency_shift_step Real.rpow s hmode _ (by omega) (by omega)] at hg
        have hpred : ((n + 1 : ℕ) : ℤ) - 1 = n := by omega
        rw [hpred] at hg
        cases hprev : getCurrentMeasureRootFrequencyForMeasure Real.rpow s n with
        | none => rw [hprev] at hg; cases hg
        | some p =>
          rw [hprev] at hg
          cases hg
          exact calculateFrequencyInScale_pos _ _ _ (ih (by omega) p hprev)
  have := key m.toNat (by omega) f
  rw [Int.toNat_of_nonneg hm0] at this
  exact this h

/-- The invariant of the engine under beats positions in `[0, 2 ^ 33)`: the sequence length
is one of 4, 8, 12, 16, the current measure is inside the 16 slots, and a drift frequency,
if there is one, is positive. -/
theorem reachable_invariant (s : Processor ℝ)
    (h : Reachable Real.rpow (fun b => 0 ≤ b ∧ b < 8589934592) s) :
    (s.sequenceLength = 4 ∨ s.sequenceLength = 8 ∨ s.sequenceLength = 12 ∨
      s.sequenceLength = 16) ∧
    (0 ≤ s.currentMeasure ∧ s.currentMeasure < 16) ∧
    (s.hasAccumulatedDrift = true → 0 < s.accumulatedDriftFrequency) := by
  induction h with
  | start => exact ⟨Or.inl rfl, by decide, fun h => by cases h⟩
  | setLength s length _ ih =>
    obtain ⟨hl, hc, hd⟩ := ih
    unfold setSequenceLength
    split_ifs with h1 h2
    · exact ⟨h1, hc, fun h => by cases h⟩
    · exact ⟨h1, hc, hd⟩
    · exact ⟨hl, hc, hd⟩
  | setMode s mode _ ih =>
    obtain ⟨hl, hc, hd⟩ := ih
    unfold setIntonationMode
    split_ifs
    · exact ⟨hl, hc, fun h => by cases h⟩
    · exact ⟨hl, hc, hd⟩
  | setRoot s measureIndex rootNote _ ih =>
    unfold setMeasureRoot
    split_ifs
    · exact ih
    · exact ih
  | resetDrift s _ ih => exact ⟨ih.1, ih.2.1, fun h => by cases h⟩
  | transport s s' playHead _ hok hupd ih =>
    obtain ⟨hl, hc, hd⟩ := ih
    obtain ⟨el, -, -, ed, ec⟩ := updateCurrentMeasure_effect Real.rpow s s' playHead hupd
    refine ⟨by rw [el]; exact hl, ?_, ?_⟩
    · rcases ec with ec | ec | ⟨ph, pos, b, e1, e2, e3, -, ec⟩
      · rw [ec]; exact hc
      · rw [ec]; decide
      · obtain ⟨hb, hb33⟩ := hok ph pos b e1 e2 e3
        have hq : 0 ≤ truncToInt (b / 4) := by
          have h4 : (0 : ℝ) ≤ b / 4 := by positivity
          have hfloor : 0 ≤ ⌊b / 4⌋ := Int.floor_nonneg.mpr h4
          have hlt : ⌊b / 4⌋ < 2147483648 := by
            rw [Int.floor_lt]
            push_cast
            linarith
          have hint : -2147483648 ≤ ⌊b / 4⌋ ∧ ⌊b / 4⌋ ≤ 2147483647 := ⟨by omega, by omega⟩
          simp only [truncToInt, h4, if_true, hint, and_self]
          exact hfloor
        have hlpos : 0 < s.sequenceLength := by omega
        rw [ec]
        exact ⟨Int.tmod_nonneg _ hq, lt_of_lt_of_le (Int.tmod_lt_of_pos _ hlpos) (by omega)⟩
    · rcases ed with ⟨e1, e2⟩ | ⟨e1, -⟩ | ⟨-, -, t, -, -, -, et, ef⟩
      · rw [e1, e2]; exact hd
      · intro h; rw [e1] at h; cases h
      · intro _
        refine rootFrequency_pos t ?_ _ _ ef
        rcases et with ⟨t1, t2⟩ | t1
        · rw [t1, t2]; exact hd
        · intro h; rw [t1] at h; cases h
  | frequencyMap s s' _ hupd ih =>
    rw [updateFrequencyMap_frame Real.rpow s s' hupd]
    exact ih

/-- The 12-TET frequency of note 69 is 440 Hz. -/
theorem getMidiNoteInHertz_a4 : getMidiNoteInHertz Real.rpow 69 = 440 := by
  simp [getMidiNoteInHertz]

/-- C18 (code at the failing input): with a frequency map holding 260 Hz for note 60 and
436 Hz for note 69, a voice never retuned that starts note 69 sounds at the 12-TET 440 Hz,
although the map has an entry for 69; and a voice that has sounded note 60 (retuned to
260 Hz by `updatePlayingVoices`), was stopped and then starts note 69 sounds at the 260 Hz
left in `customFrequency`, which is neither the map entry nor the 12-TET value. -/
theorem C18_startNote_ignores_map :
    getNoteFrequency Real.rpow (sampleFrequencyMap : ℤ → Option ℝ) 69 = 436 ∧
    (startVoice Real.rpow (FluidJustVoice.fresh : FluidJustVoice ℝ) 69 1).frequency = 440 ∧
    ∃ v2 : FluidJustVoice ℝ,
      updatePlayingVoices Real.rpow sampleFrequencyMap
        [startVoice Real.rpow (FluidJustVoice.fresh : FluidJustVoice ℝ) 60 1] = [v2] ∧
      v2.frequency = 260 ∧ v2.customFrequency = 260 ∧
      (startVoice Real.rpow (v2.stopNote false) 69 1).frequency = 260 := by
  refine ⟨?_, ?_, ?_⟩
  · simp [getNoteFrequency, sampleFrequencyMap]
  · simp [startVoice, FluidJustVoice.startNote, FluidJustVoice.fresh, getMidiNoteInHertz_a4]
  · refine ⟨(startVoice Real.rpow (FluidJustVoice.fresh : FluidJustVoice ℝ) 60 1).setCustomFrequency
      260, ?_, ?_, ?_, ?_⟩
    all_goals
      simp [startVoice, FluidJustVoice.startNote, FluidJustVoice.fresh,
        FluidJustVoice.stopNote, FluidJustVoice.setCustomFrequency,
        FluidJustVoice.isVoiceActive, getNoteFrequency, sampleFrequencyMap,
        updatePlayingVoices]

/-! ## The sample-playback backend -/

/-- What the two loops of `updateFrequencyMapping` do to one note, for a loaded player;
`calls` is the list of pitch-wheel calls made by the second loop. -/
theorem applyRetune_spec (m : ℤ → Option ℝ) (l : List (ActiveNote ℝ)) :
    List.Forall₂ (fun a a' : ActiveNote ℝ =>
        a'.midiNote = a.midiNote ∧ a'.midiChannel = a.midiChannel ∧ a'.needsRetune = false ∧
        (∀ f, m a.midiNote = some f → |a.targetFrequency - f| > 1 / 100 →
          a'.targetFrequency = f ∧
          TsfCall.channelSetPitchwheel a.midiChannel
              (pitchWheelValue (calculatePitchBendForFrequency Real.rpow (Real.logb 2)
                a.midiNote f)) ∈
            (applyRetune Real.rpow (Real.logb 2) (l.map (markForRetune m))).1) ∧
        ((∀ f, m a.midiNote = some f → ¬ |a.targetFrequency - f| > 1 / 100) →
          a'.targetFrequency = a.targetFrequency) ∧
        (∀ f, m a.midiNote = some f → |a'.targetFrequency - f| ≤ 1 / 100))
      l (applyRetune Real.rpow (Real.logb 2) (l.map (markForRetune m))).2 := by
  induction l with
  | nil => exact List.Forall₂.nil
  | cons a rest ih =>
    have ih' : List.Forall₂ (fun a₁ a' : ActiveNote ℝ =>
        a'.midiNote = a₁.midiNote ∧ a'.midiChannel = a₁.midiChannel ∧ a'.needsRetune = false ∧
        (∀ f, m a₁.midiNote = some f → |a₁.targetFrequency - f| > 1 / 100 →
          a'.targetFrequency = f ∧
          TsfCall.channelSetPitchwheel a₁.midiChannel
              (pitchWheelValue (calculatePitchBendForFrequency Real.rpow (Real.logb 2)
                a₁.midiNote f)) ∈
            (applyRetune Real.rpow (Real.logb 2) ((a :: rest).map (markForRetune m))).1) ∧
        ((∀ f, m a₁.midiNote = some f → ¬ |a₁.targetFrequency - f| > 1 / 100) →
          a'.targetFrequency = a₁.targetFrequency) ∧
        (∀ f, m a₁.midiNote = some f → |a'.targetFrequency - f| ≤ 1 / 100))
        rest (applyRetune Real.rpow (Real.logb 2) (rest.map (markForRetune m))).2 := by
      refine ih.imp ?_
      rintro a₁ a' ⟨h1, h2, h3, h4, h5, h6⟩
      refine ⟨h1, h2, h3, ?_, h5, h6⟩
      intro f hf hgt
      refine ⟨(h4 f hf hgt).1, ?_⟩
      have hmem := (h4 f hf hgt).2
      simp only [List.map_cons, applyRetune]
      split_ifs
      · exact List.mem_cons_of_mem _ hmem
      · exact hmem
    cases hm : m a.midiNote with
    | none =>
      have hmark : markForRetune m a = a := by simp [markForRetune, hm]
      simp only [List.map_cons, applyRetune, hmark] at ih' ⊢
      split_ifs at ih' ⊢ with hr
      · refine List.Forall₂.cons ⟨rfl, rfl, rfl, ?_, fun _ => rfl, ?_⟩ ih'
        · intro f hf; rw [hm] at hf; cases hf
        · intro f hf; rw [hm] at hf; cases hf
      · refine List.Forall₂.cons ⟨rfl, rfl, by simpa using hr, ?_, fun _ => rfl, ?_⟩ ih'
        · intro f hf; rw [hm] at hf; cases hf
        · intro f hf; rw [hm] at hf; cases hf
    | some g =>
      by_cases hgt : |a.targetFrequency - g| > 1 / 100
      · have hmark : markForRetune m a =
            { a with targetFrequency := g, needsRetune := true } := by
          simp only [markForRetune, hm, if_pos hgt]
        simp only [List.map_cons, applyRetune, hmark, if_true] at ih' ⊢
        refine List.Forall₂.cons ⟨rfl, rfl, rfl, ?_, ?_, ?_⟩ ih'
        · intro f hf _
          rw [hm] at hf
          cases hf
          exact ⟨rfl, List.mem_cons_self _ _⟩
        · intro h
          exact absurd hgt (h g hm)
        · intro f hf
          rw [hm] at hf
          cases hf
          simp
      · have hmark : markForRetune m a = a := by simp only [markForRetune, hm, if_neg hgt]
        simp only [List.map_cons, applyRetune, hmark] at ih' ⊢
        split_ifs at ih' ⊢ with hr
        · refine List.Forall₂.cons ⟨rfl, rfl, rfl, ?_, fun _ => rfl, ?_⟩ ih'
          · intro f hf hgt'; rw [hm] at hf; cases hf; exact absurd hgt' hgt
          · intro f hf; rw [hm] at hf; cases hf; exact not_lt.mp hgt
        · refine List.Forall₂.cons ⟨rfl, rfl, by simpa using hr, ?_, fun _ => rfl, ?_⟩ ih'
          · intro f hf hgt'; rw [hm] at hf; cases hf; exact absurd hgt' hgt
          · intro f hf; rw [hm] at hf; cases hf; exact not_lt.mp hgt

/-- C19: `SoundFontPlayer::updateFrequencyMapping` retunes in place.  For every player
whose active notes, if any, sit on a loaded sound font, and every new map: the new map is
stored; the active notes keep their (note, channel) and their order; each note whose
target differs from its new map entry by more than 0.01 Hz gets the entry as target and a
pitch-wheel call on its channel with the value computed from the entry; every other note
keeps its target; afterwards no note has `needsRetune` set and every note with a map entry
has `|targetFrequency - map[note]| ≤ 0.01`. -/
theorem C19_updateFrequencyMapping_in_place (p : SoundFontPlayer ℝ) (m : ℤ → Option ℝ)
    (hinv : p.soundFont = none → p.activeNotes = []) :
    (p.updateFrequencyMapping Real.rpow (Real.logb 2) m).noteFrequencyMap = m ∧
    (p.updateFrequencyMapping Real.rpow (Real.logb 2) m).activeNotes.map
        (fun a => (a.midiNote, a.midiChannel)) =
      p.activeNotes.map (fun a => (a.midiNote, a.midiChannel)) ∧
    List.Forall₂ (fun a a' : ActiveNote ℝ =>
        a'.midiNote = a.midiNote ∧ a'.midiChannel = a.midiChannel ∧ a'.needsRetune = false ∧
        (∀ f, m a.midiNote = some f → |a.targetFrequency - f| > 1 / 100 →
          a'.targetFrequency = f ∧
          ∃ calls newCalls, p.soundFont = some calls ∧
            (p.updateFrequencyMapping Real.rpow (Real.logb 2) m).soundFont =
              some (calls ++ newCalls) ∧
            TsfCall.channelSetPitchwheel a.midiChannel
              (pitchWheelValue (calculatePitchBendForFrequency Real.rpow (Real.logb 2)
                a.midiNote f)) ∈ newCalls) ∧
        ((∀ f, m a.midiNote = some f → ¬ |a.targetFrequency - f| > 1 / 100) →
          a'.targetFrequency = a.targetFrequency) ∧
        (∀ f, m a.midiNote = some f → |a'.targetFrequency - f| ≤ 1 / 100))
      p.activeNotes (p.updateFrequencyMapping Real.rpow (Real.logb 2) m).activeNotes := by
  have hall : List.Forall₂ (fun a a' : ActiveNote ℝ =>
        a'.midiNote = a.midiNote ∧ a'.midiChannel = a.midiChannel ∧ a'.needsRetune = false ∧
        (∀ f, m a.midiNote = some f → |a.targetFrequency - f| > 1 / 100 →
          a'.targetFrequency = f ∧
          ∃ calls newCalls, p.soundFont = some calls ∧
            (p.updateFrequencyMapping Real.rpow (Real.logb 2) m).soundFont =
              some (calls ++ newCalls) ∧
            TsfCall.channelSetPitchwheel a.midiChannel
              (pitchWheelValue (calculatePitchBendForFrequency Real.rpow (Real.logb 2)
                a.midiNote f)) ∈ newCalls) ∧
        ((∀ f, m a.midiNote = some f → ¬ |a.targetFrequency - f| > 1 / 100) →
          a'.targetFrequency = a.targetFrequency) ∧
        (∀ f, m a.midiNote = some f → |a'.targetFrequency - f| ≤ 1 / 100))
      p.activeNotes (p.updateFrequencyMapping Real.rpow (Real.logb 2) m).activeNotes := by
    cases hsf : p.soundFont with
    | none =>
      have hnil := hinv hsf
      simp only [SoundFontPlayer.updateFrequencyMapping, hsf, hnil, List.map_nil]
      exact List.Forall₂.nil
    | some calls =>
      simp only [SoundFontPlayer.updateFrequencyMapping, hsf]
      refine (applyRetune_spec m p.activeNotes).imp ?_
      rintro a a' ⟨h1, h2, h3, h4, h5, h6⟩
      refine ⟨h1, h2, h3, ?_, h5, h6⟩
      intro f hf hgt
      exact ⟨(h4 f hf hgt).1, calls, _, rfl, rfl, (h4 f hf hgt).2⟩
  refine ⟨?_, ?_, hall⟩
  · unfold SoundFontPlayer.updateFrequencyMapping
    cases p.soundFont <;> rfl
  · generalize (p.updateFrequencyMapping Real.rpow (Real.logb 2) m).activeNotes = l' at hall
    generalize p.activeNotes = l at hall
    clear hinv
    induction hall with
    | nil => rfl
    | cons hab _ ih => simp only [List.map_cons, hab.1, hab.2.1, ih]

/-- C19 at a loaded player with note 60 at 261 Hz and note 69 at 436 Hz on channel 0 and
the map of `sampleFrequencyMap` (260 Hz for note 60, 436 Hz for note 69): note 60 is
retuned to 260 Hz, note 69 keeps its target. -/
theorem C19_updateFrequencyMapping_in_place_witness :
    ((samplePlayer : SoundFontPlayer ℝ).soundFont = none →
      (samplePlayer : SoundFontPlayer ℝ).activeNotes = []) ∧
    ((samplePlayer : SoundFontPlayer ℝ).updateFrequencyMapping Real.rpow (Real.logb 2)
        sampleFrequencyMap).activeNotes.map (fun a => (a.midiNote, a.midiChannel)) =
      (samplePlayer : SoundFontPlayer ℝ).activeNotes.map
        (fun a => (a.midiNote, a.midiChannel)) ∧
    ((samplePlayer : SoundFontPlayer ℝ).updateFrequencyMapping Real.rpow (Real.logb 2)
        sampleFrequencyMap).activeNotes.map (fun a => a.targetFrequency) = [260, 436] := by
  refine ⟨(fun h => by cases h),
    (C19_updateFrequencyMapping_in_place samplePlayer sampleFrequencyMap
      (fun h => by cases h)).2.1, ?_⟩
  norm_num [SoundFontPlayer.updateFrequencyMapping, samplePlayer, markForRetune,
    sampleFrequencyMap, applyRetune]

/-! ## Rounding to `float` -/

/-- Rounding to an integer does not pass an integer next to the argument. -/
theorem roundTiesEven_mono_int {F : Type} [LinearOrderedField F] [FloorRing F] (x : F)
    (n : ℤ) :
    ((n : F) ≤ x → n ≤ roundTiesEven x) ∧ (x ≤ (n : F) → roundTiesEven x ≤ n) := by
  have hfl : (⌊x⌋ : F) ≤ x := Int.floor_le x
  have hlt : x < ⌊x⌋ + 1 := Int.lt_floor_add_one x
  constructor
  · intro h
    have h1 : n ≤ ⌊x⌋ := Int.le_floor.mpr h
    unfold roundTiesEven
    simp only
    split_ifs <;> omega
  · intro h
    by_cases hx : x = (⌊x⌋ : F)
    · have h1 : ⌊x⌋ ≤ n := by
        have : (⌊x⌋ : F) ≤ n := by rw [← hx]; exact h
        exact_mod_cast this
      have hrest : x - (⌊x⌋ : F) < 1 / 2 := by rw [← hx]; norm_num
      unfold roundTiesEven
      simp only [hrest, if_true]
      exact h1
    · have h1 : ⌊x⌋ + 1 ≤ n := by
        have h2 : (⌊x⌋ : F) < n := lt_of_lt_of_le (lt_of_le_of_ne hfl (Ne.symm hx)) h
        have h3 : ⌊x⌋ < n := by exact_mod_cast h2
        omega
      unfold roundTiesEven
      simp only
      split_ifs <;> omega

/-- Rounding to an integer moves the argument by at most one half. -/
theorem roundTiesEven_error {F : Type} [LinearOrderedField F] [FloorRing F] (x : F) :
    |(roundTiesEven x : F) - x| ≤ 1 / 2 := by
  have hfl : (⌊x⌋ : F) ≤ x := Int.floor_le x
  have hlt : x < ⌊x⌋ + 1 := Int.lt_floor_add_one x
  unfold roundTiesEven
  simp only
  rw [abs_le]
  split_ifs with h1 h2 h3
  · constructor <;> linarith
  · push_cast
    constructor <;> linarith
  · constructor <;> linarith
  · push_cast
    have h4 : x - ⌊x⌋ = 1 / 2 := le_antisymm (not_lt.mp h2) (not_lt.mp h1)
    constructor <;> linarith

/-- The binade of a positive value. -/
theorem log_two_bounds {F : Type} [LinearOrderedField F] [FloorRing F] (x : F) (hx : 0 < x) :
    (2 : F) ^ Int.log 2 x ≤ x ∧ x < (2 : F) ^ (Int.log 2 x + 1) := by
  have h1 := Int.zpow_log_le_self (b := 2) (r := x) (by norm_num) hx
  have h2 := Int.lt_zpow_succ_log_self (b := 2) (by norm_num) x
  rw [Nat.cast_ofNat] at h1 h2
  exact ⟨h1, h2⟩

/-- The binade of a positive value against a power of two. -/
theorem log_two_compare {F : Type} [LinearOrderedField F] [FloorRing F] (x : F) (hx : 0 < x)
    (m : ℤ) :
    ((2 : F) ^ m ≤ x → m ≤ Int.log 2 x) ∧ (x < (2 : F) ^ m → Int.log 2 x < m) := by
  have h1 := Int.zpow_le_iff_le_log (b := 2) (x := m) (r := x) (by norm_num) hx
  have h2 := Int.lt_zpow_iff_log_lt (b := 2) (x := m) (r := x) (by norm_num) hx
  rw [Nat.cast_ofNat] at h1 h2
  exact ⟨h1.mp, h2.mp⟩

/-- The value of `toFloat` at a positive argument. -/
theorem toFloat_of_pos {F : Type} [LinearOrderedField F] [FloorRing F] (x : F) (hx : 0 < x) :
    toFloat x = (roundTiesEven (x / 2 ^ (Int.log 2 x - 23)) : F) * 2 ^ (Int.log 2 x - 23) := by
  unfold toFloat
  simp only [abs_of_pos hx, not_lt.mpr (le_of_lt hx), if_false]

/-- Zero is a `float`. -/
theorem toFloat_zero {F : Type} [LinearOrderedField F] [FloorRing F] : toFloat (0 : F) = 0 := by
  simp [toFloat, roundTiesEven]

/-- Rounding to `float` commutes with the change of sign. -/
theorem toFloat_neg {F : Type} [LinearOrderedField F] [FloorRing F] (x : F) :
    toFloat (-x) = -toFloat x := by
  rcases lt_trichotomy x 0 with h | h | h
  · unfold toFloat
    simp only [abs_neg, h, if_true, not_lt.mpr (le_of_lt (neg_pos.mpr h)), if_false, neg_neg]
  · subst h
    simp [toFloat_zero]
  · unfold toFloat
    simp only [abs_neg, neg_lt_zero.mpr h, if_true, not_lt.mpr (le_of_lt h), if_false]

/-- Rounding to `float` keeps a non-negative value non-negative. -/
theorem toFloat_nonneg {F : Type} [LinearOrderedField F] [FloorRing F] (x : F) (hx : 0 ≤ x) :
    0 ≤ toFloat x := by
  rcases eq_or_lt_of_le hx with h | h
  · rw [← h, toFloat_zero]
  · rw [toFloat_of_pos x h]
    have hulp : (0 : F) < 2 ^ (Int.log 2 x - 23) := zpow_pos (by norm_num) _
    have hy : ((0 : ℤ) : F) ≤ x / 2 ^ (Int.log 2 x - 23) := by
      rw [Int.cast_zero]
      exact div_nonneg hx (le_of_lt hulp)
    have := (roundTiesEven_mono_int (x / 2 ^ (Int.log 2 x - 23)) 0).1 hy
    have hc : (0 : F) ≤ ((roundTiesEven (x / 2 ^ (Int.log 2 x - 23)) : ℤ) : F) := by
      exact_mod_cast this
    exact mul_nonneg hc (le_of_lt hulp)

/-- Rounding to `float` does not pass a `float` above the argument: a value `n * 2 ^ k`
with `2 ^ 23 ≤ n < 2 ^ 24`. -/
theorem toFloat_le {F : Type} [LinearOrderedField F] [FloorRing F] (x : F)
    (n k : ℤ) (hn : 8388608 ≤ n ∧ n < 16777216) (h : x ≤ (n : F) * 2 ^ k) :
    toFloat x ≤ (n : F) * 2 ^ k := by
  have h2 : (0 : F) < 2 := by norm_num
  have hk : (0 : F) < 2 ^ k := zpow_pos h2 k
  have hnF : (n : F) < 16777216 := by exact_mod_cast hn.2
  have hn23 : (8388608 : F) ≤ n := by exact_mod_cast hn.1
  have hpos : (0 : F) ≤ (n : F) * 2 ^ k := mul_nonneg (by linarith) (le_of_lt hk)
  rcases le_or_lt x 0 with hx0 | hx
  · have h1 := toFloat_nonneg (-x) (by linarith)
    rw [toFloat_neg] at h1
    linarith
  obtain ⟨hlo, hhi⟩ := log_two_bounds x hx
  have hx24 : x < (2 : F) ^ (k + 24) := by
    rw [zpow_add₀ (by norm_num : (2 : F) ≠ 0)]
    have : (n : F) * 2 ^ k < 2 ^ k * 2 ^ (24 : ℤ) := by
      rw [mul_comm]
      apply mul_lt_mul_of_pos_left _ hk
      norm_num
      exact hnF
    linarith
  have he : Int.log 2 x ≤ k + 23 := by
    have := (log_two_compare x hx (k + 24)).2 hx24
    omega
  have hulp : (0 : F) < 2 ^ (Int.log 2 x - 23) := zpow_pos h2 _
  rw [toFloat_of_pos x hx]
  rcases eq_or_lt_of_le he with heq | hlt
  · have hk' : Int.log 2 x - 23 = k := by omega
    rw [hk']
    have hy : x / 2 ^ k ≤ (n : F) := by
      rw [div_le_iff₀ hk]
      exact h
    have := (roundTiesEven_mono_int (x / 2 ^ k) n).2 hy
    have hc : ((roundTiesEven (x / 2 ^ k) : ℤ) : F) ≤ (n : F) := by exact_mod_cast this
    exact mul_le_mul_of_nonneg_right hc (le_of_lt hk)
  · have h24 : ((16777216 : ℤ) : F) * 2 ^ (Int.log 2 x - 23) = 2 ^ (Int.log 2 x + 1) := by
      have : Int.log 2 x + 1 = 24 + (Int.log 2 x - 23) := by omega
      rw [this, zpow_add₀ (by norm_num : (2 : F) ≠ 0)]
      norm_num
    have hy : x / 2 ^ (Int.log 2 x - 23) ≤ ((16777216 : ℤ) : F) := by
      rw [div_le_iff₀ hulp, h24]
      exact le_of_lt hhi
    have := (roundTiesEven_mono_int (x / 2 ^ (Int.log 2 x - 23)) 16777216).2 hy
    have hc : ((roundTiesEven (x / 2 ^ (Int.log 2 x - 23)) : ℤ) : F) ≤ ((16777216 : ℤ) : F) := by
      exact_mod_cast this
    have h1 := mul_le_mul_of_nonneg_right hc (le_of_lt hulp)
    rw [h24] at h1
    have h3 : (2 : F) ^ (Int.log 2 x + 1) ≤ 2 ^ (k + 23) :=
      zpow_le_zpow_right₀ (by norm_num) (by omega)
    have h4 : (2 : F) ^ (k + 23) ≤ (n : F) * 2 ^ k := by
      rw [zpow_add₀ (by norm_num : (2 : F) ≠ 0), mul_comm]
      apply mul_le_mul_of_nonneg_right _ (le_of_lt hk)
      norm_num
      exact hn23
    linarith

/-- Rounding to `float` does not pass a `float` below the argument. -/
theorem le_toFloat {F : Type} [LinearOrderedField F] [FloorRing F] (x : F)
    (n k : ℤ) (hn : 8388608 ≤ n ∧ n < 16777216) (h : (n : F) * 2 ^ k ≤ x) :
    (n : F) * 2 ^ k ≤ toFloat x := by
  have h2 : (0 : F) < 2 := by norm_num
  have hk : (0 : F) < 2 ^ k := zpow_pos h2 k
  have hnF : (n : F) < 16777216 := by exact_mod_cast hn.2
  have hn23 : (8388608 : F) ≤ n := by exact_mod_cast hn.1
  have hx : 0 < x := lt_of_lt_of_le (mul_pos (by linarith) hk) h
  obtain ⟨hlo, hhi⟩ := log_two_bounds x hx
  have h23 : (2 : F) ^ (k + 23) ≤ (n : F) * 2 ^ k := by
    rw [zpow_add₀ (by norm_num : (2 : F) ≠ 0), mul_comm]
    apply mul_le_mul_of_nonneg_right _ (le_of_lt hk)
    norm_num
    exact hn23
  have he : k + 23 ≤ Int.log 2 x := (log_two_compare x hx (k + 23)).1 (le_trans h23 h)
  have hulp : (0 : F) < 2 ^ (Int.log 2 x - 23) := zpow_pos h2 _
  rw [toFloat_of_pos x hx]
  rcases eq_or_lt_of_le he with heq | hlt
  · have hk' : Int.log 2 x - 23 = k := by omega
    rw [hk']
    have hy : (n : F) ≤ x / 2 ^ k := by
      rw [le_div_iff₀ hk]
      exact h
    have := (roundTiesEven_mono_int (x / 2 ^ k) n).1 hy
    have hc : (n : F) ≤ ((roundTiesEven (x / 2 ^ k) : ℤ) : F) := by exact_mod_cast this
    exact mul_le_mul_of_nonneg_right hc (le_of_lt hk)
  · have h23e : ((8388608 : ℤ) : F) * 2 ^ (Int.log 2 x - 23) = 2 ^ Int.log 2 x := by
      have : Int.log 2 x = 23 + (Int.log 2 x - 23) := by omega
      nth_rewrite 2 [this]
      rw [zpow_add₀ (by norm_num : (2 : F) ≠ 0)]
      norm_num
    have hy : ((8388608 : ℤ) : F) ≤ x / 2 ^ (Int.log 2 x - 23) := by
      rw [le_div_iff₀ hulp, h23e]
      exact hlo
    have := (roundTiesEven_mono_int (x / 2 ^ (Int.log 2 x - 23)) 8388608).1 hy
    have hc : ((8388608 : ℤ) : F) ≤ ((roundTiesEven (x / 2 ^ (Int.log 2 x - 23)) : ℤ) : F) := by
      exact_mod_cast this
    have h1 := mul_le_mul_of_nonneg_right hc (le_of_lt hulp)
    rw [h23e] at h1
    have h3 : (2 : F) ^ (k + 24) ≤ 2 ^ Int.log 2 x :=
      zpow_le_zpow_right₀ (by norm_num) (by omega)
    have h4 : (n : F) * 2 ^ k ≤ 2 ^ (k + 24) := by
      rw [zpow_add₀ (by norm_num : (2 : F) ≠ 0), mul_comm]
      apply mul_le_mul_of_nonneg_left _ (le_of_lt hk)
      norm_num
      exact le_of_lt hnF
    linarith

/-- A value `n * 2 ^ k` with `2 ^ 23 ≤ n < 2 ^ 24` is a `float`. -/
theorem toFloat_of_float {F : Type} [LinearOrderedField F] [FloorRing F]
    (n k : ℤ) (hn : 8388608 ≤ n ∧ n < 16777216) :
    toFloat ((n : F) * 2 ^ k) = (n : F) * 2 ^ k :=
  le_antisymm (toFloat_le _ n k hn le_rfl) (le_toFloat _ n k hn le_rfl)

/-- The relative error of rounding to `float` is at most `2 ^ (-24)`. -/
theorem toFloat_error {F : Type} [LinearOrderedField F] [FloorRing F] (x : F) :
    |toFloat x - x| ≤ |x| / 16777216 := by
  have key : ∀ y : F, 0 < y → |toFloat y - y| ≤ y / 16777216 := by
    intro y hy
    obtain ⟨hlo, hhi⟩ := log_two_bounds y hy
    have hulp : (0 : F) < 2 ^ (Int.log 2 y - 23) := zpow_pos (by norm_num) _
    have herr := roundTiesEven_error (y / 2 ^ (Int.log 2 y - 23))
    have hsplit : toFloat y - y =
        ((roundTiesEven (y / 2 ^ (Int.log 2 y - 23)) : F) - y / 2 ^ (Int.log 2 y - 23)) *
          2 ^ (Int.log 2 y - 23) := by
      rw [toFloat_of_pos y hy]
      field_simp
    rw [hsplit, abs_mul, abs_of_pos hulp]
    have h23e : (8388608 : F) * 2 ^ (Int.log 2 y - 23) = 2 ^ Int.log 2 y := by
      have : Int.log 2 y = 23 + (Int.log 2 y - 23) := by omega
      nth_rewrite 2 [this]
      rw [zpow_add₀ (by norm_num : (2 : F) ≠ 0)]
      norm_num
    have h1 := mul_le_mul_of_nonneg_right herr (le_of_lt hulp)
    rw [le_div_iff₀ (by norm_num)]
    nlinarith
  rcases lt_trichotomy x 0 with h | h | h
  · have := key (-x) (neg_pos.mpr h)
    rw [toFloat_neg] at this
    rw [abs_of_neg h]
    have e : -toFloat x - -x = -(toFloat x - x) := by ring
    rwa [e, abs_neg] at this
  · subst h
    simp [toFloat_zero]
  · rw [abs_of_pos h]
    exact key x h

/-- Rounding to `float` against the values 1 and -1, which are `float`s. -/
theorem toFloat_unit {F : Type} [LinearOrderedField F] [FloorRing F] (x : F) :
    (1 ≤ x → 1 ≤ toFloat x) ∧ (x ≤ 1 → toFloat x ≤ 1) ∧
    (x ≤ -1 → toFloat x ≤ -1) ∧ (-1 ≤ x → -1 ≤ toFloat x) := by
  have hone : ((8388608 : ℤ) : F) * 2 ^ (-23 : ℤ) = 1 := by norm_num
  have hup : ∀ y : F, 1 ≤ y → 1 ≤ toFloat y := by
    intro y hy
    have := le_toFloat y 8388608 (-23) (by decide) (by rw [hone]; exact hy)
    rwa [hone] at this
  have hdown : ∀ y : F, y ≤ 1 → toFloat y ≤ 1 := by
    intro y hy
    have := toFloat_le y 8388608 (-23) (by decide) (by rw [hone]; exact hy)
    rwa [hone] at this
  refine ⟨hup x, hdown x, ?_, ?_⟩
  · intro h
    have := hup (-x) (by linarith)
    rw [toFloat_neg] at this
    linarith
  · intro h
    have := hdown (-x) (by linarith)
    rw [toFloat_neg] at this
    linarith

/-! ## The pitch bend -/

/-- The 12-TET frequency of a note is positive. -/
theorem getMidiNoteFrequency_pos (midiNote : ℤ) : 0 < getMidiNoteFrequency Real.rpow midiNote := by
  unfold getMidiNoteFrequency
  have h : (0 : ℝ) < Real.rpow 2 (((midiNote - 69 : ℤ) : ℝ) / 12) :=
    Real.rpow_pos_of_pos (by norm_num) _
  linarith

/-- Over the reals `getMidiNoteFrequency` is `440 * 2 ^ ((note - 69) / 12)`. -/
theorem getMidiNoteFrequency_eq (midiNote : ℤ) :
    getMidiNoteFrequency Real.rpow midiNote = 440 * (2 : ℝ) ^ (((midiNote : ℝ) - 69) / 12) := by
  simp [getMidiNoteFrequency]

/-- Inside the limits `jlimit` returns its argument. -/
theorem jlimit_of_mem {F : Type} [LinearOrderedField F] (lo hi x : F) (h1 : lo ≤ x)
    (h2 : x ≤ hi) : jlimit lo hi x = x := by
  unfold jlimit
  rw [if_neg (not_lt.mpr h1), if_neg (not_lt.mpr h2)]

/-- The result of `jlimit (-1, 1, x)` lies in `[-1, 1]`; it is 1 from `x = 1` upwards and
-1 from `x = -1` downwards. -/
theorem jlimit_unit {F : Type} [LinearOrderedField F] (x : F) :
    (-1 ≤ jlimit (-1) 1 x ∧ jlimit (-1) 1 x ≤ 1) ∧
    (1 ≤ x → jlimit (-1) 1 x = 1) ∧ (x ≤ -1 → jlimit (-1) 1 x = -1) := by
  unfold jlimit
  refine ⟨?_, ?_, ?_⟩
  · split_ifs with h1 h2
    · exact ⟨le_refl _, by linarith⟩
    · exact ⟨by linarith, le_refl _⟩
    · exact ⟨not_lt.mp h1, not_lt.mp h2⟩
  · intro hx
    split_ifs with h1 h2
    · linarith
    · rfl
    · exact le_antisymm (not_lt.mp h2) hx
  · intro hx
    split_ifs with h1 h2
    · rfl
    · linarith
    · exact le_antisymm hx (not_lt.mp h1)

/-- The bend over the reals: the clamp of the `float` nearest to `12 * log2 (t / s) / 2`,
with `s = 440 * 2 ^ ((note - 69) / 12)`. -/
theorem calculatePitchBendForFrequency_eq (note : ℤ) (t : ℝ) :
    calculatePitchBendForFrequency Real.rpow (Real.logb 2) note t =
      jlimit (-1) 1 (toFloat
        (12 * Real.logb 2 (t / (440 * (2 : ℝ) ^ (((note : ℝ) - 69) / 12))) / 2)) := by
  rw [← getMidiNoteFrequency_eq]
  rfl

/-- The 12-TET frequency in its explicit form is positive. -/
theorem twelveTetFrequency_pos (note : ℤ) :
    (0 : ℝ) < 440 * (2 : ℝ) ^ (((note : ℝ) - 69) / 12) := by
  have h : (0 : ℝ) < (2 : ℝ) ^ (((note : ℝ) - 69) / 12) := Real.rpow_pos_of_pos (by norm_num) _
  linarith

/-- C20: pitch-bend round trip.  For every MIDI note with 12-TET frequency
`s = 440 * 2 ^ ((note - 69) / 12)` and every target frequency `t > 0` within 2 semitones of
`s` (`|12 * log2 (t / s)| ≤ 2`): the bend `12 * log2 (t / s) / 2` converted back with the
2-semitone bend range reproduces the target exactly over the reals
(`s * 2 ^ (2 * bend / 12) = t`); the value `b = calculatePitchBendForFrequency (note, t)`,
that bend narrowed to `float`, is within the relative error `2 ^ (-24)` of it; and for the
notes up to 127 the value `b` converted back reproduces the target within `1e-3` Hz. -/
theorem C20_pitch_bend_round_trip (note : ℤ) (t : ℝ) (ht : 0 < t)
    (hrange : |12 * Real.logb 2 (t / (440 * (2 : ℝ) ^ (((note : ℝ) - 69) / 12)))| ≤ 2) :
    440 * (2 : ℝ) ^ (((note : ℝ) - 69) / 12) *
        (2 : ℝ) ^ (2 * (12 * Real.logb 2
          (t / (440 * (2 : ℝ) ^ (((note : ℝ) - 69) / 12))) / 2) / 12) = t ∧
    |calculatePitchBendForFrequency Real.rpow (Real.logb 2) note t -
        12 * Real.logb 2 (t / (440 * (2 : ℝ) ^ (((note : ℝ) - 69) / 12))) / 2| ≤
      |12 * Real.logb 2 (t / (440 * (2 : ℝ) ^ (((note : ℝ) - 69) / 12))) / 2| / 16777216 ∧
    (note ≤ 127 →
      |440 * (2 : ℝ) ^ (((note : ℝ) - 69) / 12) *
          (2 : ℝ) ^ (2 * calculatePitchBendForFrequency Real.rpow (Real.logb 2) note t / 12) -
        t| ≤ 1 / 1000) := by
  have hs := twelveTetFrequency_pos note
  have hq : 0 < t / (440 * (2 : ℝ) ^ (((note : ℝ) - 69) / 12)) := div_pos ht hs
  rw [calculatePitchBendForFrequency_eq]
  generalize hsdef : 440 * (2 : ℝ) ^ (((note : ℝ) - 69) / 12) = s at hs hq hrange ⊢
  generalize hL : Real.logb 2 (t / s) = L at hrange ⊢
  obtain ⟨hlo, hhi⟩ := abs_le.mp hrange
  have hpow : (2 : ℝ) ^ L = t / s := by
    rw [← hL]
    exact Real.rpow_logb (by norm_num) (by norm_num) hq
  have hexact : s * (2 : ℝ) ^ (2 * (12 * L / 2) / 12) = t := by
    have hexp : 2 * (12 * L / 2) / 12 = L := by ring
    rw [hexp, hpow]
    field_simp
  have hb : jlimit (-1) 1 (toFloat (12 * L / 2)) = toFloat (12 * L / 2) :=
    jlimit_of_mem _ _ _ ((toFloat_unit _).2.2.2 (by linarith)) ((toFloat_unit _).2.1 (by linarith))
  have herr := toFloat_error (12 * L / 2)
  rw [hb]
  refine ⟨hexact, herr, ?_⟩
  intro hnote
  have hx1 : |12 * L / 2| ≤ 1 := by
    rw [abs_le]
    constructor <;> linarith
  have hdiff : |toFloat (12 * L / 2) - 12 * L / 2| ≤ 1 / 16777216 := by
    have : |12 * L / 2| / 16777216 ≤ 1 / 16777216 := by
      apply div_le_div_of_nonneg_right hx1 (by norm_num)
    linarith
  have hsplit : s * (2 : ℝ) ^ (2 * toFloat (12 * L / 2) / 12) =
      t * (2 : ℝ) ^ ((toFloat (12 * L / 2) - 12 * L / 2) / 6) := by
    have hexp : 2 * toFloat (12 * L / 2) / 12 =
        L + (toFloat (12 * L / 2) - 12 * L / 2) / 6 := by ring
    rw [hexp, Real.rpow_add (by norm_num), hpow]
    field_simp
  rw [hsplit]
  generalize hd : (toFloat (12 * L / 2) - 12 * L / 2) / 6 = d
  have hdabs : |d| ≤ 1 / 100663296 := by
    rw [← hd, abs_div, abs_of_pos (by norm_num : (0 : ℝ) < 6)]
    rw [div_le_iff₀ (by norm_num)]
    linarith
  have hlog2 : |Real.log 2| ≤ 1 := by
    rw [abs_of_pos (Real.log_pos (by norm_num))]
    have := Real.log_two_lt_d9
    linarith
  have hu : |Real.log 2 * d| ≤ 1 / 100663296 := by
    rw [abs_mul]
    calc |Real.log 2| * |d| ≤ 1 * |d| := mul_le_mul_of_nonneg_right hlog2 (abs_nonneg d)
      _ = |d| := one_mul _
      _ ≤ 1 / 100663296 := hdabs
  have hexp : |(2 : ℝ) ^ d - 1| ≤ 2 * (1 / 100663296) := by
    rw [Real.rpow_def_of_pos (by norm_num)]
    have h1 := Real.abs_exp_sub_one_le (x := Real.log 2 * d) (by linarith)
    linarith
  have hs14080 : s ≤ 14080 := by
    rw [← hsdef]
    have hnote' : ((note : ℝ) - 69) / 12 ≤ 5 := by
      have : (note : ℝ) ≤ 127 := by exact_mod_cast hnote
      linarith
    have h5 : (2 : ℝ) ^ (((note : ℝ) - 69) / 12) ≤ (2 : ℝ) ^ (5 : ℝ) :=
      Real.rpow_le_rpow_of_exponent_le (by norm_num) hnote'
    have h32 : (2 : ℝ) ^ (5 : ℝ) = 32 := by
      rw [show (5 : ℝ) = ((5 : ℕ) : ℝ) by norm_num, Real.rpow_natCast]
      norm_num
    linarith
  have ht2 : t ≤ 28160 := by
    have hL1 : (2 : ℝ) ^ L ≤ (2 : ℝ) ^ (1 : ℝ) :=
      Real.rpow_le_rpow_of_exponent_le (by norm_num) (by linarith)
    rw [Real.rpow_one, hpow, div_le_iff₀ hs] at hL1
    linarith
  have hfinal : t * (2 : ℝ) ^ d - t = t * ((2 : ℝ) ^ d - 1) := by ring
  rw [hfinal, abs_mul, abs_of_pos ht]
  calc t * |(2 : ℝ) ^ d - 1| ≤ 28160 * (2 * (1 / 100663296)) :=
        mul_le_mul ht2 hexp (abs_nonneg _) (by norm_num)
    _ ≤ 1 / 1000 := by norm_num

/-- C20 at note 69 (12-TET 440 Hz) and a target one semitone above it. -/
theorem C20_pitch_bend_round_trip_witness :
    (0 : ℝ) < 440 * (2 : ℝ) ^ ((1 : ℝ) / 12) ∧
    |12 * Real.logb 2 (440 * (2 : ℝ) ^ ((1 : ℝ) / 12) /
        (440 * (2 : ℝ) ^ ((((69 : ℤ) : ℝ) - 69) / 12)))| ≤ 2 ∧
    |440 * (2 : ℝ) ^ ((((69 : ℤ) : ℝ) - 69) / 12) *
        (2 : ℝ) ^ (2 * calculatePitchBendForFrequency Real.rpow (Real.logb 2) 69
          (440 * (2 : ℝ) ^ ((1 : ℝ) / 12)) / 12) -
      440 * (2 : ℝ) ^ ((1 : ℝ) / 12)| ≤ 1 / 1000 := by
  have hpos : (0 : ℝ) < 440 * (2 : ℝ) ^ ((1 : ℝ) / 12) := by
    have : (0 : ℝ) < (2 : ℝ) ^ ((1 : ℝ) / 12) := Real.rpow_pos_of_pos (by norm_num) _
    linarith
  have hrange : |12 * Real.logb 2 (440 * (2 : ℝ) ^ ((1 : ℝ) / 12) /
      (440 * (2 : ℝ) ^ ((((69 : ℤ) : ℝ) - 69) / 12)))| ≤ 2 := by
    have hq : 440 * (2 : ℝ) ^ ((1 : ℝ) / 12) /
        (440 * (2 : ℝ) ^ ((((69 : ℤ) : ℝ) - 69) / 12)) = (2 : ℝ) ^ ((1 : ℝ) / 12) := by
      norm_num
    rw [hq, Real.logb_rpow (by norm_num) (by norm_num)]
    norm_num
  exact ⟨hpos, hrange, (C20_pitch_bend_round_trip 69 _ hpos hrange).2.2 (by norm_num)⟩

/-! ## The pitch-bend clamp -/

/-- C21: for every MIDI note with 12-TET frequency `s = 440 * 2 ^ ((note - 69) / 12)` and
every target frequency `t > 0`, `calculatePitchBendForFrequency (note, t)` lies in
`[-1, 1]`; it is `+1` when `t` is 2 or more semitones above `s` (`s * 2 ^ (2 / 12) ≤ t`)
and `-1` when `t` is 2 or more semitones below it (`t ≤ s * 2 ^ (-2 / 12)`). -/
theorem C21_pitch_bend_clamped (note : ℤ) (t : ℝ) (ht : 0 < t) :
    (-1 ≤ calculatePitchBendForFrequency Real.rpow (Real.logb 2) note t ∧
      calculatePitchBendForFrequency Real.rpow (Real.logb 2) note t ≤ 1) ∧
    (440 * (2 : ℝ) ^ (((note : ℝ) - 69) / 12) * (2 : ℝ) ^ ((2 : ℝ) / 12) ≤ t →
      calculatePitchBendForFrequency Real.rpow (Real.logb 2) note t = 1) ∧
    (t ≤ 440 * (2 : ℝ) ^ (((note : ℝ) - 69) / 12) * (2 : ℝ) ^ (-(2 : ℝ) / 12) →
      calculatePitchBendForFrequency Real.rpow (Real.logb 2) note t = -1) := by
  have hs := twelveTetFrequency_pos note
  have hq : 0 < t / (440 * (2 : ℝ) ^ (((note : ℝ) - 69) / 12)) := div_pos ht hs
  rw [calculatePitchBendForFrequency_eq]
  generalize 440 * (2 : ℝ) ^ (((note : ℝ) - 69) / 12) = s at hs hq ⊢
  obtain ⟨hrange, hup, hdown⟩ := jlimit_unit (toFloat (12 * Real.logb 2 (t / s) / 2))
  refine ⟨hrange, ?_, ?_⟩
  · intro h
    apply hup
    apply (toFloat_unit _).1
    have h1 : (2 : ℝ) ^ ((2 : ℝ) / 12) ≤ t / s := by
      rw [le_div_iff₀ hs]
      linarith
    have h2 := (Real.le_logb_iff_rpow_le (by norm_num : (1 : ℝ) < 2) hq).mpr h1
    linarith
  · intro h
    apply hdown
    apply (toFloat_unit _).2.2.1
    have h1 : t / s ≤ (2 : ℝ) ^ (-(2 : ℝ) / 12) := by
      rw [div_le_iff₀ hs]
      linarith
    have h2 := (Real.logb_le_iff_le_rpow (by norm_num : (1 : ℝ) < 2) hq).mpr h1
    linarith

/-- C21 at the target 440 Hz: for note 57 (12-TET 220 Hz), an octave below the target,
the bend is clamped to `+1`; for note 81 (12-TET 880 Hz), an octave above it, to `-1`. -/
theorem C21_pitch_bend_clamped_witness :
    (0 : ℝ) < 440 ∧
    440 * (2 : ℝ) ^ ((((57 : ℤ) : ℝ) - 69) / 12) * (2 : ℝ) ^ ((2 : ℝ) / 12) ≤ 440 ∧
    (440 : ℝ) ≤ 440 * (2 : ℝ) ^ ((((81 : ℤ) : ℝ) - 69) / 12) * (2 : ℝ) ^ (-(2 : ℝ) / 12) ∧
    calculatePitchBendForFrequency Real.rpow (Real.logb 2) 57 440 = 1 ∧
    calculatePitchBendForFrequency Real.rpow (Real.logb 2) 81 440 = -1 := by
  have h57 : 440 * (2 : ℝ) ^ ((((57 : ℤ) : ℝ) - 69) / 12) * (2 : ℝ) ^ ((2 : ℝ) / 12) ≤ 440 := by
    have he : (((57 : ℤ) : ℝ) - 69) / 12 = -1 := by norm_num
    have h1 : (2 : ℝ) ^ ((2 : ℝ) / 12) ≤ (2 : ℝ) ^ (1 : ℝ) :=
      Real.rpow_le_rpow_of_exponent_le (by norm_num) (by norm_num)
    rw [he, Real.rpow_neg_one]
    rw [Real.rpow_one] at h1
    linarith
  have h81 : (440 : ℝ) ≤
      440 * (2 : ℝ) ^ ((((81 : ℤ) : ℝ) - 69) / 12) * (2 : ℝ) ^ (-(2 : ℝ) / 12) := by
    have he : (((81 : ℤ) : ℝ) - 69) / 12 = 1 := by norm_num
    have h1 : (2 : ℝ) ^ (-(1 : ℝ)) ≤ (2 : ℝ) ^ (-(2 : ℝ) / 12) :=
      Real.rpow_le_rpow_of_exponent_le (by norm_num) (by norm_num)
    rw [he, Real.rpow_one]
    rw [Real.rpow_neg_one] at h1
    linarith
  exact ⟨by norm_num, h57, h81, (C21_pitch_bend_clamped 57 440 (by norm_num)).2.1 h57,
    (C21_pitch_bend_clamped 81 440 (by norm_num)).2.2 h81⟩

/-! ## Setter guards and frame properties of the transport update -/

/-- In every reachable state, whatever beats positions the host reports, the sequence
length is one of 4, 8, 12, 16. -/
theorem reachable_length_valid {F : Type} [LinearOrderedField F] [FloorRing F]
    (pow : F → F → F) (okBeat : F → Prop) (s : Processor F) (h : Reachable pow okBeat s) :
    s.sequenceLength = 4 ∨ s.sequenceLength = 8 ∨ s.sequenceLength = 12 ∨
      s.sequenceLength = 16 := by
  induction h with
  | start => exact Or.inl rfl
  | setLength s length _ ih =>
    unfold setSequenceLength
    split_ifs with h1 h2
    · exact h1
    · exact h1
    · exact ih
  | setMode s mode _ ih =>
    unfold setIntonationMode
    split_ifs
    · exact ih
    · exact ih
  | setRoot s measureIndex rootNote _ ih =>
    unfold setMeasureRoot
    split_ifs
    · exact ih
    · exact ih
  | resetDrift s _ ih => exact ih
  | transport s s' playHead _ _ hupd ih =>
    rw [(updateCurrentMeasure_effect pow s s' playHead hupd).1]
    exact ih
  | frequencyMap s s' _ hupd ih =>
    rw [updateFrequencyMap_frame pow s s' hupd]
    exact ih

/-- With the last measure inside the 16 slots the transport update returns, for every
play-head reading. -/
theorem updateCurrentMeasure_isSome {F : Type} [LinearOrderedField F] [FloorRing F]
    (pow : F → F → F) (s : Processor F)
    (hlen : 1 ≤ s.sequenceLength ∧ s.sequenceLength ≤ 16) (playHead : Option (PlayHead F)) :
    ∃ s' : Processor F, updateCurrentMeasure pow s playHead = some s' := by
  have hfreq : ∀ t : Processor F, t.sequenceLength = s.sequenceLength →
      ∃ f, getCurrentMeasureRootFrequencyForMeasure pow t (t.sequenceLength - 1) = some f := by
    intro t ht
    obtain ⟨f, hf⟩ := rootFrequency_isSome pow t (by omega) (t.sequenceLength - 1).toNat
      (by omega)
    rw [Int.toNat_of_nonneg (by omega)] at hf
    exact ⟨f, hf⟩
  unfold updateCurrentMeasure
  cases playHead with
  | none => exact ⟨s, rfl⟩
  | some ph =>
    cases hpos : ph.position with
    | none =>
      simp only [hpos]
      exact ⟨s, rfl⟩
    | some position =>
      simp only [hpos]
      have hs1 : ∃ s1 : Processor F,
          (if s.wasPlaying = true ∧ position.isPlaying = false then
            { resetAccumulatedDrift s with previousMeasure := -1, currentMeasure := 0 }
          else s) = s1 ∧ s1.sequenceLength = s.sequenceLength := by
        by_cases hstop : s.wasPlaying = true ∧ position.isPlaying = false
        · exact ⟨_, rfl, by rw [if_pos hstop]; rfl⟩
        · exact ⟨_, rfl, by rw [if_neg hstop]⟩
      obtain ⟨s1, e1, l1⟩ := hs1
      rw [e1]
      cases hppq : position.ppqPosition with
      | none =>
        simp only [hppq]
        exact ⟨_, rfl⟩
      | some b =>
        have hne : ¬ s1.sequenceLength = 0 := by omega
        simp only [hppq, hne, if_false]
        split_ifs
        · obtain ⟨f, hf⟩ := hfreq
            { s1 with wasPlaying := position.isPlaying, ppqPosition := b,
                      bpm := position.bpm.getD 120 } l1
          simp only [] at hf
          rw [hf]
          exact ⟨_, rfl⟩
        · exact ⟨_, rfl⟩

/-- C22: for every integer `length` not in `{4, 8, 12, 16}`, `setSequenceLength length`
leaves the whole engine state unchanged; consequently, in every reachable state (whatever
beats positions the host reports) the sequence length is in `{4, 8, 12, 16}`, so it is not
0 and the per-block update, which takes a remainder by it, returns for every play-head
reading. -/
theorem C22_invalid_length_ignored (okBeat : ℝ → Prop) (s : Processor ℝ) (length : ℤ)
    (hbad : ¬ (length = 4 ∨ length = 8 ∨ length = 12 ∨ length = 16)) :
    setSequenceLength s length = s ∧
    (Reachable Real.rpow okBeat s →
      (s.sequenceLength = 4 ∨ s.sequenceLength = 8 ∨ s.sequenceLength = 12 ∨
        s.sequenceLength = 16) ∧
      s.sequenceLength ≠ 0 ∧
      Reachable Real.rpow okBeat (setSequenceLength s length) ∧
      ∀ playHead : Option (PlayHead ℝ),
        ∃ s' : Processor ℝ, updateCurrentMeasure Real.rpow s playHead = some s') := by
  have hsame : setSequenceLength s length = s := by
    unfold setSequenceLength
    rw [if_neg hbad]
  refine ⟨hsame, ?_⟩
  intro hr
  have hv := reachable_length_valid Real.rpow okBeat s hr
  exact ⟨hv, by omega, by rw [hsame]; exact hr,
    updateCurrentMeasure_isSome Real.rpow s (by omega)⟩

/-- C22 at the engine with a drift of 400 Hz and the rejected length 5. -/
theorem C22_invalid_length_ignored_witness :
    ¬ ((5 : ℤ) = 4 ∨ (5 : ℤ) = 8 ∨ (5 : ℤ) = 12 ∨ (5 : ℤ) = 16) ∧
    setSequenceLength (driftedExample : Processor ℝ) 5 = driftedExample :=
  ⟨by decide, (C22_invalid_length_ignored (fun _ => True) driftedExample 5 (by decide)).1⟩

/-- C23: if the host exposes no position (the play head is absent, or it returns no
position info), `updateCurrentMeasure` is a no-op: it returns the state it was given, so
current measure, previous measure, drift state, play-state memory, sequence length, mode
and measure roots all keep their values. -/
theorem C23_no_position_is_noop (s : Processor ℝ) :
    updateCurrentMeasure Real.rpow s none = some s ∧
    updateCurrentMeasure Real.rpow s (some { position := none }) = some s :=
  ⟨rfl, rfl⟩

/-- The update for a block that carries a beats position and in which no stop is
detected. -/
theorem updateCurrentMeasure_noStop {F : Type} [LinearOrderedField F] [FloorRing F]
    (pow : F → F → F) (s : Processor F) (isPlaying : Bool) (ppq : F) (bpm : Option F)
    (hnostop : ¬ (s.wasPlaying = true ∧ isPlaying = false)) (hlen : s.sequenceLength ≠ 0) :
    updateCurrentMeasure pow s
        (some { position := some { isPlaying := isPlaying, ppqPosition := some ppq,
                                   bpm := bpm } }) =
      if s.intonationMode = IntonationMode.Shift ∧
          s.previousMeasure = s.sequenceLength - 1 ∧
          Int.tmod (truncToInt (ppq / 4)) s.sequenceLength = 0 ∧
          s.previousMeasure ≠ -1 then
        (getCurrentMeasureRootFrequencyForMeasure pow s (s.sequenceLength - 1)).map
          (fun lastFreq =>
            { s with wasPlaying := isPlaying, ppqPosition := ppq, bpm := bpm.getD 120,
                     accumulatedDriftFrequency := lastFreq, hasAccumulatedDrift := true,
                     previousMeasure := s.currentMeasure,
                     currentMeasure := Int.tmod (truncToInt (ppq / 4)) s.sequenceLength })
      else
        some { s with wasPlaying := isPlaying, ppqPosition := ppq, bpm := bpm.getD 120,
                      previousMeasure := s.currentMeasure,
                      currentMeasure := Int.tmod (truncToInt (ppq / 4)) s.sequenceLength } := by
  have hfreq : getCurrentMeasureRootFrequencyForMeasure pow
      { s with wasPlaying := isPlaying, ppqPosition := ppq, bpm := bpm.getD 120 }
      (s.sequenceLength - 1) =
      getCurrentMeasureRootFrequencyForMeasure pow s (s.sequenceLength - 1) :=
    rootFrequency_congr pow s
      { s with wasPlaying := isPlaying, ppqPosition := ppq, bpm := bpm.getD 120 }
      rfl rfl rfl rfl rfl _
  simp only [updateCurrentMeasure, hnostop, if_false, hlen, hfreq]
  split_ifs
  · cases getCurrentMeasureRootFrequencyForMeasure pow s (s.sequenceLength - 1) <;> rfl
  · rfl

/-- C24: single-step drift capture.  In a per-block update with a beats position and no
stop detected (and the last measure inside the 16 slots), the update returns; if the mode
is Shift, `previousMeasure = length - 1` and the newly computed measure is 0, the post-state
has `hasDrift = true` and a drift frequency equal to the root frequency of measure
`length - 1` evaluated on the pre-update state; otherwise the drift state is unchanged. -/
theorem C24_single_step_capture (s : Processor ℝ) (isPlaying : Bool) (b : ℝ)
    (bpm : Option ℝ) (hnostop : ¬ (s.wasPlaying = true ∧ isPlaying = false))
    (hlen : 1 ≤ s.sequenceLength ∧ s.sequenceLength ≤ 16) :
    ∃ s' : Processor ℝ,
      updateCurrentMeasure Real.rpow s
        (some { position := some { isPlaying := isPlaying, ppqPosition := some b,
                                   bpm := bpm } }) = some s' ∧
      s'.currentMeasure = Int.tmod (truncToInt (b / 4)) s.sequenceLength ∧
      ((s.intonationMode = IntonationMode.Shift ∧ s.previousMeasure = s.sequenceLength - 1 ∧
          Int.tmod (truncToInt (b / 4)) s.sequenceLength = 0) →
        s'.hasAccumulatedDrift = true ∧
        getCurrentMeasureRootFrequencyForMeasure Real.rpow s (s.sequenceLength - 1) =
          some s'.accumulatedDriftFrequency) ∧
      (¬ (s.intonationMode = IntonationMode.Shift ∧ s.previousMeasure = s.sequenceLength - 1 ∧
          Int.tmod (truncToInt (b / 4)) s.sequenceLength = 0) →
        s'.hasAccumulatedDrift = s.hasAccumulatedDrift ∧
        s'.accumulatedDriftFrequency = s.accumulatedDriftFrequency) := by
  obtain ⟨f, hf⟩ := rootFrequency_isSome Real.rpow s hlen (s.sequenceLength - 1).toNat
    (by omega)
  rw [Int.toNat_of_nonneg (by omega)] at hf
  rw [updateCurrentMeasure_noStop Real.rpow s isPlaying b bpm hnostop (by omega)]
  by_cases hc : s.intonationMode = IntonationMode.Shift ∧
      s.previousMeasure = s.sequenceLength - 1 ∧
      Int.tmod (truncToInt (b / 4)) s.sequenceLength = 0
  · rw [if_pos ⟨hc.1, hc.2.1, hc.2.2, by omega⟩, hf, Option.map_some']
    exact ⟨_, rfl, rfl, fun _ => ⟨rfl, rfl⟩, fun h => absurd hc h⟩
  · have hcond : ¬ (s.intonationMode = IntonationMode.Shift ∧
        s.previousMeasure = s.sequenceLength - 1 ∧
        Int.tmod (truncToInt (b / 4)) s.sequenceLength = 0 ∧ s.previousMeasure ≠ -1) := by
      rintro ⟨h1, h2, h3, -⟩
      exact hc ⟨h1, h2, h3⟩
    rw [if_neg hcond]
    exact ⟨_, rfl, rfl, fun h => absurd h hc, fun _ => ⟨rfl, rfl⟩⟩

/-- C24 at the engine with a drift of 400 Hz that is in its last measure (length 4),
played on at beat 16: the drift is captured again, as the root frequency of measure 3. -/
theorem C24_single_step_capture_witness :
    ¬ ((lastMeasureExample : Processor ℝ).wasPlaying = true ∧ true = false) ∧
    (1 ≤ (lastMeasureExample : Processor ℝ).sequenceLength ∧
      (lastMeasureExample : Processor ℝ).sequenceLength ≤ 16) ∧
    ∃ s' : Processor ℝ,
      updateCurrentMeasure Real.rpow (lastMeasureExample : Processor ℝ)
        (some { position := some { isPlaying := true, ppqPosition := some 16,
                                   bpm := none } }) = some s' ∧
      s'.hasAccumulatedDrift = true ∧
      getCurrentMeasureRootFrequencyForMeasure Real.rpow (lastMeasureExample : Processor ℝ)
        ((lastMeasureExample : Processor ℝ).sequenceLength - 1) =
          some s'.accumulatedDriftFrequency := by
  refine ⟨by simp, by decide, ?_⟩
  obtain ⟨s', h1, -, h3, -⟩ := C24_single_step_capture (lastMeasureExample : Processor ℝ)
    true 16 none (by simp) (by decide)
  refine ⟨s', h1, h3 ⟨rfl, rfl, ?_⟩⟩
  have htrunc : truncToInt ((16 : ℝ) / 4) = 4 :=
    truncToInt_of_nonneg _ _ (by norm_num) (by norm_num) (by decide)
  rw [htrunc]
  decide

/-! ## Independence from unused drift fields -/

/-- The getter reads only the measure roots. -/
theorem getMeasureRoot_congr {F : Type} (s t : Processor F)
    (hroots : t.measureRoots = s.measureRoots) (i : ℤ) :
    getMeasureRoot t i = getMeasureRoot s i := by
  unfold getMeasureRoot
  rw [hroots]

/-- In Set mode, and in Shift mode without drift, the root frequency of every measure
inside the 16 slots is defined and is the same in any two states with the same mode and
measure roots. -/
theorem rootFrequency_noDrift_congr {F : Type} [LinearOrderedField F] (pow : F → F → F)
    (s t : Processor F) (hmode : t.intonationMode = s.intonationMode)
    (hroots : t.measureRoots = s.measureRoots)
    (hcase : s.intonationMode = IntonationMode.Set ∨
      (s.intonationMode = IntonationMode.Shift ∧ s.hasAccumulatedDrift = false ∧
        t.hasAccumulatedDrift = false))
    (n : ℕ) (hn : n < 16) :
    ∃ f, getCurrentMeasureRootFrequencyForMeasure pow s n = some f ∧
      getCurrentMeasureRootFrequencyForMeasure pow t n = some f := by
  induction n with
  | zero =>
    rw [Nat.cast_zero]
    rcases hcase with hset | ⟨hshift, hds, hdt⟩
    · exact ⟨_, rootFrequency_zero_set pow s hset, by
        rw [rootFrequency_zero_set pow t (hmode.trans hset), getMeasureRoot_congr s t hroots]⟩
    · exact ⟨_, rootFrequency_zero_noDrift pow s hshift hds, by
        rw [rootFrequency_zero_noDrift pow t (hmode.trans hshift) hdt,
          getMeasureRoot_congr s t hroots]⟩
  | succ n ih =>
    obtain ⟨f, hfs, hft⟩ := ih (by omega)
    have hpred : ((n + 1 : ℕ) : ℤ) - 1 = n := by omega
    rcases hcase with hset | ⟨hshift, hds, hdt⟩
    · exact ⟨_, rootFrequency_set_later pow s hset _ (by omega) (by omega), by
        rw [rootFrequency_set_later pow t (hmode.trans hset) _ (by omega) (by omega),
          getMeasureRoot_congr s t hroots, getMeasureRoot_congr s t hroots]⟩
    · refine ⟨calculateFrequencyInScale pow (getMeasureRoot s ((n + 1 : ℕ) : ℤ))
        (getMeasureRoot s n) f, ?_, ?_⟩
      · rw [rootFrequency_shift_step pow s hshift _ (by omega) (by omega), hpred, hfs]
        rfl
      · rw [rootFrequency_shift_step pow t (hmode.trans hshift) _ (by omega) (by omega),
          hpred, hft, getMeasureRoot_congr s t hroots, getMeasureRoot_congr s t hroots]
        rfl

/-- C25: drift values influence the tuning only in Shift mode with `hasDrift = true`.
For any two engine states that agree on sequence length, mode, measure roots and current
measure, where either the mode is Set (drift fields arbitrary) or the mode is Shift with
`hasDrift = false` in both (drift frequency arbitrary): the root frequency of every measure
`m` in `[0, 16)` is defined and identical, and, the current measure being inside the 16
slots, `updateFrequencyMap` returns for both with identical frequency maps. -/
theorem C25_unused_drift_ignored (s t : Processor ℝ)
    (hlen : t.sequenceLength = s.sequenceLength)
    (hmode : t.intonationMode = s.intonationMode)
    (hroots : t.measureRoots = s.measureRoots)
    (hcur : t.currentMeasure = s.currentMeasure)
    (hcase : s.intonationMode = IntonationMode.Set ∨
      (s.intonationMode = IntonationMode.Shift ∧ s.hasAccumulatedDrift = false ∧
        t.hasAccumulatedDrift = false)) :
    (∀ m : ℤ, 0 ≤ m → m < 16 →
      ∃ f : ℝ, getCurrentMeasureRootFrequencyForMeasure Real.rpow s m = some f ∧
        getCurrentMeasureRootFrequencyForMeasure Real.rpow t m = some f) ∧
    (0 ≤ s.currentMeasure ∧ s.currentMeasure < 16 →
      ∃ s' t' : Processor ℝ, updateFrequencyMap Real.rpow s = some s' ∧
        updateFrequencyMap Real.rpow t = some t' ∧
        s'.currentFrequencyMap = t'.currentFrequencyMap) := by
  have hall : ∀ m : ℤ, 0 ≤ m → m < 16 →
      ∃ f : ℝ, getCurrentMeasureRootFrequencyForMeasure Real.rpow s m = some f ∧
        getCurrentMeasureRootFrequencyForMeasure Real.rpow t m = some f := by
    intro m h0 h16
    have h := rootFrequency_noDrift_congr Real.rpow s t hmode hroots hcase m.toNat (by omega)
    rwa [Int.toNat_of_nonneg h0] at h
  refine ⟨hall, ?_⟩
  intro hc
  obtain ⟨f, hfs, hft⟩ := hall s.currentMeasure hc.1 hc.2
  rw [← hcur] at hft
  refine ⟨_, _, updateFrequencyMap_eq Real.rpow s hc f hfs,
    updateFrequencyMap_eq Real.rpow t (by rw [hcur]; exact hc) f hft, ?_⟩
  simp only [hcur, getMeasureRoot_congr s t hroots]

/-- C25 at the Set-mode engine after the constructor and the same engine with the drift
fields set to 400 Hz and `true`: measure 0 has the same root frequency in both. -/
theorem C25_unused_drift_ignored_witness :
    ∃ f : ℝ,
      getCurrentMeasureRootFrequencyForMeasure Real.rpow (Processor.initial : Processor ℝ) 0 =
        some f ∧
      getCurrentMeasureRootFrequencyForMeasure Real.rpow
        (setDriftFields (Processor.initial : Processor ℝ) 400 true) 0 = some f :=
  (C25_unused_drift_ignored (Processor.initial : Processor ℝ)
    (setDriftFields (Processor.initial : Processor ℝ) 400 true) rfl rfl rfl rfl
    (Or.inl rfl)).1 0 (by norm_num) (by norm_num)

/-! ## Array-index safety -/

/-- C29, as the code has it: in every state reachable from the initial state through the
setters and per-block updates with non-negative beats positions below `2 ^ 33` (so that the
count of measures passed fits an `int`), `0 ≤ currentMeasure < 16` and
`4 ≤ sequenceLength ≤ 16`, so the reads `measureRoots[currentMeasure]`,
`measureRoots[sequenceLength - 1]` and `measureRoots[m - 1]` for `0 < m ≤ currentMeasure`
are inside the 16-slot array and the frequency derivation of the current measure returns;
the same holds right after any `setSequenceLength`, also one that shrinks the length below
the current measure index. -/
theorem C29_measure_root_index_safety (s : Processor ℝ)
    (h : Reachable Real.rpow (fun b => 0 ≤ b ∧ b < 8589934592) s) :
    (0 ≤ s.currentMeasure ∧ s.currentMeasure < 16) ∧
    (4 ≤ s.sequenceLength ∧ s.sequenceLength ≤ 16) ∧
    (∃ r, s.rootAt s.currentMeasure = some r) ∧
    (∃ r, s.rootAt (s.sequenceLength - 1) = some r) ∧
    (∀ m : ℤ, 0 < m → m ≤ s.currentMeasure → ∃ r, s.rootAt (m - 1) = some r) ∧
    (∃ f, getCurrentMeasureRootFrequency Real.rpow s = some f) ∧
    (∀ length : ℤ,
      (0 ≤ (setSequenceLength s length).currentMeasure ∧
        (setSequenceLength s length).currentMeasure < 16) ∧
      (4 ≤ (setSequenceLength s length).sequenceLength ∧
        (setSequenceLength s length).sequenceLength ≤ 16) ∧
      ∃ f, getCurrentMeasureRootFrequency Real.rpow (setSequenceLength s length) = some f) := by
  have key : ∀ u : Processor ℝ, Reachable Real.rpow (fun b => 0 ≤ b ∧ b < 8589934592) u →
      (0 ≤ u.currentMeasure ∧ u.currentMeasure < 16) ∧
      (4 ≤ u.sequenceLength ∧ u.sequenceLength ≤ 16) ∧
      ∃ f, getCurrentMeasureRootFrequency Real.rpow u = some f := by
    intro u hu
    obtain ⟨hl, hc, -⟩ := reachable_invariant u hu
    refine ⟨hc, by omega, ?_⟩
    obtain ⟨f, hf⟩ := rootFrequency_isSome Real.rpow u (by omega) u.currentMeasure.toNat
      (by omega)
    rw [Int.toNat_of_nonneg hc.1] at hf
    exact ⟨f, by rw [getCurrentMeasureRootFrequency_eq]; exact hf⟩
  obtain ⟨hc, hl, hf⟩ := key s h
  refine ⟨hc, hl, ⟨_, rootAt_of_range s _ hc.1 hc.2⟩,
    ⟨_, rootAt_of_range s _ (by omega) (by omega)⟩, ?_, hf, ?_⟩
  · intro m h0 hm
    exact ⟨_, rootAt_of_range s _ (by omega) (by omega)⟩
  · intro length
    exact key _ (Reachable.setLength s length h)

/-- C29 at the engine set to length 16, played at beat 40 (measure 10) and then shrunk to
length 4: the current measure 10 is above the length, and the derivation still returns. -/
theorem C29_measure_root_index_safety_witness :
    ∃ s1 : Processor ℝ,
      updateCurrentMeasure Real.rpow
        (setSequenceLength (Processor.initial : Processor ℝ) 16) (playingAt 40) = some s1 ∧
      Reachable Real.rpow (fun b => 0 ≤ b ∧ b < 8589934592) (setSequenceLength s1 4) ∧
      (setSequenceLength s1 4).currentMeasure = 10 ∧
      (setSequenceLength s1 4).sequenceLength = 4 ∧
      ∃ f, getCurrentMeasureRootFrequency Real.rpow (setSequenceLength s1 4) = some f := by
  have htrunc : truncToInt ((40 : ℝ) / 4) = 10 :=
    truncToInt_of_nonneg _ _ (by norm_num) (by norm_num) (by decide)
  have hstep : updateCurrentMeasure Real.rpow
      (setSequenceLength (Processor.initial : Processor ℝ) 16) (playingAt 40) =
      some { setSequenceLength (Processor.initial : Processor ℝ) 16 with
        wasPlaying := true, ppqPosition := 40, bpm := 120, previousMeasure := 0,
        currentMeasure := 10 } := by
    rw [updateCurrentMeasure_playingAt Real.rpow _ _ (by decide), if_neg (by decide), htrunc]
    rfl
  have hreach : Reachable Real.rpow (fun b : ℝ => 0 ≤ b ∧ b < 8589934592)
      (setSequenceLength ({ setSequenceLength (Processor.initial : Processor ℝ) 16 with
        wasPlaying := true, ppqPosition := 40, bpm := 120, previousMeasure := 0,
        currentMeasure := 10 } : Processor ℝ) 4) := by
    refine Reachable.setLength _ 4 (Reachable.transport _ _ (playingAt 40)
      (Reachable.setLength _ 16 Reachable.start) ?_ hstep)
    intro ph pos b h1 h2 h3
    have hb := playingAt_beat _ ph pos b h1 h2 h3
    subst hb
    norm_num
  exact ⟨_, hstep, hreach, rfl, rfl, (C29_measure_root_index_safety _ hreach).2.2.2.2.2.1⟩

/-! ## Recursion depth of the root derivation -/

/-- In Set mode one call, without any nested call, computes the root frequency. -/
theorem rootFrequencyWithDepth_set {F : Type} [LinearOrderedField F] (pow : F → F → F)
    (s : Processor F) (hmode : s.intonationMode = IntonationMode.Set) (m : ℤ) :
    rootFrequencyWithDepth pow s 1 m =
      some (getCurrentMeasureRootFrequencyForMeasure pow s m) := by
  rw [rootFrequency_unfold, rootFrequencyWithDepth]
  cases s.rootAt m with
  | none => rfl
  | some r =>
    simp only [hmode, if_true, twelveTet]
    split_ifs <;> rfl

/-- In Shift mode `n + 1` nested calls compute the root frequency of measure `n`. -/
theorem rootFrequencyWithDepth_shift {F : Type} [LinearOrderedField F] (pow : F → F → F)
    (s : Processor F) (hmode : s.intonationMode = IntonationMode.Shift) (n : ℕ) :
    rootFrequencyWithDepth pow s (n + 1) n =
      some (getCurrentMeasureRootFrequencyForMeasure pow s n) := by
  induction n with
  | zero =>
    rw [rootFrequency_unfold, rootFrequencyWithDepth]
    cases s.rootAt ((0 : ℕ) : ℤ) with
    | none => rfl
    | some r =>
      simp only [hmode, reduceCtorEq, if_false, Nat.cast_zero, if_true, twelveTet]
      split_ifs
      · cases s.rootAt (s.sequenceLength - 1) <;> rfl
      · rfl
  | succ n ih =>
    have hne : ((n + 1 : ℕ) : ℤ) ≠ 0 := by omega
    have hpred : ((n + 1 : ℕ) : ℤ) - 1 = n := by omega
    rw [rootFrequency_unfold, rootFrequencyWithDepth]
    cases s.rootAt ((n + 1 : ℕ) : ℤ) with
    | none => rfl
    | some r =>
      simp only [hmode, reduceCtorEq, if_false, hne, hpred, ih]
      cases s.rootAt (n : ℤ) with
      | none => rfl
      | some p =>
        cases getCurrentMeasureRootFrequencyForMeasure pow s n <;> rfl

/-- In Shift mode fewer than `n + 1` nested calls do not reach the base case from a
measure `n` inside the 16 slots. -/
theorem rootFrequencyWithDepth_exceeded {F : Type} [LinearOrderedField F] (pow : F → F → F)
    (s : Processor F) (hmode : s.intonationMode = IntonationMode.Shift) (depth : ℕ) (n : ℕ)
    (hd : depth ≤ n) (hn : n < 16) :
    rootFrequencyWithDepth pow s depth n = none := by
  induction depth generalizing n with
  | zero => rfl
  | succ d ih =>
    have hne : (n : ℤ) ≠ 0 := by omega
    have hpred : (n : ℤ) - 1 = ((n - 1 : ℕ) : ℤ) := by omega
    rw [rootFrequencyWithDepth, rootAt_of_range s n (by omega) (by omega)]
    simp only [hmode, reduceCtorEq, if_false, hne]
    rw [rootAt_of_range s ((n : ℤ) - 1) (by omega) (by omega)]
    simp only [hpred, ih (n - 1) (by omega) (by omega)]

/-- C26, as the code has it: for every measure index `m` with `0 ≤ m < 16`, in both modes
and with or without drift, the root derivation returns: in Set mode within one call, in
Shift mode within exactly `m + 1` nested calls (`m` calls are not enough), and
`m + 1 ≤ 16`; the depth is within `sequenceLength` when `m < sequenceLength`. With a
sequence length between 1 and 16 the value returned is a frequency. -/
theorem C26_recursion_depth {F : Type} [LinearOrderedField F] (pow : F → F → F)
    (s : Processor F) (m : ℤ) (h0 : 0 ≤ m) (h16 : m < 16) :
    (s.intonationMode = IntonationMode.Set →
      rootFrequencyWithDepth pow s 1 m =
        some (getCurrentMeasureRootFrequencyForMeasure pow s m)) ∧
    (s.intonationMode = IntonationMode.Shift →
      rootFrequencyWithDepth pow s (m.toNat + 1) m =
        some (getCurrentMeasureRootFrequencyForMeasure pow s m) ∧
      rootFrequencyWithDepth pow s m.toNat m = none) ∧
    m.toNat + 1 ≤ 16 ∧
    (m < s.sequenceLength → m + 1 ≤ s.sequenceLength) ∧
    (1 ≤ s.sequenceLength ∧ s.sequenceLength ≤ 16 →
      ∃ f, getCurrentMeasureRootFrequencyForMeasure pow s m = some f) := by
  obtain ⟨n, rfl⟩ := Int.eq_ofNat_of_zero_le h0
  have hn : n < 16 := by omega
  refine ⟨fun hmode => rootFrequencyWithDepth_set pow s hmode _, fun hmode => ?_, ?_,
    fun h => by omega, fun hlen => rootFrequency_isSome pow s hlen n hn⟩
  · rw [Int.toNat_ofNat]
    exact ⟨rootFrequencyWithDepth_shift pow s hmode n,
      rootFrequencyWithDepth_exceeded pow s hmode n n le_rfl hn⟩
  · rw [Int.toNat_ofNat]; omega

/-- C26 at measure 3 of the four-measure Shift loop. -/
theorem C26_recursion_depth_witness :
    ((0 : ℤ) ≤ 3 ∧ (3 : ℤ) < 16) ∧
    ((driftExample : Processor ℝ).intonationMode = IntonationMode.Set →
      rootFrequencyWithDepth Real.rpow driftExample 1 3 =
        some (getCurrentMeasureRootFrequencyForMeasure Real.rpow driftExample 3)) ∧
    ((driftExample : Processor ℝ).intonationMode = IntonationMode.Shift →
      rootFrequencyWithDepth Real.rpow driftExample ((3 : ℤ).toNat + 1) 3 =
        some (getCurrentMeasureRootFrequencyForMeasure Real.rpow driftExample 3) ∧
      rootFrequencyWithDepth Real.rpow driftExample (3 : ℤ).toNat 3 = none) ∧
    (3 : ℤ).toNat + 1 ≤ 16 ∧
    ((3 : ℤ) < (driftExample : Processor ℝ).sequenceLength →
      (3 : ℤ) + 1 ≤ (driftExample : Processor ℝ).sequenceLength) ∧
    (1 ≤ (driftExample : Processor ℝ).sequenceLength ∧
        (driftExample : Processor ℝ).sequenceLength ≤ 16 →
      ∃ f, getCurrentMeasureRootFrequencyForMeasure Real.rpow driftExample 3 = some f) :=
  ⟨⟨by decide, by decide⟩,
    C26_recursion_depth Real.rpow driftExample 3 (by decide) (by decide)⟩

/-- C26, counterexample: in the Shift-mode engine of sequence length 4 the derivation for
measure 10 does not return within `sequenceLength = 4` nested calls, nor within 10; it
returns a frequency within 11, and `10 + 1 ≤ sequenceLength` fails. -/
theorem C26_depth_exceeds_sequence_length :
    (driftExample : Processor ℝ).intonationMode = IntonationMode.Shift ∧
    (driftExample : Processor ℝ).sequenceLength = 4 ∧
    rootFrequencyWithDepth Real.rpow (driftExample : Processor ℝ) 4 10 = none ∧
    rootFrequencyWithDepth Real.rpow (driftExample : Processor ℝ) 10 10 = none ∧
    (∃ f, rootFrequencyWithDepth Real.rpow (driftExample : Processor ℝ) 11 10 =
      some (some f)) ∧
    ¬ ((10 : ℤ) + 1 ≤ (driftExample : Processor ℝ).sequenceLength) := by
  have hmode : (driftExample : Processor ℝ).intonationMode = IntonationMode.Shift := rfl
  have hlen : (driftExample : Processor ℝ).sequenceLength = 4 := rfl
  refine ⟨hmode, hlen, ?_, ?_, ?_, ?_⟩
  · exact rootFrequencyWithDepth_exceeded Real.rpow driftExample hmode 4 10 (by decide)
      (by decide)
  · exact rootFrequencyWithDepth_exceeded Real.rpow driftExample hmode 10 10 (by decide)
      (by decide)
  · obtain ⟨f, hf⟩ := rootFrequency_isSome Real.rpow (driftExample : Processor ℝ)
      (by rw [hlen]; decide) 10 (by decide)
    refine ⟨f, ?_⟩
    have h := rootFrequencyWithDepth_shift Real.rpow (driftExample : Processor ℝ) hmode 10
    rw [hf] at h
    exact h
  · rw [hlen]; decide

/-! ## The query of the user interface (`getFrequencyForNote`) -/

/-- The inline block with its copy of the table is `calculateFrequencyInScale`. -/
theorem inlineRatio_eq {F : Type} [LinearOrderedField F] (pow : F → F → F)
    (noteToPlay scaleRoot : ℤ) (f : F) :
    f * inlineRatio pow
        [1, 16 / 15, 9 / 8, 6 / 5, 5 / 4, 4 / 3, 45 / 32, 3 / 2, 8 / 5, 5 / 3, 9 / 5, 15 / 8]
        (noteToPlay - scaleRoot) =
      calculateFrequencyInScale pow noteToPlay scaleRoot f := rfl

/-- One turn of the loop inside the 16 slots. -/
theorem getFrequencyForNoteStep_eq {F : Type} [LinearOrderedField F] (pow : F → F → F)
    (s : Processor F) (f : F) (m : ℕ) (h0 : 0 < m) (h16 : m < 16) :
    getFrequencyForNoteStep pow s f m =
      some (calculateFrequencyInScale pow (getMeasureRoot s m) (getMeasureRoot s ((m : ℤ) - 1))
        f) := by
  rw [getFrequencyForNoteStep, rootAt_of_range s ((m : ℤ) - 1) (by omega) (by omega),
    rootAt_of_range s m (by omega) (by omega)]
  simp only [inlineRatio_eq]

/-- In Shift mode the loop, started from the root frequency of measure 0, ends with the
root frequency of measure `n` of the recursive derivation. -/
theorem getFrequencyForNote_loop {F : Type} [LinearOrderedField F] (pow : F → F → F)
    (s : Processor F) (hmode : s.intonationMode = IntonationMode.Shift) (f0 : F)
    (hf0 : getCurrentMeasureRootFrequencyForMeasure pow s 0 = some f0)
    (n : ℕ) (hn : n < 16) :
    (List.range' 1 n).foldlM (getFrequencyForNoteStep pow s) f0 =
      getCurrentMeasureRootFrequencyForMeasure pow s n := by
  induction n with
  | zero => simpa using hf0.symm
  | succ n ih =>
    have hstep := rootFrequency_shift_step pow s hmode ((n + 1 : ℕ) : ℤ) (by omega) (by omega)
    have hpred : ((n + 1 : ℕ) : ℤ) - 1 = n := by omega
    rw [List.range'_1_concat, List.foldlM_append, ih (by omega), hstep, hpred]
    cases getCurrentMeasureRootFrequencyForMeasure pow s n with
    | none => rfl
    | some f =>
      have h1 : 1 + n = n + 1 := by omega
      simp only [Option.some_bind, List.foldlM_cons, List.foldlM_nil, h1,
        getFrequencyForNoteStep_eq pow s f (n + 1) (by omega) (by omega), hpred,
        Option.map_some', Option.bind_eq_bind]
      rfl

/-- The audio path's `midiNoteToFrequency` in terms of the recursive derivation. -/
theorem midiNoteToFrequency_map {F : Type} [LinearOrderedField F] (pow : F → F → F)
    (s : Processor F) (h0 : 0 ≤ s.currentMeasure) (h16 : s.currentMeasure < 16)
    (midiNote : ℤ) :
    midiNoteToFrequency pow s midiNote =
      (getCurrentMeasureRootFrequencyForMeasure pow s s.currentMeasure).map
        (calculateFrequencyInScale pow midiNote (getMeasureRoot s s.currentMeasure)) := by
  rw [midiNoteToFrequency, getCurrentMeasureRootFrequency_eq,
    rootAt_of_range s s.currentMeasure h0 h16]
  cases getCurrentMeasureRootFrequencyForMeasure pow s s.currentMeasure <;> rfl

/-- The query of the user interface in terms of the recursive derivation. -/
theorem getFrequencyForNote_map {F : Type} [LinearOrderedField F] (pow : F → F → F)
    (s : Processor F) (h0 : 0 ≤ s.currentMeasure) (h16 : s.currentMeasure < 16)
    (midiNote : ℤ) :
    getFrequencyForNote pow s midiNote =
      (getCurrentMeasureRootFrequencyForMeasure pow s s.currentMeasure).map
        (calculateFrequencyInScale pow midiNote (getMeasureRoot s s.currentMeasure)) := by
  rw [getFrequencyForNote, rootAt_of_range s s.currentMeasure h0 h16]
  simp only [inlineRatio_eq]
  cases hmode : s.intonationMode with
  | Set =>
    simp only [if_true]
    by_cases hz : s.currentMeasure = 0
    · rw [if_pos hz, hz, rootFrequency_zero_set pow s hmode]
      rfl
    · rw [if_neg hz, rootFrequency_set_later pow s hmode s.currentMeasure (by omega) h16,
        getMeasureRoot_zero]
      rfl
  | Shift =>
    simp only [reduceCtorEq, if_false]
    by_cases hz : s.currentMeasure = 0
    · cases hd : s.hasAccumulatedDrift with
      | true =>
        simp only [hz, true_and, if_true]
        rw [rootFrequency_zero_drift pow s hmode hd]
        cases s.rootAt (s.sequenceLength - 1) <;> rfl
      | false =>
        simp only [hz, true_and, Bool.false_eq_true, if_false, if_true]
        rw [rootFrequency_zero_noDrift pow s hmode hd]
        rfl
    · obtain ⟨n, hn⟩ := Int.eq_ofNat_of_zero_le h0
      have hbase : (if s.hasAccumulatedDrift = true then
            match s.rootAt (s.sequenceLength - 1) with
            | none => none
            | some lastMeasureRoot =>
              some (calculateFrequencyInScale pow (s.measureRoots 0) lastMeasureRoot
                s.accumulatedDriftFrequency)
          else some (CONCERT_A_FREQ * pow 2 (((s.measureRoots 0 - 69 : ℤ) : F) / 12))) =
          getCurrentMeasureRootFrequencyForMeasure pow s 0 := by
        cases hd : s.hasAccumulatedDrift with
        | true =>
          rw [rootFrequency_zero_drift pow s hmode hd, getMeasureRoot_zero]
          cases s.rootAt (s.sequenceLength - 1) <;> rfl
        | false =>
          rw [rootFrequency_zero_noDrift pow s hmode hd, getMeasureRoot_zero]
          rfl
      simp only [hz, false_and, if_false]
      rw [hbase]
      cases hf0 : getCurrentMeasureRootFrequencyForMeasure pow s 0 with
      | none =>
        have hnone : getCurrentMeasureRootFrequencyForMeasure pow s s.currentMeasure = none := by
          rw [hn]
          have haux : ∀ k : ℕ, k < 16 →
              getCurrentMeasureRootFrequencyForMeasure pow s k = none := by
            intro k
            induction k with
            | zero => intro _; exact hf0
            | succ k ih =>
              intro hk
              have hpred : ((k + 1 : ℕ) : ℤ) - 1 = k := by omega
              rw [rootFrequency_shift_step pow s hmode ((k + 1 : ℕ) : ℤ) (by omega) (by omega),
                hpred, ih (by omega)]
              rfl
          exact haux n (by omega)
        rw [hnone]
        rfl
      | some f0 =>
        have hloop := getFrequencyForNote_loop pow s hmode f0 hf0 n (by omega)
        have htoNat : s.currentMeasure.toNat = n := by omega
        simp only [htoNat, hloop, ← hn]
        cases getCurrentMeasureRootFrequencyForMeasure pow s s.currentMeasure <;> rfl

/-- C27: for every engine state with `0 ≤ currentMeasure < 16`, every mode, every drift
state, every choice of measure roots and every MIDI note, `getFrequencyForNote` returns
what `midiNoteToFrequency` returns; with a sequence length between 1 and 16 that value is
a frequency. -/
theorem C27_gui_query_agrees {F : Type} [LinearOrderedField F] (pow : F → F → F)
    (s : Processor F) (h0 : 0 ≤ s.currentMeasure) (h16 : s.currentMeasure < 16)
    (midiNote : ℤ) :
    getFrequencyForNote pow s midiNote = midiNoteToFrequency pow s midiNote ∧
    (1 ≤ s.sequenceLength ∧ s.sequenceLength ≤ 16 →
      ∃ f, getFrequencyForNote pow s midiNote = some f) := by
  refine ⟨?_, fun hlen => ?_⟩
  · rw [getFrequencyForNote_map pow s h0 h16, midiNoteToFrequency_map pow s h0 h16]
  · obtain ⟨n, hn⟩ := Int.eq_ofNat_of_zero_le h0
    obtain ⟨f, hf⟩ := rootFrequency_isSome pow s hlen n (by omega)
    rw [getFrequencyForNote_map pow s h0 h16, hn, hf]
    exact ⟨_, rfl⟩

/-- C27 in the last measure of the Shift loop with a drift carried over, for the note
72. -/
theorem C27_gui_query_agrees_witness :
    ((0 : ℤ) ≤ (lastMeasureExample : Processor ℝ).currentMeasure ∧
      (lastMeasureExample : Processor ℝ).currentMeasure < 16) ∧
    getFrequencyForNote Real.rpow (lastMeasureExample : Processor ℝ) 72 =
      midiNoteToFrequency Real.rpow lastMeasureExample 72 ∧
    (1 ≤ (lastMeasureExample : Processor ℝ).sequenceLength ∧
        (lastMeasureExample : Processor ℝ).sequenceLength ≤ 16 →
      ∃ f, getFrequencyForNote Real.rpow (lastMeasureExample : Processor ℝ) 72 = some f) :=
  ⟨⟨by decide, by decide⟩,
    C27_gui_query_agrees Real.rpow lastMeasureExample (by decide) (by decide) 72⟩

/-! ## The pitch-wheel value handed to the sample backend -/

/-- The conversion to `int` of a value between two non-negative integers inside the range
of `int`. -/
theorem truncToInt_bracket {F : Type} [LinearOrderedField F] [FloorRing F] (x : F)
    (lo hi : ℤ) (h0 : 0 ≤ lo) (hint : hi ≤ 2147483647) (h1 : (lo : F) ≤ x)
    (h2 : x < (hi : F) + 1) : lo ≤ truncToInt x ∧ truncToInt x ≤ hi := by
  have hx : (0 : F) ≤ x := le_trans (by exact_mod_cast h0) h1
  have hfl : lo ≤ ⌊x⌋ := Int.le_floor.mpr h1
  have hfh : ⌊x⌋ < hi + 1 := by
    rw [Int.floor_lt]
    push_cast
    exact h2
  have hrange : -2147483648 ≤ ⌊x⌋ ∧ ⌊x⌋ ≤ 2147483647 := ⟨by omega, by omega⟩
  simp only [truncToInt, hx, if_true, hrange, and_self]
  exact ⟨hfl, by omega⟩

/-- The `float` product `(pitchBend + 1.0f) * 8192.0f` does not pass the product of a
`float` above `pitchBend + 1`. -/
theorem wheelFloat_le {F : Type} [LinearOrderedField F] [FloorRing F] (b : F) (n k : ℤ)
    (hn : 8388608 ≤ n ∧ n < 16777216) (h : b + 1 ≤ (n : F) * 2 ^ k) :
    toFloat (toFloat (b + 1) * 8192) ≤ (n : F) * 2 ^ (k + 13) := by
  have h1 := toFloat_le (b + 1) n k hn h
  apply toFloat_le _ n (k + 13) hn
  rw [zpow_add₀ (by norm_num : (2 : F) ≠ 0)]
  have h13 : (2 : F) ^ (13 : ℤ) = 8192 := by norm_num
  rw [h13, ← mul_assoc]
  exact mul_le_mul_of_nonneg_right h1 (by norm_num)

/-- The `float` product `(pitchBend + 1.0f) * 8192.0f` does not pass the product of a
`float` below `pitchBend + 1`. -/
theorem le_wheelFloat {F : Type} [LinearOrderedField F] [FloorRing F] (b : F) (n k : ℤ)
    (hn : 8388608 ≤ n ∧ n < 16777216) (h : (n : F) * 2 ^ k ≤ b + 1) :
    (n : F) * 2 ^ (k + 13) ≤ toFloat (toFloat (b + 1) * 8192) := by
  have h1 := le_toFloat (b + 1) n k hn h
  apply le_toFloat _ n (k + 13) hn
  rw [zpow_add₀ (by norm_num : (2 : F) ≠ 0)]
  have h13 : (2 : F) ^ (13 : ℤ) = 8192 := by norm_num
  rw [h13, ← mul_assoc]
  exact mul_le_mul_of_nonneg_right h1 (by norm_num)

/-- The `float` product `(pitchBend + 1.0f) * 8192.0f` of a bend from -1 upwards is not
negative. -/
theorem wheelFloat_nonneg {F : Type} [LinearOrderedField F] [FloorRing F] (b : F)
    (h : -1 ≤ b) : 0 ≤ toFloat (toFloat (b + 1) * 8192) :=
  toFloat_nonneg _ (mul_nonneg (toFloat_nonneg _ (by linarith)) (by norm_num))

/-- For a bend from -1 up to `1 - 2 ^ (-23)`, the second largest `float` below 1, the
pitch-wheel value lies in `0 .. 16383`. -/
theorem pitchWheelValue_range {F : Type} [LinearOrderedField F] [FloorRing F] (b : F)
    (h1 : -1 ≤ b) (h2 : b ≤ 1 - 1 / 8388608) :
    0 ≤ pitchWheelValue b ∧ pitchWheelValue b ≤ 16383 := by
  have hup := wheelFloat_le b 16777215 (-23) (by decide) (by norm_num; linarith)
  have hval : ((16777215 : ℤ) : F) * 2 ^ ((-23 : ℤ) + 13) = 16384 - 1 / 1024 := by norm_num
  rw [hval] at hup
  unfold pitchWheelValue
  exact truncToInt_bracket _ 0 16383 (by decide) (by decide)
    (by rw [Int.cast_zero]; exact wheelFloat_nonneg b h1) (by push_cast; linarith)

/-- For a bend in `[0, 1/16384]` the pitch-wheel value is 8192. -/
theorem pitchWheelValue_center {F : Type} [LinearOrderedField F] [FloorRing F] (b : F)
    (h1 : 0 ≤ b) (h2 : b ≤ 1 / 16384) : pitchWheelValue b = 8192 := by
  have hup := wheelFloat_le b 8389120 (-23) (by decide) (by norm_num; linarith)
  have hlo := le_wheelFloat b 8388608 (-23) (by decide) (by norm_num; linarith)
  have hhi : ((8389120 : ℤ) : F) * 2 ^ ((-23 : ℤ) + 13) = 8192 + 1 / 2 := by norm_num
  have hlow : ((8388608 : ℤ) : F) * 2 ^ ((-23 : ℤ) + 13) = 8192 := by norm_num
  rw [hhi] at hup
  rw [hlow] at hlo
  unfold pitchWheelValue
  have := truncToInt_bracket (toFloat (toFloat (b + 1) * 8192)) 8192 8192 (by decide)
    (by decide) (by push_cast; exact hlo) (by push_cast; linarith)
  omega

/-- The bend 1, the upper end of the clamp, gives the pitch-wheel value 16384. -/
theorem pitchWheelValue_one {F : Type} [LinearOrderedField F] [FloorRing F] :
    pitchWheelValue (1 : F) = 16384 := by
  have hup := wheelFloat_le (1 : F) 8388608 (-22) (by decide) (by norm_num)
  have hlo := le_wheelFloat (1 : F) 8388608 (-22) (by decide) (by norm_num)
  have h16384 : ((8388608 : ℤ) : F) * 2 ^ ((-22 : ℤ) + 13) = 16384 := by norm_num
  rw [h16384] at hup hlo
  unfold pitchWheelValue
  have := truncToInt_bracket (toFloat (toFloat ((1 : F) + 1) * 8192)) 16384 16384 (by decide)
    (by decide) (by push_cast; exact hlo) (by push_cast; linarith)
  omega

/-- The bend -1, the lower end of the clamp, gives the pitch-wheel value 0. -/
theorem pitchWheelValue_neg_one {F : Type} [LinearOrderedField F] [FloorRing F] :
    pitchWheelValue (-1 : F) = 0 := by
  have h0 : toFloat (toFloat ((-1 : F) + 1) * 8192) = 0 := by
    rw [neg_add_cancel, toFloat_zero, zero_mul, toFloat_zero]
  unfold pitchWheelValue
  rw [h0]
  exact truncToInt_of_nonneg _ 0 le_rfl ⟨by norm_num, by norm_num⟩ (by decide)

/-- Rounding to an integer goes up to `m + 1` from the tie above an odd `m` onwards. -/
theorem roundTiesEven_up {F : Type} [LinearOrderedField F] [FloorRing F] (y : F) (m : ℤ)
    (hodd : m % 2 = 1) (h1 : (m : F) + 1 / 2 ≤ y) (h2 : y < (m : F) + 1) :
    roundTiesEven y = m + 1 := by
  have hfloor : ⌊y⌋ = m := Int.floor_eq_iff.mpr ⟨by linarith, h2⟩
  unfold roundTiesEven
  simp only [hfloor]
  split_ifs with ha hb hc
  · linarith
  · rfl
  · omega
  · rfl

/-- The value of `toFloat` in a known binade. -/
theorem toFloat_binade {F : Type} [LinearOrderedField F] [FloorRing F] (z : F) (e : ℤ)
    (h1 : (2 : F) ^ e ≤ z) (h2 : z < (2 : F) ^ (e + 1)) :
    toFloat z = (roundTiesEven (z / 2 ^ (e - 23)) : F) * 2 ^ (e - 23) := by
  have hz : 0 < z := lt_of_lt_of_le (zpow_pos (by norm_num) e) h1
  have hlog : Int.log 2 z = e := by
    have ha := (log_two_compare z hz e).1 h1
    have hb := (log_two_compare z hz (e + 1)).2 h2
    omega
  rw [toFloat_of_pos z hz, hlog]

/-- A bend from the largest `float` below 1 upwards gives the pitch-wheel value 16384: the
`float` sum `pitchBend + 1.0f` is rounded to 2. -/
theorem pitchWheelValue_near_one {F : Type} [LinearOrderedField F] [FloorRing F] (b : F)
    (h1 : 1 - 1 / 16777216 ≤ b) (h2 : b ≤ 1) : pitchWheelValue b = 16384 := by
  have htwo : toFloat (b + 1) = 2 := by
    rcases eq_or_lt_of_le h2 with h | h
    · have hf := toFloat_of_float (F := F) 8388608 (-22) (by decide)
      have hv : ((8388608 : ℤ) : F) * 2 ^ (-22 : ℤ) = 2 := by norm_num
      rw [hv] at hf
      rw [h]
      norm_num
      exact hf
    · have hb := toFloat_binade (b + 1) 0 (by norm_num; linarith) (by norm_num; linarith)
      have hu : (2 : F) ^ ((0 : ℤ) - 23) = 1 / 8388608 := by norm_num
      rw [hu] at hb
      have hr : roundTiesEven ((b + 1) / (1 / 8388608)) = 16777215 + 1 := by
        apply roundTiesEven_up _ 16777215 (by decide)
        · rw [le_div_iff₀ (by norm_num)]
          push_cast
          linarith
        · rw [div_lt_iff₀ (by norm_num)]
          push_cast
          linarith
      rw [hb, hr]
      norm_num
  have hf := toFloat_of_float (F := F) 8388608 (-9) (by decide)
  have hv : ((8388608 : ℤ) : F) * 2 ^ (-9 : ℤ) = 2 * 8192 := by norm_num
  rw [hv] at hf
  unfold pitchWheelValue
  rw [htwo, hf]
  exact truncToInt_of_nonneg _ 16384 (by norm_num) ⟨by norm_num, by norm_num⟩ (by decide)

/-- A negative bend above `-2 ^ (-25)` gives the pitch-wheel value 8192: the `float` sum
`pitchBend + 1.0f` is rounded to 1. -/
theorem pitchWheelValue_tiny_negative {F : Type} [LinearOrderedField F] [FloorRing F] (b : F)
    (h1 : -(1 / 33554432) < b) (h2 : b < 0) : pitchWheelValue b = 8192 := by
  have hone : toFloat (b + 1) = 1 := by
    have hb := toFloat_binade (b + 1) (-1) (by norm_num; linarith) (by norm_num; linarith)
    have hu : (2 : F) ^ ((-1 : ℤ) - 23) = 1 / 16777216 := by norm_num
    rw [hu] at hb
    have hr : roundTiesEven ((b + 1) / (1 / 16777216)) = 16777215 + 1 := by
      apply roundTiesEven_up _ 16777215 (by decide)
      · rw [le_div_iff₀ (by norm_num)]
        push_cast
        linarith
      · rw [div_lt_iff₀ (by norm_num)]
        push_cast
        linarith
    rw [hb, hr]
    norm_num
  have hf := toFloat_of_float (F := F) 8388608 (-10) (by decide)
  have hv : ((8388608 : ℤ) : F) * 2 ^ (-10 : ℤ) = 1 * 8192 := by norm_num
  rw [hv] at hf
  unfold pitchWheelValue
  rw [hone, hf]
  exact truncToInt_of_nonneg _ 8192 (by norm_num) ⟨by norm_num, by norm_num⟩ (by decide)

/-- For a bend from `-2 ^ (-26)` to `2 ^ (-14)` the pitch-wheel value is 8192. -/
theorem pitchWheelValue_unbent {F : Type} [LinearOrderedField F] [FloorRing F] (b : F)
    (h1 : -(1 / 67108864) ≤ b) (h2 : b ≤ 1 / 16384) : pitchWheelValue b = 8192 := by
  rcases lt_or_le b 0 with h | h
  · exact pitchWheelValue_tiny_negative b (by linarith) h
  · exact pitchWheelValue_center b h h2

/-- The clamped bend against a `float` above the unrounded bend, against the negative of
a `float` below it, and against 0. -/
theorem bend_bracket {F : Type} [LinearOrderedField F] [FloorRing F] (x : F) :
    (∀ n k : ℤ, 8388608 ≤ n ∧ n < 16777216 → x ≤ (n : F) * 2 ^ k →
      jlimit (-1) 1 (toFloat x) ≤ (n : F) * 2 ^ k) ∧
    (∀ n k : ℤ, 8388608 ≤ n ∧ n < 16777216 → -((n : F) * 2 ^ k) ≤ x →
      -((n : F) * 2 ^ k) ≤ jlimit (-1) 1 (toFloat x)) ∧
    (0 ≤ x → 0 ≤ jlimit (-1) 1 (toFloat x)) := by
  have hfloat : ∀ n k : ℤ, 8388608 ≤ n ∧ n < 16777216 → (0 : F) ≤ (n : F) * 2 ^ k := by
    intro n k hn
    have hn23 : (8388608 : F) ≤ n := by exact_mod_cast hn.1
    exact mul_nonneg (by linarith) (le_of_lt (zpow_pos (by norm_num) k))
  refine ⟨?_, ?_, ?_⟩
  · intro n k hn h
    have h1 := toFloat_le x n k hn h
    have hpos := hfloat n k hn
    unfold jlimit
    split_ifs with ha hb
    · linarith
    · linarith
    · exact h1
  · intro n k hn h
    have h1 := toFloat_le (-x) n k hn (by linarith)
    rw [toFloat_neg] at h1
    have hpos := hfloat n k hn
    unfold jlimit
    split_ifs with ha hb
    · linarith
    · linarith
    · linarith
  · intro h
    have h1 := toFloat_nonneg x h
    unfold jlimit
    split_ifs with ha hb
    · linarith
    · norm_num
    · exact h1

/-- The pitch-wheel value of a positive target from `s * 2 ^ (-1 / 402653184)` up to
`s * 2 ^ (1 / 98304)`, with the note's 12-TET frequency `s = 440 * 2 ^ ((note - 69) / 12)`,
is 8192. -/
theorem pitchWheel_center (note : ℤ) (t : ℝ) (ht : 0 < t)
    (hlo : 440 * (2 : ℝ) ^ (((note : ℝ) - 69) / 12) * (2 : ℝ) ^ (-(1 : ℝ) / 402653184) ≤ t)
    (hhi : t ≤ 440 * (2 : ℝ) ^ (((note : ℝ) - 69) / 12) * (2 : ℝ) ^ ((1 : ℝ) / 98304)) :
    pitchWheelValue (calculatePitchBendForFrequency Real.rpow (Real.logb 2) note t) = 8192 := by
  have hs := twelveTetFrequency_pos note
  have hq : 0 < t / (440 * (2 : ℝ) ^ (((note : ℝ) - 69) / 12)) := div_pos ht hs
  rw [calculatePitchBendForFrequency_eq]
  generalize 440 * (2 : ℝ) ^ (((note : ℝ) - 69) / 12) = s at hs hq hlo hhi ⊢
  have hL0 : -(1 : ℝ) / 402653184 ≤ Real.logb 2 (t / s) := by
    rw [Real.le_logb_iff_rpow_le (by norm_num) hq, le_div_iff₀ hs]
    linarith
  have hL1 : Real.logb 2 (t / s) ≤ 1 / 98304 := by
    rw [Real.logb_le_iff_le_rpow (by norm_num) hq, div_le_iff₀ hs]
    linarith
  have hup : ((8388608 : ℤ) : ℝ) * 2 ^ (-37 : ℤ) = 1 / 16384 := by norm_num
  have hdown : ((8388608 : ℤ) : ℝ) * 2 ^ (-49 : ℤ) = 1 / 67108864 := by norm_num
  apply pitchWheelValue_unbent
  · rw [← hdown]
    apply (bend_bracket _).2.1 8388608 (-49) (by decide)
    rw [hdown]
    linarith
  · rw [← hup]
    apply (bend_bracket _).1 8388608 (-37) (by decide)
    rw [hup]
    linarith

/-- A positive frequency lies in the interval of targets around it that get the
pitch-wheel value 8192. -/
theorem center_interval_self (s : ℝ) (hs : 0 < s) :
    s * (2 : ℝ) ^ (-(1 : ℝ) / 402653184) ≤ s ∧ s ≤ s * (2 : ℝ) ^ ((1 : ℝ) / 98304) := by
  have h1 : (1 : ℝ) ≤ (2 : ℝ) ^ ((1 : ℝ) / 98304) :=
    Real.one_le_rpow (by norm_num) (by norm_num)
  have h2 : (2 : ℝ) ^ (-(1 : ℝ) / 402653184) ≤ (2 : ℝ) ^ (0 : ℝ) :=
    Real.rpow_le_rpow_of_exponent_le (by norm_num) (by norm_num)
  rw [Real.rpow_zero] at h2
  constructor <;> nlinarith

/-- The pitch-wheel value of a positive target at most `2 - 2 ^ (-22)` semitones above
the note's 12-TET frequency lies in `0 .. 16383`. -/
theorem pitchWheel_range_below_clamp (note : ℤ) (t : ℝ) (ht : 0 < t)
    (h : t ≤ 440 * (2 : ℝ) ^ (((note : ℝ) - 69) / 12) *
      (2 : ℝ) ^ ((2 - 1 / 4194304 : ℝ) / 12)) :
    0 ≤ pitchWheelValue (calculatePitchBendForFrequency Real.rpow (Real.logb 2) note t) ∧
      pitchWheelValue (calculatePitchBendForFrequency Real.rpow (Real.logb 2) note t) ≤
        16383 := by
  have hs := twelveTetFrequency_pos note
  have hq : 0 < t / (440 * (2 : ℝ) ^ (((note : ℝ) - 69) / 12)) := div_pos ht hs
  rw [calculatePitchBendForFrequency_eq]
  generalize 440 * (2 : ℝ) ^ (((note : ℝ) - 69) / 12) = s at hs hq h ⊢
  have hL1 : Real.logb 2 (t / s) ≤ (2 - 1 / 4194304 : ℝ) / 12 := by
    rw [Real.logb_le_iff_le_rpow (by norm_num) hq, div_le_iff₀ hs]
    linarith
  have hfloat : ((16777214 : ℤ) : ℝ) * 2 ^ (-24 : ℤ) = 1 - 1 / 8388608 := by norm_num
  apply pitchWheelValue_range _ (jlimit_unit _).1.1
  rw [← hfloat]
  apply (bend_bracket _).1 16777214 (-24) (by decide)
  rw [hfloat]
  linarith

/-- C30, as the code has it: for every MIDI note with 12-TET frequency
`s = 440 * 2 ^ ((note - 69) / 12)` and every target frequency `t > 0`, the pitch-wheel
value `int((bend + 1) * 8192)` with `bend = calculatePitchBendForFrequency (note, t)`,
computed in `float`, lies in `0 .. 16383` when `t` is at most `2 - 2 ^ (-22)` semitones
above `s` (`t ≤ s * 2 ^ ((2 - 2 ^ (-22)) / 12)`); it is 8192 for every target from
`s * 2 ^ (-1 / 402653184)` up to `s * 2 ^ (1 / 98304)`, and so for `t = s`. -/
theorem C30_pitch_wheel_range (note : ℤ) (t : ℝ) (ht : 0 < t) :
    (t ≤ 440 * (2 : ℝ) ^ (((note : ℝ) - 69) / 12) *
        (2 : ℝ) ^ ((2 - 1 / 4194304 : ℝ) / 12) →
      0 ≤ pitchWheelValue (calculatePitchBendForFrequency Real.rpow (Real.logb 2) note t) ∧
      pitchWheelValue (calculatePitchBendForFrequency Real.rpow (Real.logb 2) note t) ≤
        16383) ∧
    (440 * (2 : ℝ) ^ (((note : ℝ) - 69) / 12) * (2 : ℝ) ^ (-(1 : ℝ) / 402653184) ≤ t ∧
        t ≤ 440 * (2 : ℝ) ^ (((note : ℝ) - 69) / 12) * (2 : ℝ) ^ ((1 : ℝ) / 98304) →
      pitchWheelValue (calculatePitchBendForFrequency Real.rpow (Real.logb 2) note t) =
        8192) ∧
    pitchWheelValue (calculatePitchBendForFrequency Real.rpow (Real.logb 2) note
      (440 * (2 : ℝ) ^ (((note : ℝ) - 69) / 12))) = 8192 := by
  have hs := twelveTetFrequency_pos note
  exact ⟨pitchWheel_range_below_clamp note t ht,
    fun h => pitchWheel_center note t ht h.1 h.2,
    pitchWheel_center note _ hs (center_interval_self _ hs).1 (center_interval_self _ hs).2⟩

/-- C30 at note 69 (12-TET 440 Hz) and the target 436 Hz: the value is in `0 .. 16383`. -/
theorem C30_pitch_wheel_range_witness :
    (0 : ℝ) < 436 ∧
    (436 : ℝ) ≤ 440 * (2 : ℝ) ^ ((((69 : ℤ) : ℝ) - 69) / 12) *
      (2 : ℝ) ^ ((2 - 1 / 4194304 : ℝ) / 12) ∧
    0 ≤ pitchWheelValue (calculatePitchBendForFrequency Real.rpow (Real.logb 2) 69 436) ∧
    pitchWheelValue (calculatePitchBendForFrequency Real.rpow (Real.logb 2) 69 436) ≤
      16383 := by
  have hle : (436 : ℝ) ≤ 440 * (2 : ℝ) ^ ((((69 : ℤ) : ℝ) - 69) / 12) *
      (2 : ℝ) ^ ((2 - 1 / 4194304 : ℝ) / 12) := by
    have he : (((69 : ℤ) : ℝ) - 69) / 12 = 0 := by norm_num
    have h1 : (1 : ℝ) ≤ (2 : ℝ) ^ ((2 - 1 / 4194304 : ℝ) / 12) :=
      Real.one_le_rpow (by norm_num) (by norm_num)
    rw [he, Real.rpow_zero]
    linarith
  exact ⟨by norm_num, hle, (C30_pitch_wheel_range 69 436 (by norm_num)).1 hle⟩

/-- C30, counterexample: for note 69 (12-TET 440 Hz) the target `440 * 2 ^ (1 / 98304)`,
which is positive and not the 12-TET frequency, also gets the pitch-wheel value 8192. -/
theorem C30_unbent_off_twelve_tet :
    (0 : ℝ) < 440 * (2 : ℝ) ^ ((1 : ℝ) / 98304) ∧
    440 * (2 : ℝ) ^ ((1 : ℝ) / 98304) ≠ 440 * (2 : ℝ) ^ ((((69 : ℤ) : ℝ) - 69) / 12) ∧
    pitchWheelValue (calculatePitchBendForFrequency Real.rpow (Real.logb 2) 69
      (440 * (2 : ℝ) ^ ((1 : ℝ) / 98304))) = 8192 := by
  have he : (((69 : ℤ) : ℝ) - 69) / 12 = 0 := by norm_num
  have h1 : (1 : ℝ) < (2 : ℝ) ^ ((1 : ℝ) / 98304) :=
    Real.one_lt_rpow (by norm_num) (by norm_num)
  have hpos : (0 : ℝ) < 440 * (2 : ℝ) ^ ((1 : ℝ) / 98304) := by linarith
  have hint := center_interval_self 440 (by norm_num)
  refine ⟨hpos, ?_, ?_⟩
  · rw [he, Real.rpow_zero]
    intro h
    linarith
  · apply pitchWheel_center 69 _ hpos
    · rw [he, Real.rpow_zero]
      linarith
    · rw [he, Real.rpow_zero]
      linarith

/-! ## The pitch wheel of a channel with several notes -/

/-- The pitch wheel after two lists of calls. -/
theorem pitchWheelFrom_append {F : Type} (w : Option ℤ) (l1 l2 : List (TsfCall F)) (c : ℤ) :
    pitchWheelFrom w (l1 ++ l2) c = pitchWheelFrom (pitchWheelFrom w l1 c) l2 c := by
  simp [pitchWheelFrom, List.foldl_append]

/-- The pitch wheel after the three calls of `noteOn`. -/
theorem pitchWheelFrom_noteOn {F : Type} (w : Option ℤ) (ch v preset key : ℤ) (vel : F)
    (c : ℤ) :
    pitchWheelFrom w [TsfCall.channelSetPitchwheel ch v,
      TsfCall.channelSetPresetindex ch preset, TsfCall.channelNoteOn ch key vel] c =
      if ch = c then some v else w := rfl

/-- The first loop of `updateFrequencyMapping` keeps a note's channel and number, and it
either leaves the note as it is or marks it. -/
theorem markForRetune_cases {F : Type} [LinearOrderedField F] (m : ℤ → Option F)
    (n : ActiveNote F) :
    (markForRetune m n).midiChannel = n.midiChannel ∧
    (markForRetune m n = n ∨ (markForRetune m n).needsRetune = true) := by
  unfold markForRetune
  split
  · split_ifs
    · exact ⟨rfl, Or.inr rfl⟩
    · exact ⟨rfl, Or.inl rfl⟩
  · exact ⟨rfl, Or.inl rfl⟩

/-- The notes after the second loop of `updateFrequencyMapping`: the same notes with the
mark cleared. -/
theorem applyRetune_notes {F : Type} [LinearOrderedField F] [FloorRing F] (pow : F → F → F)
    (log2 : F → F) (l : List (ActiveNote F)) :
    (applyRetune pow log2 l).2 = l.map (fun n => { n with needsRetune := false }) := by
  induction l with
  | nil => rfl
  | cons n rest ih =>
    cases hn : n.needsRetune with
    | true => simp only [applyRetune, hn, if_true, List.map_cons, ih]
    | false =>
      have heq : n = { n with needsRetune := false } := by
        cases n
        simp only at hn
        subst hn
        rfl
      simp only [applyRetune, hn, Bool.false_eq_true, if_false, List.map_cons, ih]
      rw [← heq]

/-- The pitch wheel of a channel after the second loop of `updateFrequencyMapping`: as
before when no note of the channel is marked, and otherwise the value computed from the
target of a marked note of the channel. -/
theorem applyRetune_wheel {F : Type} [LinearOrderedField F] [FloorRing F] (pow : F → F → F)
    (log2 : F → F) (l : List (ActiveNote F)) (c : ℤ) (w : Option ℤ) :
    ((∀ n ∈ l, n.midiChannel = c → n.needsRetune = false) ∧
        pitchWheelFrom w (applyRetune pow log2 l).1 c = w) ∨
    (∃ n ∈ l, n.midiChannel = c ∧
        pitchWheelFrom w (applyRetune pow log2 l).1 c = some (ownPitchWheel pow log2 n)) := by
  induction l generalizing w with
  | nil => exact Or.inl ⟨(fun n hn => by cases hn), rfl⟩
  | cons n rest ih =>
    cases hn : n.needsRetune with
    | true =>
      have hcalls : pitchWheelFrom w (applyRetune pow log2 (n :: rest)).1 c =
          pitchWheelFrom (if n.midiChannel = c then some (ownPitchWheel pow log2 n) else w)
            (applyRetune pow log2 rest).1 c := by
        simp only [applyRetune, hn, if_true]
        rfl
      rw [hcalls]
      rcases ih (if n.midiChannel = c then some (ownPitchWheel pow log2 n) else w) with
        ⟨hall, hw⟩ | ⟨n', hmem, hch, hw⟩
      · by_cases hc : n.midiChannel = c
        · rw [if_pos hc] at hw
          rw [if_pos hc]
          exact Or.inr ⟨n, List.mem_cons_self _ _, hc, hw⟩
        · rw [if_neg hc] at hw
          rw [if_neg hc]
          refine Or.inl ⟨fun a ha hac => ?_, hw⟩
          rcases List.mem_cons.mp ha with rfl | ha'
          · exact absurd hac hc
          · exact hall a ha' hac
      · exact Or.inr ⟨n', List.mem_cons_of_mem _ hmem, hch, hw⟩
    | false =>
      have hcalls : pitchWheelFrom w (applyRetune pow log2 (n :: rest)).1 c =
          pitchWheelFrom w (applyRetune pow log2 rest).1 c := by
        simp only [applyRetune, hn, Bool.false_eq_true, if_false]
      rw [hcalls]
      rcases ih w with ⟨hall, hw⟩ | ⟨n', hmem, hch, hw⟩
      · refine Or.inl ⟨fun a ha hac => ?_, hw⟩
        rcases List.mem_cons.mp ha with rfl | ha'
        · exact hn
        · exact hall a ha' hac
      · exact Or.inr ⟨n', List.mem_cons_of_mem _ hmem, hch, hw⟩

/-- A call of `noteOn` keeps the invariant: the new note's own value is on its channel. -/
theorem wheelInvariant_noteOn {F : Type} [LinearOrderedField F] [FloorRing F]
    (pow : F → F → F) (log2 : F → F) (p : SoundFontPlayer F)
    (h : WheelInvariant pow log2 p) (ch note : ℤ) (vel : F) :
    WheelInvariant pow log2 (p.noteOn pow log2 ch note vel) := by
  obtain ⟨calls, hsf, hmark, hwheel⟩ := h
  unfold SoundFontPlayer.noteOn
  simp only [hsf]
  refine ⟨_, rfl, ?_, ?_⟩
  · intro n hn
    rcases List.mem_append.mp hn with h1 | h1
    · exact hmark n h1
    · rw [List.mem_singleton] at h1
      subst h1
      rfl
  · intro n hn
    simp only [currentPitchWheel, pitchWheelFrom_append, pitchWheelFrom_noteOn]
    by_cases hc : ch = n.midiChannel
    · rw [if_pos hc]
      exact ⟨_, List.mem_append_right _ (List.mem_singleton_self _), hc, rfl⟩
    · rw [if_neg hc]
      rcases List.mem_append.mp hn with h1 | h1
      · obtain ⟨n', hn', hch, hw⟩ := hwheel n h1
        exact ⟨n', List.mem_append_left _ hn', hch, hw⟩
      · rw [List.mem_singleton] at h1
        subst h1
        exact absurd rfl hc

/-- A call of `updateFrequencyMapping` keeps the invariant: a channel with retuned notes
carries the value of one of them, any other channel keeps its pitch wheel and its
targets. -/
theorem wheelInvariant_update {F : Type} [LinearOrderedField F] [FloorRing F]
    (pow : F → F → F) (log2 : F → F) (p : SoundFontPlayer F)
    (h : WheelInvariant pow log2 p) (m : ℤ → Option F) :
    WheelInvariant pow log2 (p.updateFrequencyMapping pow log2 m) := by
  obtain ⟨calls, hsf, hmark, hwheel⟩ := h
  unfold SoundFontPlayer.updateFrequencyMapping
  simp only [hsf]
  refine ⟨_, rfl, ?_, ?_⟩
  · intro n hn
    simp only [applyRetune_notes] at hn
    obtain ⟨a, _, rfl⟩ := List.mem_map.mp hn
    rfl
  · intro n hn
    simp only [applyRetune_notes] at hn
    obtain ⟨a, ha, rfl⟩ := List.mem_map.mp hn
    obtain ⟨b, hb, rfl⟩ := List.mem_map.mp ha
    have hchb := (markForRetune_cases m b).1
    simp only [applyRetune_notes, currentPitchWheel, pitchWheelFrom_append]
    rcases applyRetune_wheel pow log2 (p.activeNotes.map (markForRetune m))
        (markForRetune m b).midiChannel
        (pitchWheelFrom none calls (markForRetune m b).midiChannel) with
      ⟨hall, hw⟩ | ⟨a', ha', hch', hw⟩
    · obtain ⟨b', hb', hchb', hwb⟩ := hwheel b hb
      have hm' := markForRetune_cases m b'
      have hun : (markForRetune m b').needsRetune = false :=
        hall _ (List.mem_map_of_mem _ hb') (by rw [hm'.1, hchb', hchb])
      have heq : markForRetune m b' = b' := by
        rcases hm'.2 with h | h
        · exact h
        · rw [h] at hun
          cases hun
      refine ⟨{ markForRetune m b' with needsRetune := false },
        List.mem_map_of_mem _ (List.mem_map_of_mem _ hb'), ?_, ?_⟩
      · show (markForRetune m b').midiChannel = (markForRetune m b).midiChannel
        rw [hm'.1, hchb', hchb]
      · rw [hw, hchb, heq]
        exact hwb
    · exact ⟨{ a' with needsRetune := false }, List.mem_map_of_mem _ ha', hch', hw⟩

/-- Every sequence of `noteOn` and `updateFrequencyMapping` calls keeps the invariant. -/
theorem wheelInvariant_runOps {F : Type} [LinearOrderedField F] [FloorRing F]
    (pow : F → F → F) (log2 : F → F) (ops : List (PlayerOp F)) (p : SoundFontPlayer F)
    (h : WheelInvariant pow log2 p) : WheelInvariant pow log2 (runOps pow log2 p ops) := by
  induction ops generalizing p with
  | nil => exact h
  | cons op rest ih =>
    apply ih
    cases op with
    | noteOn ch note vel => exact wheelInvariant_noteOn pow log2 p h ch note vel
    | updateFrequencyMapping m => exact wheelInvariant_update pow log2 p h m

/-- The pitch-wheel value of a note's own 12-TET frequency is 8192. -/
theorem pitchWheel_twelveTet (note : ℤ) :
    pitchWheelValue (calculatePitchBendForFrequency Real.rpow (Real.logb 2) note
      (getMidiNoteFrequency Real.rpow note)) = 8192 := by
  rw [getMidiNoteFrequency_eq]
  have hs := twelveTetFrequency_pos note
  exact pitchWheel_center note _ hs (center_interval_self _ hs).1 (center_interval_self _ hs).2

/-- The target 110 Hz for note 57 (12-TET 220 Hz) is clamped to the bend -1 and gets the
pitch-wheel value 0. -/
theorem pitchWheel_octave_down :
    pitchWheelValue (calculatePitchBendForFrequency Real.rpow (Real.logb 2) 57 110) = 0 := by
  have hs : 440 * (2 : ℝ) ^ ((((57 : ℤ) : ℝ) - 69) / 12) = 220 := by
    have h : ((((57 : ℤ) : ℝ) - 69) / 12) = -1 := by norm_num
    rw [h, Real.rpow_neg_one]
    norm_num
  have hlog : Real.logb 2 (110 / 220) = -1 := by
    have h : (110 : ℝ) / 220 = 2⁻¹ := by norm_num
    rw [h, Real.logb_inv, Real.logb_self_eq_one (by norm_num)]
  rw [calculatePitchBendForFrequency_eq, hs, hlog,
    (jlimit_unit _).2.2 ((toFloat_unit _).2.2.1 (by norm_num))]
  exact pitchWheelValue_neg_one

/-- C28, as the code has it: after any sequence of `noteOn` and `updateFrequencyMapping`
calls on a loaded player without sounding notes, the player is still loaded and, for every
active note, the pitch wheel currently set on the note's channel is the value computed
from the target frequency of one of the active notes of that channel; it is the note's own
value when all active notes of the channel need that same value, as a note alone on its
channel does. -/
theorem C28_channel_pitch_wheel {F : Type} [LinearOrderedField F] [FloorRing F]
    (pow : F → F → F) (log2 : F → F) (p : SoundFontPlayer F) (calls0 : List (TsfCall F))
    (hloaded : p.soundFont = some calls0) (hnotes : p.activeNotes = [])
    (ops : List (PlayerOp F)) :
    ∃ calls, (runOps pow log2 p ops).soundFont = some calls ∧
      ∀ n ∈ (runOps pow log2 p ops).activeNotes,
        (∃ n' ∈ (runOps pow log2 p ops).activeNotes, n'.midiChannel = n.midiChannel ∧
          currentPitchWheel calls n.midiChannel = some (ownPitchWheel pow log2 n')) ∧
        ((∀ n' ∈ (runOps pow log2 p ops).activeNotes, n'.midiChannel = n.midiChannel →
            ownPitchWheel pow log2 n' = ownPitchWheel pow log2 n) →
          currentPitchWheel calls n.midiChannel = some (ownPitchWheel pow log2 n)) := by
  have hstart : WheelInvariant pow log2 p := by
    refine ⟨calls0, hloaded, ?_, ?_⟩
    · intro n hn
      rw [hnotes] at hn
      cases hn
    · intro n hn
      rw [hnotes] at hn
      cases hn
  obtain ⟨calls, hsf, _, hwheel⟩ := wheelInvariant_runOps pow log2 ops p hstart
  refine ⟨calls, hsf, fun n hn => ⟨hwheel n hn, fun hsame => ?_⟩⟩
  obtain ⟨n', hn', hch, hw⟩ := hwheel n hn
  rw [hw, hsame n' hn' hch]

/-- C28 for the loaded player and the calls of `separateChannelOps`, which put note 69 on
channel 0 and note 57 on channel 1. -/
theorem C28_channel_pitch_wheel_witness :
    (loadedPlayer : SoundFontPlayer ℝ).soundFont = some [] ∧
    (loadedPlayer : SoundFontPlayer ℝ).activeNotes = [] ∧
    ∃ calls, (runOps Real.rpow (Real.logb 2) loadedPlayer separateChannelOps).soundFont =
        some calls ∧
      ∀ n ∈ (runOps Real.rpow (Real.logb 2) loadedPlayer separateChannelOps).activeNotes,
        (∃ n' ∈ (runOps Real.rpow (Real.logb 2) loadedPlayer separateChannelOps).activeNotes,
          n'.midiChannel = n.midiChannel ∧
          currentPitchWheel calls n.midiChannel =
            some (ownPitchWheel Real.rpow (Real.logb 2) n')) ∧
        ((∀ n' ∈ (runOps Real.rpow (Real.logb 2) loadedPlayer separateChannelOps).activeNotes,
            n'.midiChannel = n.midiChannel →
            ownPitchWheel Real.rpow (Real.logb 2) n' =
              ownPitchWheel Real.rpow (Real.logb 2) n) →
          currentPitchWheel calls n.midiChannel =
            some (ownPitchWheel Real.rpow (Real.logb 2) n)) :=
  ⟨rfl, rfl, C28_channel_pitch_wheel Real.rpow (Real.logb 2) loadedPlayer [] rfl rfl
    separateChannelOps⟩

/-- C28, counterexample: on the loaded player the calls of `sharedChannelOps` start note
69 (no map entry, target its 12-TET 440 Hz, own pitch-wheel value 8192) and then note 57
(map entry 110 Hz, own value 0), both on channel 0.  Afterwards both notes are active and
the pitch wheel of channel 0 is 0, not the 8192 of note 69. -/
theorem C28_shared_channel_counterexample :
    (runOps Real.rpow (Real.logb 2) (loadedPlayer : SoundFontPlayer ℝ)
        sharedChannelOps).soundFont =
      some [TsfCall.channelSetPitchwheel 0 8192, TsfCall.channelSetPresetindex 0 0,
        TsfCall.channelNoteOn 0 69 1, TsfCall.channelSetPitchwheel 0 0,
        TsfCall.channelSetPresetindex 0 0, TsfCall.channelNoteOn 0 57 1] ∧
    (runOps Real.rpow (Real.logb 2) (loadedPlayer : SoundFontPlayer ℝ)
        sharedChannelOps).activeNotes.map
        (fun n => (n.midiChannel, n.midiNote, ownPitchWheel Real.rpow (Real.logb 2) n)) =
      [(0, 69, 8192), (0, 57, 0)] ∧
    currentPitchWheel
      ([TsfCall.channelSetPitchwheel 0 8192, TsfCall.channelSetPresetindex 0 0,
        TsfCall.channelNoteOn 0 69 1, TsfCall.channelSetPitchwheel 0 0,
        TsfCall.channelSetPresetindex 0 0, TsfCall.channelNoteOn 0 57 1] :
        List (TsfCall ℝ)) 0 = some 0 := by
  have hcalls : (runOps Real.rpow (Real.logb 2) (loadedPlayer : SoundFontPlayer ℝ)
        sharedChannelOps).soundFont =
      some [TsfCall.channelSetPitchwheel 0 (pitchWheelValue
          (calculatePitchBendForFrequency Real.rpow (Real.logb 2) 69
            (getMidiNoteFrequency Real.rpow 69))),
        TsfCall.channelSetPresetindex 0 0, TsfCall.channelNoteOn 0 69 1,
        TsfCall.channelSetPitchwheel 0 (pitchWheelValue
          (calculatePitchBendForFrequency Real.rpow (Real.logb 2) 57 110)),
        TsfCall.channelSetPresetindex 0 0, TsfCall.channelNoteOn 0 57 1] := rfl
  have hnotes : (runOps Real.rpow (Real.logb 2) (loadedPlayer : SoundFontPlayer ℝ)
        sharedChannelOps).activeNotes =
      [{ midiChannel := 0, midiNote := 69,
         targetFrequency := getMidiNoteFrequency Real.rpow 69, needsRetune := false },
       { midiChannel := 0, midiNote := 57, targetFrequency := 110,
         needsRetune := false }] := rfl
  refine ⟨?_, ?_, rfl⟩
  · rw [hcalls, pitchWheel_twelveTet, pitchWheel_octave_down]
  · rw [hnotes]
    simp only [List.map_cons, List.map_nil, ownPitchWheel, pitchWheel_twelveTet,
      pitchWheel_octave_down]

/-! ## Beats positions beyond the range of `int` -/

/-- The conversion to `int` of a value from `2 ^ 31` upwards. -/
theorem truncToInt_of_large {F : Type} [LinearOrderedField F] [FloorRing F] (x : F)
    (h : 2147483648 ≤ x) : truncToInt x = -2147483648 := by
  have h0 : (0 : F) ≤ x := le_trans (by norm_num) h
  have hfl : (2147483648 : ℤ) ≤ ⌊x⌋ := Int.le_floor.mpr (by push_cast; exact h)
  have hno : ¬ (-2147483648 ≤ ⌊x⌋ ∧ ⌊x⌋ ≤ 2147483647) := by omega
  simp only [truncToInt, h0, if_true, hno, if_false]

/-- A block played at beat `2 ^ 33` with sequence length 12 leaves the current measure
at -8, and the state is reachable with non-negative beats positions. -/
theorem largePositionExample_reached :
    updateCurrentMeasure Real.rpow (setSequenceLength (Processor.initial : Processor ℝ) 12)
        (playingAt 8589934592) = some largePositionExample ∧
    Reachable Real.rpow (fun b : ℝ => 0 ≤ b) (largePositionExample : Processor ℝ) := by
  have htrunc : truncToInt ((8589934592 : ℝ) / 4) = -2147483648 :=
    truncToInt_of_large _ (by norm_num)
  have hstep : updateCurrentMeasure Real.rpow
      (setSequenceLength (Processor.initial : Processor ℝ) 12) (playingAt 8589934592) =
      some largePositionExample := by
    rw [updateCurrentMeasure_playingAt Real.rpow _ _ (by decide), if_neg (by decide), htrunc]
    rfl
  refine ⟨hstep, Reachable.transport _ _ (playingAt 8589934592)
    (Reachable.setLength _ 12 Reachable.start) ?_ hstep⟩
  intro ph pos b h1 h2 h3
  have hb := playingAt_beat _ ph pos b h1 h2 h3
  subst hb
  norm_num

/-- When the read `measureRoots[currentMeasure]` is outside the array, neither the root
frequency nor the frequency map is defined, in either mode. -/
theorem updateFrequencyMap_outside {F : Type} [LinearOrderedField F] (pow : F → F → F)
    (s : Processor F) (h : s.rootAt s.currentMeasure = none) :
    getCurrentMeasureRootFrequency pow s = none ∧ updateFrequencyMap pow s = none := by
  have hroot : ∀ g : ℤ → Option F,
      getCurrentMeasureRootFrequency pow { s with currentFrequencyMap := g } = none := by
    intro g
    have hg : Processor.rootAt { s with currentFrequencyMap := g } s.currentMeasure = none := h
    simp only [getCurrentMeasureRootFrequency, hg]
  have hself : getCurrentMeasureRootFrequency pow s = none := by
    simp only [getCurrentMeasureRootFrequency, h]
  refine ⟨hself, ?_⟩
  have hrange : List.range 128 = 0 :: List.map Nat.succ (List.range 127) :=
    List.range_succ_eq_map 127
  have hfirst : updateFrequencyMapStep pow { s with currentFrequencyMap := fun _ => none } 0 =
      none := by
    simp only [updateFrequencyMapStep, midiNoteToFrequency, hroot]
  rw [updateFrequencyMap, hrange, List.foldlM_cons, hfirst]
  rfl

/-- With the current measure at -8 the read `measureRoots[currentMeasure]` is outside the
array, and neither the root frequency nor the frequency map is defined. -/
theorem largePositionExample_undefined :
    (largePositionExample : Processor ℝ).rootAt
        (largePositionExample : Processor ℝ).currentMeasure = none ∧
    getCurrentMeasureRootFrequency Real.rpow (largePositionExample : Processor ℝ) = none ∧
    updateFrequencyMap Real.rpow (largePositionExample : Processor ℝ) = none :=
  ⟨rfl, (updateFrequencyMap_outside Real.rpow largePositionExample rfl).1,
    (updateFrequencyMap_outside Real.rpow largePositionExample rfl).2⟩

/-- C29, counterexample: the engine set to sequence length 12 and given one block played
at the non-negative beat `2 ^ 33` is left with `currentMeasure = -8` (the count of measures
`2 ^ 31` does not fit an `int`, the conversion yields `INT_MIN`, and `INT_MIN % 12 = -8`),
so the read `measureRoots[currentMeasure]` of the frequency derivation is outside the
16-slot array. -/
theorem C29_large_position_counterexample :
    (0 : ℝ) ≤ 8589934592 ∧
    updateCurrentMeasure Real.rpow (setSequenceLength (Processor.initial : Processor ℝ) 12)
        (playingAt 8589934592) = some largePositionExample ∧
    Reachable Real.rpow (fun b : ℝ => 0 ≤ b) (largePositionExample : Processor ℝ) ∧
    (largePositionExample : Processor ℝ).currentMeasure = -8 ∧
    ¬ (0 ≤ (largePositionExample : Processor ℝ).currentMeasure) ∧
    (largePositionExample : Processor ℝ).rootAt
        (largePositionExample : Processor ℝ).currentMeasure = none ∧
    getCurrentMeasureRootFrequency Real.rpow (largePositionExample : Processor ℝ) = none :=
  ⟨by norm_num, largePositionExample_reached.1, largePositionExample_reached.2, rfl,
    by decide, largePositionExample_undefined.1, largePositionExample_undefined.2.1⟩

end Flooji
